import Mathlib

/-!
caerus-dikeHDFS: the block-bounded asynchronous record reader.

A shallow embedding of `dikeHDFS/src/DikeAsyncReader.hpp` (classes `DikeRecord`
and `DikeAsyncReader`) and theorems about it.

* Bytes are natural numbers, byte regions are lists.
* Pointers are symbolic addresses: into one of the pool buffers
  (`memPool + id * BUFFER_SIZE + off`) or into the record's overflow arena.
* `int` members are integers reduced to 32 bits by `toInt32` wherever the code
  stores them; `uint64_t` members are natural numbers.
* The consumer thread's member functions are functions on the reader state.
  `getBuffer` blocks on `work_sem` when no buffer is ready, so every function
  that can reach it returns an `Option`: `none` means the call does not return
  in this state.
* The Worker thread is a pair of steps on the same state (`workerTake`,
  `workerPublish`); the bytes its `input->read` call returns are a parameter.
-/

namespace Dike

/-! ## Constants -/

/-- The enumerator `DikeRecord::FIELED_SIZE`. -/
def FIELED_SIZE : Nat := 1024

/-- The enumerator `DikeRecord::MAX_COLUMNS`. -/
def MAX_COLUMNS : Nat := 128

/-- The enumerator `DikeAsyncReader::QUEUE_SIZE`. -/
def QUEUE_SIZE : Nat := 4

/-- The enumerator `DikeAsyncReader::BUFFER_SIZE = (128 << 10)`. -/
def BUFFER_SIZE : Nat := 128 <<< 10

/-! ## Machine integers -/

/-- Conversion of an integer to `int` (32 bits, two's complement). -/
def toInt32 (x : Int) : Int := (x + 2147483648) % 4294967296 - 2147483648

/-- Conversion of an integer to `uint64_t`. -/
def toUInt64 (x : Int) : Int := x % 18446744073709551616

/-- The values an `int` can hold. -/
def IsInt32 (x : Int) : Prop := -2147483648 ≤ x ∧ x < 2147483648

instance (x : Int) : Decidable (IsInt32 x) := by
  unfold IsInt32
  infer_instance

/-! ## Data model -/

/-- Modelled from the spec: the class `DikeBuffer` of `DikeBuffer.hpp`, which is
not among the sources. The spec's Fixed Buffer is "a reusable, fixed-capacity
byte region with a read cursor and a valid-data end marker" with "a stable
identity (pool slot index)". `data` holds the bytes from `startPtr` up to
`endPtr`, `pos` is `posPtr - startPtr`. -/
structure DikeBuffer where
  id : Nat
  data : List Nat
  pos : Nat
deriving DecidableEq, Repr

/-- Modelled from the spec: `DikeBuffer::reset` followed by
`DikeBuffer::setReadableBytes(n)` after `input->read` stored the `n` bytes
`chunk` at `startPtr` ("reset its cursor/end markers", "record how many bytes
were actually read"). -/
def DikeBuffer.refill (b : DikeBuffer) (chunk : List Nat) : DikeBuffer :=
  { b with data := chunk, pos := 0 }

/-- The bytes from the cursor to the end marker. -/
def DikeBuffer.rest (b : DikeBuffer) : List Nat := b.data.drop b.pos

/-- A value of type `uint8_t *`. -/
inductive Ptr where
  | null
  | inBuffer (id : Nat) (off : Nat)
  | inArena (off : Nat)
deriving DecidableEq, Repr

/-- Pointer arithmetic `p + n`. -/
def Ptr.add : Ptr → Nat → Ptr
  | .null, _ => .null
  | .inBuffer id off, n => .inBuffer id (off + n)
  | .inArena off, n => .inArena (off + n)

/-- The class `DikeRecord`. The arrays `fields` and `len` are functions of the
index (the code's arrays end at `MAX_COLUMNS`); `arena` is the block of
`FIELED_SIZE * MAX_COLUMNS` bytes allocated by the constructor, addressed by
the offset from its first byte (the code does not check that offset). -/
structure DikeRecord where
  nCol : Nat
  fields : Nat → Ptr
  len : Nat → Int
  arena : Nat → Nat

/-- The address `buf + i * FIELED_SIZE` of the overflow region of column `i`, as
an arena offset. The constructor stores it in `fieldMemory[i]` for `i < nCol`
only; `DikeRecord.fieldMemoryAt` is the member as `readField` reads it. -/
def fieldMemory (i : Nat) : Nat := i * FIELED_SIZE

/-- The constructor `DikeRecord(col)`; `arena` is the content of the fresh
allocation. The code initialises the entries below `col` only; the model gives
every entry of `fields` and `len` that initial value (the functions below write
an entry before they read it), and keeps `fieldMemory` unset from `col` on, see
`DikeRecord.fieldMemoryAt`. -/
def DikeRecord.new (col : Nat) (arena : Nat → Nat) : DikeRecord :=
  { nCol := col, fields := fun _ => Ptr.null, len := fun _ => 0, arena := arena }

/-- The member `fieldMemory[i]` of a record: the constructor's loop
`for(i = 0; i < nCol; i++)` sets it for `i < nCol`; for every other index it is
unset, which is `none`. -/
def DikeRecord.fieldMemoryAt (r : DikeRecord) (i : Nat) : Option Nat :=
  if i < r.nCol then some (fieldMemory i) else none

/-- The class `DikeAsyncReader`, once `initRecord` has run. `filling` is the
local variable `b` of `Worker` between `free_q.pop()` and `work_q.push(b)`.
The members `input`, `memPool` and `blockOffset` are read by none of the
functions below and are left out; the two semaphores count the buffers in
`free_q` and `work_q` and are represented by those queues. -/
structure DikeAsyncReader where
  blockSize : Nat
  bytesRead : Int
  fDelim : Int
  rDelim : Int
  qDelim : Int
  record : DikeRecord
  work_q : List DikeBuffer
  free_q : List DikeBuffer
  tmp_q : List DikeBuffer
  isRunning : Bool
  buffer : Option DikeBuffer
  pushCount : Int
  emptyCount : Int
  recordCount : Nat
  filling : Option DikeBuffer

/-! ## Consumer operations -/

/-- The member function `isEOF`: in `bytesRead > blockSize` the `int` operand is
converted to `uint64_t`. -/
def isEOF (s : DikeAsyncReader) : Bool :=
  decide (0 < s.blockSize) && decide ((s.blockSize : Int) < toUInt64 s.bytesRead)

/-- The member function `holdBuffer`. -/
def holdBuffer (buf : DikeBuffer) (s : DikeAsyncReader) : DikeAsyncReader :=
  { s with tmp_q := s.tmp_q ++ [buf] }

/-- The member function `pushBuffer`. -/
def pushBuffer (buf : DikeBuffer) (s : DikeAsyncReader) : DikeAsyncReader :=
  { s with
    pushCount := toInt32 (s.pushCount + 1)
    emptyCount := if s.free_q = [] then toInt32 (s.emptyCount + 1) else s.emptyCount
    free_q := s.free_q ++ [buf] }

/-- The loop of `releaseBuffers`, by recursion on the content of `tmp_q`. -/
def releaseLoop : List DikeBuffer → DikeAsyncReader → DikeAsyncReader
  | [], s => { s with tmp_q := [] }
  | b :: q, s => releaseLoop q (pushBuffer b { s with tmp_q := q })

/-- The member function `releaseBuffers`. -/
def releaseBuffers (s : DikeAsyncReader) : DikeAsyncReader :=
  releaseLoop s.tmp_q s

/-- The member function `getBuffer`: `sem_wait(&work_sem)` returns only when a
buffer is in `work_q`. -/
def getBuffer (s : DikeAsyncReader) : Option (DikeBuffer × DikeAsyncReader) :=
  match s.work_q with
  | [] => none
  | b :: q => some (b, { s with work_q := q })

/-- How a scanning loop over the bytes up to `endPtr` ends. -/
inductive Scan where
  | found (k : Nat)
  | exhausted (underQuote : Bool)
deriving DecidableEq, Repr

/-- The first loop of `readField` over the bytes from `posPtr` to
`buffer->endPtr`; `k` is `posPtr - buffer->posPtr`. `found k` is the exit
through `return 0` with the delimiter at offset `k` from the cursor. -/
def scanField (fDelim rDelim qDelim : Int) : List Nat → Bool → Nat → Scan
  | [], underQuote, _ => .exhausted underQuote
  | c :: rest, underQuote, k =>
    let underQuote := if (c : Int) = qDelim then !underQuote else underQuote
    if underQuote = false ∧ ((c : Int) = fDelim ∨ (c : Int) = rDelim) then .found k
    else scanField fDelim rDelim qDelim rest underQuote (k + 1)

/-- The loop "Copy first part" of `readField`: returns the arena, `fieldPtr`
and `count`. -/
def copyFirst : List Nat → (Nat → Nat) → Nat → Nat → (Nat → Nat) × Nat × Nat
  | [], arena, fieldPtr, count => (arena, fieldPtr, count)
  | c :: rest, arena, fieldPtr, count =>
    copyFirst rest (Function.update arena fieldPtr c) (fieldPtr + 1) (count + 1)

/-- How the loop "Copy second part" ends. -/
inductive Copy where
  | found (arena : Nat → Nat) (count : Nat) (k : Nat)
  | exhausted (arena : Nat → Nat)

/-- The loop "Copy second part" of `readField` over the bytes of the new
buffer; `k` is `posPtr - buffer->posPtr`. `found arena count k` is the exit
through `return 0`, with `k` the offset of `posPtr` after `posPtr++`. -/
def copySecond (fDelim rDelim qDelim : Int) :
    List Nat → Bool → (Nat → Nat) → Nat → Nat → Nat → Copy
  | [], _, arena, _, _, _ => .exhausted arena
  | c :: rest, underQuote, arena, fieldPtr, count, k =>
    let underQuote := if (c : Int) = qDelim then !underQuote else underQuote
    if underQuote = false ∧ ((c : Int) = fDelim ∨ (c : Int) = rDelim) then
      .found (Function.update arena fieldPtr 0) (count + 1) (k + 1)
    else
      copySecond fDelim rDelim qDelim rest underQuote
        (Function.update arena fieldPtr c) (fieldPtr + 1) (count + 1) (k + 1)

/-- The member function `readField`. The result is the returned `int` and the
state after the call. `count` is kept exact in the loops and reduced to `int`
where it is stored, which gives the same 32-bit value as reducing at every
`count++`; additions to `bytesRead` are reduced to `int` (two's complement).
`none` is a call that does not return a result: it waits in `getBuffer` on an
empty ready queue, or, on the slow path, it copies through the unset member
`fieldMemory[pos]` of a column `pos ≥ nCol`, which has no defined behaviour. -/
def readField (pos : Nat) (s : DikeAsyncReader) : Option (Int × DikeAsyncReader) :=
  match s.buffer with
  | none => none
  | some buf =>
    let fields0 := Function.update s.record.fields pos (Ptr.inBuffer buf.id buf.pos)
    match scanField s.fDelim s.rDelim s.qDelim buf.rest false 0 with
    | .found k =>
      some (0,
        { s with
          record := { s.record with
            fields := fields0
            len := Function.update s.record.len pos (toInt32 ((k : Int) + 1)) }
          buffer := some { buf with data := buf.data.set (buf.pos + k) 0, pos := buf.pos + k + 1 }
          bytesRead := toInt32 (s.bytesRead + ((k : Int) + 1)) })
    | .exhausted underQuote =>
      match s.record.fieldMemoryAt pos with
      | none => none
      | some base =>
        let fields1 := Function.update fields0 pos (Ptr.inArena base)
        let (arena1, fieldPtr, count) := copyFirst buf.rest s.record.arena base 0
        match getBuffer (holdBuffer buf s) with
        | none => none
        | some (nbuf, s1) =>
          match copySecond s.fDelim s.rDelim s.qDelim nbuf.rest underQuote arena1 fieldPtr count 0 with
          | .found arena2 count2 k =>
            some (0,
              { s1 with
                record := { s.record with
                  fields := fields1
                  len := Function.update s.record.len pos (toInt32 count2)
                  arena := arena2 }
                buffer := some { nbuf with pos := nbuf.pos + k }
                bytesRead := toInt32 (s.bytesRead + toInt32 count2) })
          | .exhausted arena2 =>
            some (1,
              { s1 with
                record := { s.record with fields := fields1, arena := arena2 }
                buffer := some nbuf })

/-- The `for` loop of `readRecord`: `n` columns are left, `i` is the loop
variable. -/
def readRecordLoop : Nat → Nat → DikeAsyncReader → Option (Int × DikeAsyncReader)
  | 0, _, s => some (0, s)
  | n + 1, i, s =>
    let s0 := { s with record := { s.record with fields := Function.update s.record.fields i Ptr.null } }
    match readField i s0 with
    | none => none
    | some (r, s1) => if r ≠ 0 then some (1, s1) else readRecordLoop n (i + 1) s1

/-- The member function `readRecord`. -/
def readRecord (s : DikeAsyncReader) : Option (Int × DikeAsyncReader) :=
  if isEOF s then some (1, s)
  else
    let s1 := releaseBuffers s
    let s2 := { s1 with recordCount := (s1.recordCount + 1) % 18446744073709551616 }
    readRecordLoop s2.record.nCol 0 s2

/-- The loop of `seekRecord` over the bytes from `posPtr` to `buffer->endPtr`:
the offset of the first record delimiter outside quotes. -/
def scanRecord (rDelim qDelim : Int) : List Nat → Bool → Nat → Option Nat
  | [], _, _ => none
  | c :: rest, underQuote, k =>
    let underQuote := if (c : Int) = qDelim then !underQuote else underQuote
    if underQuote = false ∧ (c : Int) = rDelim then some k
    else scanRecord rDelim qDelim rest underQuote (k + 1)

/-- The member function `seekRecord`. -/
def seekRecord (s : DikeAsyncReader) : Option (Int × DikeAsyncReader) :=
  match s.buffer with
  | none => none
  | some buf =>
    match scanRecord s.rDelim s.qDelim buf.rest false 0 with
    | some k =>
      some (0,
        { s with
          bytesRead := toInt32 (s.bytesRead + ((k : Int) + 1))
          buffer := some { buf with pos := buf.pos + k + 1 } })
    | none => some (1, s)

/-- The loop of `getColumnCount` over the bytes from `posPtr` to
`buffer->endPtr`. -/
def countColumns (fDelim rDelim qDelim : Int) : List Nat → Bool → Nat → Nat
  | [], _, nCol => nCol
  | c :: rest, underQuote, nCol =>
    let underQuote := if (c : Int) = qDelim then !underQuote else underQuote
    if underQuote = false then
      if (c : Int) = fDelim then countColumns fDelim rDelim qDelim rest underQuote (nCol + 1)
      else if (c : Int) = rDelim then nCol + 1
      else countColumns fDelim rDelim qDelim rest underQuote nCol
    else countColumns fDelim rDelim qDelim rest underQuote nCol

/-- The member function `getColumnCount`. -/
def getColumnCount (s : DikeAsyncReader) : Option Nat :=
  match s.buffer with
  | none => none
  | some buf => some (countColumns s.fDelim s.rDelim s.qDelim buf.rest false 0)

/-! ## Construction and the Worker -/

/-- The constructor up to `startWorker()`: the pool buffers in `free_q`, no
current buffer yet. `record` is what `initRecord` will install. -/
def construct (blockSize : Nat) (record : DikeRecord) : DikeAsyncReader :=
  { blockSize := blockSize
    bytesRead := 0
    fDelim := 44
    rDelim := 10
    qDelim := 34
    record := record
    work_q := []
    free_q := (List.range QUEUE_SIZE).map (fun i => { id := i, data := [], pos := 0 })
    tmp_q := []
    isRunning := true
    buffer := none
    pushCount := 0
    emptyCount := 0
    recordCount := 0
    filling := none }

/-- The last statement of the constructor, `buffer = getBuffer()`. -/
def ctorGetBuffer (s : DikeAsyncReader) : Option DikeAsyncReader :=
  match s.buffer, getBuffer s with
  | none, some (b, s1) => some { s1 with buffer := some b }
  | _, _ => none

/-- First half of one iteration of `Worker`: from `sem_wait(&free_sem)` to
`free_q.pop()`. `none` when the Worker waits or returns. -/
def workerTake (s : DikeAsyncReader) : Option DikeAsyncReader :=
  if isEOF s then none
  else if s.isRunning = false then none
  else
    match s.filling, s.free_q with
    | none, b :: q => some { s with free_q := q, filling := some b }
    | _, _ => none

/-- Second half of one iteration of `Worker`: `b->reset()`, the read that
returns the bytes `chunk`, `setReadableBytes` and `work_q.push(b)`. The `memset`
writes past the end marker only, where the model keeps no bytes. -/
def workerPublish (chunk : List Nat) (s : DikeAsyncReader) : Option DikeAsyncReader :=
  match s.filling with
  | none => none
  | some b => some { s with filling := none, work_q := s.work_q ++ [b.refill chunk] }

/-! ## The system as a transition relation -/

/-- Setting the public delimiter members. -/
def setDelims (f r q : Int) (s : DikeAsyncReader) : DikeAsyncReader :=
  { s with fDelim := f, rDelim := r, qDelim := q }

/-- One step of the reader: a Worker step, the constructor's `getBuffer`, a
change of delimiters, or a call of the tokenizer that returns. -/
inductive Step : DikeAsyncReader → DikeAsyncReader → Prop where
  | take {s t : DikeAsyncReader} : workerTake s = some t → Step s t
  | publish {s t : DikeAsyncReader} (chunk : List Nat) :
      chunk.length ≤ BUFFER_SIZE → workerPublish chunk s = some t → Step s t
  | ctorGet {s t : DikeAsyncReader} : ctorGetBuffer s = some t → Step s t
  | delims {s : DikeAsyncReader} (f r q : Int) : Step s (setDelims f r q s)
  | seek {s t : DikeAsyncReader} {r : Int} : seekRecord s = some (r, t) → Step s t
  | field {s t : DikeAsyncReader} {r : Int} (pos : Nat) : readField pos s = some (r, t) → Step s t
  | record {s t : DikeAsyncReader} {r : Int} : readRecord s = some (r, t) → Step s t

/-- The states the reader can be in: those reached from construction by
steps. -/
inductive Reachable : DikeAsyncReader → Prop where
  | init (blockSize : Nat) (record : DikeRecord) : Reachable (construct blockSize record)
  | step {s t : DikeAsyncReader} : Reachable s → Step s t → Reachable t

/-- The identities of the pool buffers the state knows, in the order current
buffer, held queue, ready queue, free queue, buffer being filled. -/
def poolIds (s : DikeAsyncReader) : List Nat :=
  (s.buffer.toList ++ s.tmp_q ++ s.work_q ++ s.free_q ++ s.filling.toList).map DikeBuffer.id

/-- The identities of the current buffer and of the held buffers. -/
def heldIds (s : DikeAsyncReader) : List Nat :=
  (s.buffer.toList ++ s.tmp_q).map DikeBuffer.id

/-- The identities of the buffers the Worker may refill: ready queue, free
queue and the buffer being filled. -/
def workerIds (s : DikeAsyncReader) : List Nat :=
  (s.work_q ++ s.free_q ++ s.filling.toList).map DikeBuffer.id

/-! ## Specification vocabulary -/

/-- The quote flag after the bytes `bs`: it starts at `underQuote` and is
toggled by every quote byte. -/
def quoteFlag (qDelim : Int) (underQuote : Bool) (bs : List Nat) : Bool :=
  bs.foldl (fun (u : Bool) (c : Nat) => if (c : Int) = qDelim then !u else u) underQuote

/-- The number of quote bytes in `bs`. -/
def quoteCount (qDelim : Int) (bs : List Nat) : Nat :=
  bs.countP (fun (c : Nat) => decide ((c : Int) = qDelim))

/-- Byte `k` of `bs` is a field or record delimiter outside quotes, the quote
flag being `underQuote` before `bs` (the byte itself toggles the flag when it
is a quote byte, as in the code). -/
def DelimAt (fDelim rDelim qDelim : Int) (underQuote : Bool) (bs : List Nat) (k : Nat) : Prop :=
  k < bs.length ∧ (((bs.getD k 0 : Nat) : Int) = fDelim ∨ ((bs.getD k 0 : Nat) : Int) = rDelim) ∧
    quoteFlag qDelim underQuote (bs.take (k + 1)) = false

instance (fDelim rDelim qDelim : Int) (underQuote : Bool) (bs : List Nat) (k : Nat) :
    Decidable (DelimAt fDelim rDelim qDelim underQuote bs k) := by
  unfold DelimAt
  infer_instance

/-- Byte `k` of `bs` is the first field or record delimiter outside quotes. -/
def FirstDelimAt (fDelim rDelim qDelim : Int) (underQuote : Bool) (bs : List Nat) (k : Nat) : Prop :=
  DelimAt fDelim rDelim qDelim underQuote bs k ∧
    ∀ j, j < k → ¬ DelimAt fDelim rDelim qDelim underQuote bs j

instance (fDelim rDelim qDelim : Int) (underQuote : Bool) (bs : List Nat) (k : Nat) :
    Decidable (FirstDelimAt fDelim rDelim qDelim underQuote bs k) := by
  unfold FirstDelimAt
  infer_instance

/-- The arena after the bytes `bs` were stored from offset `p` on. -/
def store (arena : Nat → Nat) (p : Nat) : List Nat → (Nat → Nat)
  | [] => arena
  | c :: bs => store (Function.update arena p c) (p + 1) bs

/-- The number of record delimiter bytes outside quotes in `bs`, the quote flag
being `underQuote` before `bs`. -/
def recordDelims (rDelim qDelim : Int) : List Nat → Bool → Nat
  | [], _ => 0
  | c :: rest, underQuote =>
    let underQuote := if (c : Int) = qDelim then !underQuote else underQuote
    (if underQuote = false ∧ (c : Int) = rDelim then 1 else 0) +
      recordDelims rDelim qDelim rest underQuote

/-- The number of `readRecord` calls that return 0 before the first call that
returns something else, among at most `fuel` calls. -/
def successfulCalls : Nat → DikeAsyncReader → Nat
  | 0, _ => 0
  | fuel + 1, s =>
    match readRecord s with
    | none => 0
    | some (r, s1) => if r = 0 then successfulCalls fuel s1 + 1 else 0

/-- The bytes of a queue of buffers, in queue order, each from its cursor. -/
def pendingQ : List DikeBuffer → List Nat
  | [] => []
  | b :: q => b.rest ++ pendingQ q

/-- The bytes the reader has not consumed yet: the rest of the current buffer
followed by the bytes of the ready buffers, in queue order. -/
def pending (s : DikeAsyncReader) : List Nat :=
  pendingQ (s.buffer.toList ++ s.work_q)

/-- A ready queue as full reads leave it: every buffer holds at least
`FIELED_SIZE` bytes, except that the last buffer with data may hold fewer and
the buffers after it are empty (the source is exhausted). -/
def Chunked : List DikeBuffer → Prop
  | [] => True
  | b :: q => (FIELED_SIZE ≤ b.rest.length ∨ ∀ c ∈ q, c.rest = []) ∧ Chunked q

instance instDecidableChunked : (q : List DikeBuffer) → Decidable (Chunked q)
  | [] => isTrue trivial
  | b :: q =>
    have : Decidable (Chunked q) := instDecidableChunked q
    by unfold Chunked; infer_instance

/-- The buffer of the pool with identity `id`, wherever it is. -/
def bufferById (s : DikeAsyncReader) (id : Nat) : Option DikeBuffer :=
  (s.buffer.toList ++ s.tmp_q ++ s.work_q ++ s.free_q ++ s.filling.toList).find?
    (fun b => decide (b.id = id))

/-- The `n` bytes at the address `p`, as the caller of the reader sees them. -/
def loadBytes (s : DikeAsyncReader) : Ptr → Nat → Option (List Nat)
  | .null, _ => none
  | .inArena off, n => some ((List.range n).map (fun i => s.record.arena (off + i)))
  | .inBuffer id off, n =>
    match bufferById s id with
    | none => none
    | some b => if off + n ≤ b.data.length then some ((b.data.drop off).take n) else none

/-- The bytes of column `j` of the record: `len[j]` bytes at `fields[j]`. -/
def fieldBytes (s : DikeAsyncReader) (j : Nat) : Option (List Nat) :=
  loadBytes s (s.record.fields j) (s.record.len j).toNat

/-- Bytes of a string literal. -/
def bytes (str : String) : List Nat := str.toList.map Char.toNat

/-- A field: the content `f` holds no delimiter outside quotes and the byte `d`
after it is a field or record delimiter outside quotes. -/
def IsField (fDelim rDelim qDelim : Int) (f : List Nat) (d : Nat) : Prop :=
  FirstDelimAt fDelim rDelim qDelim false (f ++ [d]) f.length

instance (fDelim rDelim qDelim : Int) (f : List Nat) (d : Nat) :
    Decidable (IsField fDelim rDelim qDelim f d) := by
  unfold IsField
  infer_instance

/-- A field content without quote bytes and without delimiter bytes. -/
def Plain (fDelim rDelim qDelim : Int) (f : List Nat) : Prop :=
  ∀ c ∈ f, (c : Int) ≠ fDelim ∧ (c : Int) ≠ rDelim ∧ (c : Int) ≠ qDelim

instance (fDelim rDelim qDelim : Int) (f : List Nat) : Decidable (Plain fDelim rDelim qDelim f) := by
  unfold Plain
  infer_instance

/-- The bytes of a sequence of fields, each followed by its delimiter. -/
def encode : List (List Nat × Nat) → List Nat
  | [] => []
  | x :: fs => x.1 ++ x.2 :: encode fs

/-- The bytes of a sequence of fields, each followed by the terminator 0. -/
def terminated : List (List Nat × Nat) → List Nat
  | [] => []
  | x :: fs => x.1 ++ 0 :: terminated fs

/-- The field pointers of columns `i`, `i + 1`, ... when the fields `fs` lie one
after the other from offset `off` of the pool buffer `id`. -/
def fieldsAfter (id : Nat) : List (List Nat × Nat) → Nat → Nat → (Nat → Ptr) → (Nat → Ptr)
  | [], _, _, F => F
  | x :: fs, i, off, F =>
    fieldsAfter id fs (i + 1) (off + x.1.length + 1) (Function.update F i (Ptr.inBuffer id off))

/-- The lengths of columns `i`, `i + 1`, ... for the fields `fs`: content length
plus one. -/
def lenAfter : List (List Nat × Nat) → Nat → (Nat → Int) → (Nat → Int)
  | [], _, L => L
  | x :: fs, i, L =>
    lenAfter fs (i + 1) (Function.update L i (toInt32 ((x.1.length : Int) + 1)))

/-- The counter `bytesRead` after the fields `fs` were read one by one, each
adding its content length plus one. -/
def bytesAfter : List (List Nat × Nat) → Int → Int
  | [], x => x
  | y :: fs, x => bytesAfter fs (toInt32 (x + ((y.1.length : Int) + 1)))

/-- The fields of one record with their delimiters: the field delimiter after
every field but the last, the record delimiter after the last. -/
def recordFields (fD rD : Nat) : List (List Nat) → List (List Nat × Nat)
  | [] => []
  | [f] => [(f, rD)]
  | f :: g :: fs => (f, fD) :: recordFields fD rD (g :: fs)

/-- The bytes of a sequence of records. -/
def encodeRecords (fD rD : Nat) : List (List (List Nat)) → List Nat
  | [] => []
  | r :: rs => encode (recordFields fD rD r) ++ encodeRecords fD rD rs

/-- The state after `n` calls of `readRecord`, whatever they returned. -/
def afterCalls : Nat → DikeAsyncReader → Option DikeAsyncReader
  | 0, s => some s
  | n + 1, s =>
    match readRecord s with
    | none => none
    | some (_, s1) => afterCalls n s1

/-! ## Concrete states -/

/-- A reader after construction and `initRecord(nCol)` whose current buffer
(pool slot 0) holds `cur` with the cursor at `pos`, and whose ready queue holds
the buffers `ready` (pool slots 1, 2, ...). -/
def readerOn (blockSize : Nat) (nCol : Nat) (cur : List Nat) (pos : Nat)
    (ready : List (List Nat)) : DikeAsyncReader :=
  { construct blockSize (DikeRecord.new nCol (fun _ => 255)) with
    free_q := []
    buffer := some { id := 0, data := cur, pos := pos }
    work_q := ready.enum.map (fun x => { id := x.1 + 1, data := x.2, pos := 0 }) }

/-- The record `"a,b",c\n` (bytes 34 97 44 98 34 44 99 10) whole in the current
buffer, two columns. -/
def quotedWhole : DikeAsyncReader :=
  readerOn 0 2 [34, 97, 44, 98, 34, 44, 99, 10] 0 [[]]

/-- The same record split inside the quoted region: `"a` ends the current
buffer and `,b",c\n` is the next ready buffer. -/
def quotedSplit : DikeAsyncReader :=
  readerOn 0 2 [34, 97] 0 [[44, 98, 34, 44, 99, 10]]

/-- The input `1,2,3\n4,5,6\n` with three columns and a block-size limit of 3
bytes. -/
def limited : DikeAsyncReader :=
  readerOn 3 3 (bytes "1,2,3\n4,5,6\n") 0 [[]]

/-- The same input and limit, the input split after `1,2` between the current
buffer and the next ready buffer, followed by an empty buffer. -/
def limitedSplit : DikeAsyncReader :=
  readerOn 3 3 (bytes "1,2") 0 [bytes ",3\n4,5,6\n", []]

/-- The input `1,2,3\n4,5,6\n` without limit, split after `1,2`, followed by an
empty buffer. -/
def splitInput : DikeAsyncReader :=
  readerOn 0 3 (bytes "1,2") 0 [bytes ",3\n4,5,6\n", []]

/-- The input `abc\n`, one record of one field, delivered by short reads as
`a`, `b` and `c\n`, followed by an empty buffer; one column. -/
def shortReads : DikeAsyncReader :=
  readerOn 0 1 (bytes "a") 0 [bytes "b", bytes "c\n", []]

/-- The input `abc,` delivered by short reads as `a`, `b` and `c,`; one
column. -/
def threeBuffers : DikeAsyncReader :=
  readerOn 0 1 (bytes "a") 0 [bytes "b", bytes "c,"]

/-- The input `1,2\n` read with one column; the source is exhausted after it. -/
def oneColumn : DikeAsyncReader :=
  readerOn 0 1 (bytes "1,2\n") 0 [[], [], []]

/-- The input `1,2\n3,4\n` read with four columns. -/
def fourColumns : DikeAsyncReader :=
  readerOn 0 4 (bytes "1,2\n3,4\n") 0 [[], [], []]

/-- The reader right after construction on a source whose first read returned
`1,2,3\n`: the Worker took pool buffer 0, filled and published it, and the
constructor made it the current buffer. -/
def started : DikeAsyncReader :=
  { construct 0 (DikeRecord.new 3 (fun _ => 0)) with
    free_q := [{ id := 1, data := [], pos := 0 }, { id := 2, data := [], pos := 0 },
      { id := 3, data := [], pos := 0 }]
    buffer := some { id := 0, data := bytes "1,2,3\n", pos := 0 } }

/-! ## Further concrete states -/

/-- A reader with two held buffers (pool slots 1 and 2), an empty free queue
and the current buffer `x\n`. -/
def heldTwo : DikeAsyncReader :=
  { readerOn 0 1 (bytes "x\n") 0 [] with
    tmp_q := [{ id := 1, data := bytes "a", pos := 1 }, { id := 2, data := bytes "b", pos := 1 }] }

/-! ## Record delimiters outside quotes -/

/-- Offset `k` of `bs` holds a record delimiter outside quotes, the scan having
started with quote flag `underQuote`: the test of `seekRecord`. -/
def RecDelimAt (rDelim qDelim : Int) (underQuote : Bool) (bs : List Nat) (k : Nat) : Prop :=
  k < bs.length ∧ ((bs.getD k 0 : Nat) : Int) = rDelim ∧
    quoteFlag qDelim underQuote (bs.take (k + 1)) = false

instance instDecidableRecDelimAt (rDelim qDelim : Int) (underQuote : Bool) (bs : List Nat)
    (k : Nat) : Decidable (RecDelimAt rDelim qDelim underQuote bs k) := by
  unfold RecDelimAt
  infer_instance

/-- A header line with a quoted line feed, `h,"x\ny"\n`, followed by the
record `1,2\n`. -/
def withHeader : DikeAsyncReader :=
  readerOn 0 2 [104, 44, 34, 120, 10, 121, 34, 10, 49, 44, 50, 10] 0 []

/-- A buffer without record delimiter outside quotes: `"a\n`. -/
def noRecord : DikeAsyncReader :=
  readerOn 0 2 [34, 97, 10] 0 []

/-! ## The field loop of readRecord, call by call -/

/-- The state in which `readRecord`, not at EOF, enters its field loop: held
buffers released and `recordCount++` done. -/
def enterRecord (s : DikeAsyncReader) : DikeAsyncReader :=
  { releaseBuffers s with
    recordCount := ((releaseBuffers s).recordCount + 1) % 18446744073709551616 }

/-- The statement `record->fields[i] = NULL` of the field loop. -/
def resetField (i : Nat) (s : DikeAsyncReader) : DikeAsyncReader :=
  { s with record := { s.record with fields := Function.update s.record.fields i Ptr.null } }

/-- Starting in `s`, the `n` calls `readField(i)`, ..., `readField(i + n - 1)`
of the field loop, each after the reset of its field pointer, all return 0 and
leave the state `t`. -/
inductive FieldsRead : Nat → Nat → DikeAsyncReader → DikeAsyncReader → Prop where
  | done (i : Nat) (s : DikeAsyncReader) : FieldsRead 0 i s s
  | next {n i : Nat} {s s1 t : DikeAsyncReader} :
      readField i (resetField i s) = some (0, s1) → FieldsRead n (i + 1) s1 t →
      FieldsRead (n + 1) i s t

/-- A last record without record delimiter: the current buffer is `3,4` and the
source is at its end (the next ready buffer is empty). Two columns. -/
def incomplete : DikeAsyncReader :=
  readerOn 0 2 [51, 44, 52] 0 [[]]

/-! ## Counting the pool -/

/-- The number of buffers in the free queue, the ready queue, the held queue
and the current buffer (0 or 1). -/
def poolCount (s : DikeAsyncReader) : Nat :=
  s.free_q.length + s.work_q.length + s.tmp_q.length + s.buffer.toList.length

/-- The reader after construction and the first half of a Worker iteration:
pool buffer 0 is popped from the free queue and not yet published. -/
def takenOne : DikeAsyncReader :=
  { construct 0 (DikeRecord.new 3 (fun _ => 0)) with
    free_q := [{ id := 1, data := [], pos := 0 }, { id := 2, data := [], pos := 0 },
      { id := 3, data := [], pos := 0 }]
    filling := some { id := 0, data := [], pos := 0 } }

/-! ## Publications and retrievals -/

/-- A history of the ready queue. `Fifo s reads published returned`: the state
`s` is reached from construction by a sequence of steps in which the Byte
Source returned the chunks `reads`, in this order, the Worker published the
buffers `published`, in this order, and `getBuffer` returned the buffers
`returned`, in this order. Every step other than a publication or a `getBuffer`
leaves the ready queue as it is. -/
inductive Fifo :
    DikeAsyncReader → List (List Nat) → List DikeBuffer → List DikeBuffer → Prop where
  | start (blockSize : Nat) (record : DikeRecord) : Fifo (construct blockSize record) [] [] []
  | publish {s t : DikeAsyncReader} {reads : List (List Nat)} {p g : List DikeBuffer}
      (chunk : List Nat) (b : DikeBuffer) :
      Fifo s reads p g → s.filling = some b → workerPublish chunk s = some t →
      Fifo t (reads ++ [chunk]) (p ++ [b.refill chunk]) g
  | get {s t : DikeAsyncReader} {reads : List (List Nat)} {p g : List DikeBuffer}
      (b : DikeBuffer) :
      Fifo s reads p g → getBuffer s = some (b, t) → Fifo t reads p (g ++ [b])
  | other {s t : DikeAsyncReader} {reads : List (List Nat)} {p g : List DikeBuffer} :
      Fifo s reads p g → t.work_q = s.work_q → Fifo t reads p g

/-! ## One record in the buffer -/

/-- The fields `fs`, each with the delimiter byte that ends it, form one record:
every field but the last is ended by a field delimiter and the last one by a
record delimiter, each delimiter being the first one outside quotes after the
start of its field. -/
def IsRecord (fDelim rDelim qDelim : Int) : List (List Nat × Nat) → Prop
  | [] => False
  | [x] => IsField fDelim rDelim qDelim x.1 x.2 ∧ ((x.2 : Nat) : Int) = rDelim
  | x :: y :: fs =>
    IsField fDelim rDelim qDelim x.1 x.2 ∧ ((x.2 : Nat) : Int) = fDelim ∧
      IsRecord fDelim rDelim qDelim (y :: fs)

instance instDecidableIsRecord (fDelim rDelim qDelim : Int) :
    (fs : List (List Nat × Nat)) → Decidable (IsRecord fDelim rDelim qDelim fs)
  | [] => isFalse (fun h => h)
  | [x] => inferInstanceAs
      (Decidable (IsField fDelim rDelim qDelim x.1 x.2 ∧ ((x.2 : Nat) : Int) = rDelim))
  | x :: y :: fs =>
    have : Decidable (IsRecord fDelim rDelim qDelim (y :: fs)) :=
      instDecidableIsRecord fDelim rDelim qDelim (y :: fs)
    inferInstanceAs
      (Decidable (IsField fDelim rDelim qDelim x.1 x.2 ∧ ((x.2 : Nat) : Int) = fDelim ∧
        IsRecord fDelim rDelim qDelim (y :: fs)))

/-- The record `a,"b,c",d\n` followed by the start of the next record, `e,`.
Three columns are to be detected. -/
def detect : DikeAsyncReader :=
  readerOn 0 3 [97, 44, 34, 98, 44, 99, 34, 44, 100, 10, 101, 44] 0 []

/-! ## The stream position -/

/-- The bytes held by a queue of buffers, cursor or not. -/
def sizeQ : List DikeBuffer → Nat
  | [] => 0
  | b :: q => b.data.length + sizeQ q

/-- The cursor's offset in the current buffer. -/
def cursorOffset (s : DikeAsyncReader) : Nat :=
  match s.buffer with
  | none => 0
  | some b => b.pos

/-- The sizes of all buffers already left behind, when the Byte Source has
delivered `n` bytes in all: the delivered bytes that are neither in the current
buffer nor in a ready buffer. -/
def leftBehind (n : Nat) (s : DikeAsyncReader) : Nat :=
  n - sizeQ (s.buffer.toList ++ s.work_q)

/-- Ready buffers have their cursor at the start and the cursor of the current
buffer is not past its end marker. -/
def WellPlaced (s : DikeAsyncReader) : Prop :=
  (∀ b ∈ s.work_q, b.pos = 0) ∧ ∀ b, s.buffer = some b → b.pos ≤ b.data.length

/-- A history of successful calls. `Tracked s n`: the state `s` is reached from
construction by Worker steps, the constructor's `getBuffer`, changes of the
delimiters and calls of `seekRecord`, `readField` and `readRecord` that return
0, the Byte Source having delivered `n` bytes in all. -/
inductive Tracked : DikeAsyncReader → Nat → Prop where
  | init (blockSize : Nat) (record : DikeRecord) : Tracked (construct blockSize record) 0
  | take {s t : DikeAsyncReader} {n : Nat} :
      Tracked s n → workerTake s = some t → Tracked t n
  | publish {s t : DikeAsyncReader} {n : Nat} (chunk : List Nat) :
      Tracked s n → workerPublish chunk s = some t → Tracked t (n + chunk.length)
  | ctorGet {s t : DikeAsyncReader} {n : Nat} :
      Tracked s n → ctorGetBuffer s = some t → Tracked t n
  | delims {s : DikeAsyncReader} {n : Nat} (f r q : Int) :
      Tracked s n → Tracked (setDelims f r q s) n
  | seek {s t : DikeAsyncReader} {n : Nat} :
      Tracked s n → seekRecord s = some (0, t) → Tracked t n
  | field {s t : DikeAsyncReader} {n : Nat} (pos : Nat) :
      Tracked s n → readField pos s = some (0, t) → Tracked t n
  | record {s t : DikeAsyncReader} {n : Nat} :
      Tracked s n → readRecord s = some (0, t) → Tracked t n

/-- A reader whose record has no column, right after construction on a source
whose first read returned `1,2\n`. -/
def noColumns : DikeAsyncReader :=
  { construct 0 (DikeRecord.new 0 (fun _ => 0)) with
    free_q := [{ id := 1, data := [], pos := 0 }, { id := 2, data := [], pos := 0 },
      { id := 3, data := [], pos := 0 }]
    buffer := some { id := 0, data := [49, 44, 50, 10], pos := 0 } }

/-- A reader that has consumed `2^31 - 1` bytes, with `7\n` at the cursor. -/
def nearLimit : DikeAsyncReader :=
  { readerOn 0 1 [55, 10] 0 [] with bytesRead := 2147483647 }

/-- The input `abc\n`, one record of one field, delivered by short reads as
`a`, `b` and `c\n`, followed by an empty buffer; one column and a block-size
limit of 3 bytes. -/
def limitedShort : DikeAsyncReader :=
  { shortReads with blockSize := 3 }

/-! ## The pool, statement by statement -/

/-- Where the consumer stands between two of its statements that move a
buffer. `idle`: no buffer is on its way. `held`: `holdBuffer(buffer)` has run
(line 246) and `getBuffer` has not returned yet; the member `buffer` still
points to the buffer just appended to the held queue. `got b`: `getBuffer` has
popped `b` from the ready queue (lines 305-313) and the assignment to the
member `buffer` (lines 96 and 247) has not happened yet. `popped b`: in
`releaseBuffers`, between `tmp_q.pop()` and `pushBuffer(b)`. -/
inductive Hand where
  | idle
  | held
  | got (b : DikeBuffer)
  | popped (b : DikeBuffer)

/-- The buffer in the consumer's local variable, if any. -/
def Hand.carried : Hand → List DikeBuffer
  | .got b => [b]
  | .popped b => [b]
  | _ => []

/-- The current buffer, if it is in no other place: between `holdBuffer(buffer)`
and the assignment of the next buffer the member `buffer` is a second pointer
to a held buffer and is not counted. -/
def Hand.current (c : Hand) (s : DikeAsyncReader) : List DikeBuffer :=
  match c with
  | .idle => s.buffer.toList
  | .popped _ => s.buffer.toList
  | .held => []
  | .got _ => []

/-- The identities of the buffers in the six places: current buffer, held
queue, ready queue, free queue, the Worker's local variable and the consumer's
local variable. -/
def placeIds (s : DikeAsyncReader) (c : Hand) : List Nat :=
  (c.current s ++ s.tmp_q ++ s.work_q ++ s.free_q ++ s.filling.toList ++ c.carried).map
    DikeBuffer.id

/-- The state `t` has the same buffers in the same places as `s`: the three
queues and the Worker's local variable are the same and the current buffer is
the same pool buffer. -/
def SamePlaces (s t : DikeAsyncReader) : Prop :=
  t.free_q = s.free_q ∧ t.work_q = s.work_q ∧ t.tmp_q = s.tmp_q ∧ t.filling = s.filling ∧
    t.buffer.map DikeBuffer.id = s.buffer.map DikeBuffer.id

/-- One statement of the reader that moves a buffer, or any run of statements
that moves none. The Worker: `take` and `publish`. The consumer:
`holdBuffer(buffer)` in `readField` (`hold`), `getBuffer` in `readField` after
it (`get`) and in the constructor (`ctorGet`), the assignment of the buffer it
returned to the member `buffer` (`assign`), and in `releaseBuffers` the pop of
the held queue (`pop`) and `pushBuffer` (`push`). -/
inductive Micro : DikeAsyncReader × Hand → DikeAsyncReader × Hand → Prop where
  | take {s t : DikeAsyncReader} {c : Hand} : workerTake s = some t → Micro (s, c) (t, c)
  | publish {s t : DikeAsyncReader} {c : Hand} (chunk : List Nat) :
      chunk.length ≤ BUFFER_SIZE → workerPublish chunk s = some t → Micro (s, c) (t, c)
  | hold {s : DikeAsyncReader} {buf : DikeBuffer} :
      s.buffer = some buf → Micro (s, Hand.idle) (holdBuffer buf s, Hand.held)
  | get {s t : DikeAsyncReader} {b : DikeBuffer} :
      getBuffer s = some (b, t) → Micro (s, Hand.held) (t, Hand.got b)
  | ctorGet {s t : DikeAsyncReader} {b : DikeBuffer} :
      s.buffer = none → getBuffer s = some (b, t) → Micro (s, Hand.idle) (t, Hand.got b)
  | assign {s : DikeAsyncReader} {b : DikeBuffer} :
      Micro (s, Hand.got b) ({ s with buffer := some b }, Hand.idle)
  | pop {s : DikeAsyncReader} {b : DikeBuffer} {q : List DikeBuffer} :
      s.tmp_q = b :: q → Micro (s, Hand.idle) ({ s with tmp_q := q }, Hand.popped b)
  | push {s : DikeAsyncReader} {b : DikeBuffer} :
      Micro (s, Hand.popped b) (pushBuffer b s, Hand.idle)
  | other {s t : DikeAsyncReader} {c : Hand} : SamePlaces s t → Micro (s, c) (t, c)

/-- The states reached from construction statement by statement. -/
inductive MicroReachable : DikeAsyncReader × Hand → Prop where
  | init (blockSize : Nat) (record : DikeRecord) :
      MicroReachable (construct blockSize record, Hand.idle)
  | step {x y : DikeAsyncReader × Hand} : MicroReachable x → Micro x y → MicroReachable y

/-- A run of statements from one state to another. -/
inductive MicroRun : DikeAsyncReader × Hand → DikeAsyncReader × Hand → Prop where
  | refl (x : DikeAsyncReader × Hand) : MicroRun x x
  | tail {x y z : DikeAsyncReader × Hand} : MicroRun x y → Micro y z → MicroRun x z

/-- The reader after construction on a source whose first read returned `ab`,
without delimiter: the current buffer is pool buffer 0. One column. -/
def noDelimiter : DikeAsyncReader :=
  { construct 0 (DikeRecord.new 1 (fun _ => 0)) with
    free_q := [{ id := 1, data := [], pos := 0 }, { id := 2, data := [], pos := 0 },
      { id := 3, data := [], pos := 0 }]
    buffer := some { id := 0, data := [97, 98], pos := 0 } }

/-- The reader in its constructor, after the Worker published `ab` and
`getBuffer` popped it, before the assignment to `buffer`. -/
def fetched : DikeAsyncReader :=
  { construct 0 (DikeRecord.new 1 (fun _ => 0)) with
    free_q := [{ id := 1, data := [], pos := 0 }, { id := 2, data := [], pos := 0 },
      { id := 3, data := [], pos := 0 }] }

/-- The same reader inside `readField(0)`, after `holdBuffer(buffer)` and before
`getBuffer` returns. -/
def waiting : DikeAsyncReader :=
  holdBuffer { id := 0, data := [97, 98], pos := 0 } noDelimiter

/-! ## Machine integers -/

theorem toInt32_of_isInt32 {x : Int} (h : IsInt32 x) : toInt32 x = x := by
  unfold IsInt32 at h
  unfold toInt32
  omega

theorem isInt32_toInt32 (x : Int) : IsInt32 (toInt32 x) := by
  unfold IsInt32 toInt32
  omega

theorem toInt32_add_toInt32 (x y : Int) : toInt32 (toInt32 x + y) = toInt32 (x + y) := by
  unfold toInt32
  omega

/-! ## The scanning loop and the quote flag -/

theorem quoteFlag_cons (q : Int) (u : Bool) (c : Nat) (bs : List Nat) :
    quoteFlag q u (c :: bs) = quoteFlag q (if (c : Int) = q then !u else u) bs := rfl

theorem quoteFlag_append (q : Int) (u : Bool) (xs ys : List Nat) :
    quoteFlag q u (xs ++ ys) = quoteFlag q (quoteFlag q u xs) ys := by
  unfold quoteFlag
  rw [List.foldl_append]

theorem delimAt_cons_zero (f r q : Int) (u : Bool) (c : Nat) (bs : List Nat) :
    DelimAt f r q u (c :: bs) 0 ↔
      ((if (c : Int) = q then !u else u) = false ∧ ((c : Int) = f ∨ (c : Int) = r)) := by
  unfold DelimAt
  simp [quoteFlag]
  tauto

theorem delimAt_cons_succ (f r q : Int) (u : Bool) (c : Nat) (bs : List Nat) (k : Nat) :
    DelimAt f r q u (c :: bs) (k + 1) ↔ DelimAt f r q (if (c : Int) = q then !u else u) bs k := by
  unfold DelimAt
  simp [quoteFlag]

theorem firstDelimAt_unique {f r q : Int} {u : Bool} {bs : List Nat} {k m : Nat}
    (hk : FirstDelimAt f r q u bs k) (hm : FirstDelimAt f r q u bs m) : k = m := by
  rcases Nat.lt_trichotomy k m with h | h | h
  · exact absurd hk.1 (hm.2 k h)
  · exact h
  · exact absurd hm.1 (hk.2 m h)

/-- The first loop of `readField` either stops at the first delimiter outside
quotes or runs to the end marker, where its flag is the quote flag of the bytes
it passed. -/
theorem scanField_cases (f r q : Int) (bs : List Nat) (u : Bool) (k0 : Nat) :
    (∃ k, FirstDelimAt f r q u bs k ∧ scanField f r q bs u k0 = Scan.found (k0 + k)) ∨
    ((∀ k, ¬ DelimAt f r q u bs k) ∧ scanField f r q bs u k0 = Scan.exhausted (quoteFlag q u bs)) := by
  induction bs generalizing u k0 with
  | nil =>
    right
    refine ⟨fun k h => ?_, rfl⟩
    exact absurd h.1 (by simp)
  | cons c bs ih =>
    by_cases hc : (if (c : Int) = q then !u else u) = false ∧ ((c : Int) = f ∨ (c : Int) = r)
    · left
      refine ⟨0, ⟨(delimAt_cons_zero f r q u c bs).2 hc, fun j hj => absurd hj (Nat.not_lt_zero j)⟩, ?_⟩
      simp only [scanField, hc, and_self, if_true, Nat.add_zero]
    · have hstep : scanField f r q (c :: bs) u k0 =
          scanField f r q bs (if (c : Int) = q then !u else u) (k0 + 1) := by
        simp only [scanField, hc, if_false]
      rcases ih (if (c : Int) = q then !u else u) (k0 + 1) with ⟨k, hk, hs⟩ | ⟨hn, hs⟩
      · left
        refine ⟨k + 1, ⟨(delimAt_cons_succ f r q u c bs k).2 hk.1, ?_⟩, ?_⟩
        · intro j hj hd
          cases j with
          | zero => exact hc ((delimAt_cons_zero f r q u c bs).1 hd)
          | succ j =>
            exact hk.2 j (by omega) ((delimAt_cons_succ f r q u c bs j).1 hd)
        · rw [hstep, hs]
          congr 1
          omega
      · right
        refine ⟨?_, ?_⟩
        · intro k hd
          cases k with
          | zero => exact hc ((delimAt_cons_zero f r q u c bs).1 hd)
          | succ k => exact hn k ((delimAt_cons_succ f r q u c bs k).1 hd)
        · rw [hstep, hs, quoteFlag_cons]

theorem scanField_of_first {f r q : Int} {bs : List Nat} {u : Bool} {k : Nat}
    (h : FirstDelimAt f r q u bs k) (k0 : Nat) :
    scanField f r q bs u k0 = Scan.found (k0 + k) := by
  rcases scanField_cases f r q bs u k0 with ⟨m, hm, hs⟩ | ⟨hn, _⟩
  · rw [hs, firstDelimAt_unique h hm]
  · exact absurd h.1 (hn k)

theorem scanField_of_none {f r q : Int} {bs : List Nat} {u : Bool}
    (h : ∀ k, ¬ DelimAt f r q u bs k) (k0 : Nat) :
    scanField f r q bs u k0 = Scan.exhausted (quoteFlag q u bs) := by
  rcases scanField_cases f r q bs u k0 with ⟨m, hm, _⟩ | ⟨_, hs⟩
  · exact absurd hm.1 (h m)
  · exact hs

theorem exists_first_of_exists {f r q : Int} {u : Bool} {bs : List Nat}
    (h : ∃ k, DelimAt f r q u bs k) : ∃ k, FirstDelimAt f r q u bs k := by
  rcases scanField_cases f r q bs u 0 with ⟨k, hk, _⟩ | ⟨hn, _⟩
  · exact ⟨k, hk⟩
  · obtain ⟨k, hk⟩ := h
    exact absurd hk (hn k)

/-! ## readField, fast path -/

/-- The state a fast-path `readField(pos)` leaves when the delimiter is `k`
bytes after the cursor. -/
theorem readField_of_first {s : DikeAsyncReader} {buf : DikeBuffer} {k : Nat} (pos : Nat)
    (hb : s.buffer = some buf)
    (hk : FirstDelimAt s.fDelim s.rDelim s.qDelim false buf.rest k) :
    readField pos s = some (0,
      { s with
        record := { s.record with
          fields := Function.update s.record.fields pos (Ptr.inBuffer buf.id buf.pos)
          len := Function.update s.record.len pos (toInt32 ((k : Int) + 1)) }
        buffer := some { buf with data := buf.data.set (buf.pos + k) 0, pos := buf.pos + k + 1 }
        bytesRead := toInt32 (s.bytesRead + ((k : Int) + 1)) }) := by
  unfold readField
  rw [hb]
  simp only [scanField_of_first hk 0, Nat.zero_add]

/-- C1. Fast path of `readField`: when the bytes from the cursor to the end of
the current buffer hold a field or record delimiter outside quotes (quote flag
false at the cursor, toggled by every quote byte), then, `k` being the offset of
the first such byte from the cursor, `readField(pos)` returns 0, `fields[pos]`
is the old cursor (an address in the current buffer), exactly the byte at that
delimiter's position becomes 0, the cursor is one past it, `bytesRead` grows by
the number of bytes the cursor moved (in `int` arithmetic, and by exactly that
number when the sum fits an `int`), the current buffer is still the same pool
buffer, and the held, ready and free queues and the arena are unchanged. -/
theorem readField_fast_path (s : DikeAsyncReader) (buf : DikeBuffer) (pos : Nat)
    (hb : s.buffer = some buf)
    (hd : ∃ k, DelimAt s.fDelim s.rDelim s.qDelim false buf.rest k) :
    ∃ k s1 buf1, FirstDelimAt s.fDelim s.rDelim s.qDelim false buf.rest k ∧
      readField pos s = some (0, s1) ∧
      s1.record.fields pos = Ptr.inBuffer buf.id buf.pos ∧
      s1.buffer = some buf1 ∧ buf1.id = buf.id ∧
      buf1.data = buf.data.set (buf.pos + k) 0 ∧
      buf1.data.length = buf.data.length ∧
      buf1.data.get? (buf.pos + k) = some 0 ∧
      (∀ i, i ≠ buf.pos + k → buf1.data.get? i = buf.data.get? i) ∧
      buf1.pos = buf.pos + k + 1 ∧
      s1.bytesRead = toInt32 (s.bytesRead + ((buf1.pos : Int) - buf.pos)) ∧
      (IsInt32 (s.bytesRead + ((buf1.pos : Int) - buf.pos)) →
        s1.bytesRead = s.bytesRead + ((buf1.pos : Int) - buf.pos)) ∧
      s1.tmp_q = s.tmp_q ∧ s1.work_q = s.work_q ∧ s1.free_q = s.free_q ∧
      s1.record.arena = s.record.arena := by
  obtain ⟨k, hk⟩ := exists_first_of_exists hd
  have hlt : buf.pos + k < buf.data.length := by
    have h1 := hk.1.1
    unfold DikeBuffer.rest at h1
    rw [List.length_drop] at h1
    omega
  have hmove : (((buf.pos + k + 1 : Nat) : Int) - buf.pos) = (k : Int) + 1 := by
    push_cast
    ring
  refine ⟨k, _, _, hk, readField_of_first pos hb hk, ?_, rfl, rfl, rfl, ?_, ?_, ?_, rfl, ?_, ?_,
    rfl, rfl, rfl, rfl⟩
  · simp
  · simp
  · simp [List.getElem?_set, hlt]
  · intro i hi
    simp only [List.get?_eq_getElem?]
    rw [List.getElem?_set_ne (Ne.symm hi)]
  · simp only [hmove]
  · intro h
    simp only [hmove] at h ⊢
    exact toInt32_of_isInt32 h

/-- Witness for C1: the buffer `1,2,3\n` read from its start; the first
delimiter is the comma at offset 1. -/
theorem readField_fast_path_witness :
    (readerOn 0 3 (bytes "1,2,3\n") 0 []).buffer = some { id := 0, data := bytes "1,2,3\n", pos := 0 } ∧
    DelimAt 44 10 34 false (bytes "1,2,3\n") 1 ∧
    ∃ s1 buf1, readField 0 (readerOn 0 3 (bytes "1,2,3\n") 0 []) = some (0, s1) ∧
      s1.record.fields 0 = Ptr.inBuffer 0 0 ∧
      s1.buffer = some buf1 ∧ buf1.data = bytes "1\x002,3\n" ∧ buf1.pos = 2 ∧
      s1.bytesRead = 2 := by
  refine ⟨rfl, by decide, ?_⟩
  obtain ⟨k, s1, buf1, hk, h1, h2, h3, _, h5, _, _, _, h9, _, h11, _⟩ :=
    readField_fast_path (readerOn 0 3 (bytes "1,2,3\n") 0 [])
      { id := 0, data := bytes "1,2,3\n", pos := 0 } 0 rfl ⟨1, by decide⟩
  have hk1 : k = 1 :=
    firstDelimAt_unique hk (by decide : FirstDelimAt 44 10 34 false (bytes "1,2,3\n") 1)
  subst hk1
  refine ⟨s1, buf1, h1, h2, h3, ?_, h9, ?_⟩
  · rw [h5]
    decide
  · rw [h9] at h11
    exact h11 (by decide)

/-! ## Fields laid out in a buffer -/

theorem delimAt_append_left (f r q : Int) (u : Bool) (xs ys : List Nat) (k : Nat)
    (hk : k < xs.length) :
    DelimAt f r q u (xs ++ ys) k ↔ DelimAt f r q u xs k := by
  unfold DelimAt
  have h1 : (xs ++ ys).getD k 0 = xs.getD k 0 := by
    simp [List.getD_eq_getElem?_getD, List.getElem?_append_left hk]
  have h2 : (xs ++ ys).take (k + 1) = xs.take (k + 1) :=
    List.take_append_of_le_length (by omega)
  rw [h1, h2]
  simp only [List.length_append]
  constructor
  · rintro ⟨_, h⟩
    exact ⟨hk, h⟩
  · rintro ⟨_, h⟩
    exact ⟨by omega, h⟩

theorem firstDelimAt_append_left (f r q : Int) (u : Bool) (xs ys : List Nat) (k : Nat)
    (hk : k < xs.length) :
    FirstDelimAt f r q u (xs ++ ys) k ↔ FirstDelimAt f r q u xs k := by
  unfold FirstDelimAt
  rw [delimAt_append_left f r q u xs ys k hk]
  constructor
  · rintro ⟨h1, h2⟩
    exact ⟨h1, fun j hj hd => h2 j hj ((delimAt_append_left f r q u xs ys j (by omega)).2 hd)⟩
  · rintro ⟨h1, h2⟩
    exact ⟨h1, fun j hj hd => h2 j hj ((delimAt_append_left f r q u xs ys j (by omega)).1 hd)⟩

theorem IsField.first {fD rD qD : Int} {f : List Nat} {d : Nat} (h : IsField fD rD qD f d)
    (tl : List Nat) : FirstDelimAt fD rD qD false (f ++ d :: tl) f.length := by
  have h1 : f ++ d :: tl = (f ++ [d]) ++ tl := by simp
  rw [h1, firstDelimAt_append_left _ _ _ _ _ _ _ (by simp)]
  exact h

theorem set_delim (pre f : List Nat) (d : Nat) (tl : List Nat) :
    (pre ++ (f ++ d :: tl)).set (pre.length + f.length) 0 = pre ++ (f ++ 0 :: tl) := by
  rw [← List.append_assoc, ← List.append_assoc, ← List.length_append]
  rw [List.set_append_right _ _ (Nat.le_refl _)]
  simp

theorem encode_length_terminated (fs : List (List Nat × Nat)) :
    (terminated fs).length = (encode fs).length := by
  induction fs with
  | nil => rfl
  | cons x fs ih => simp [terminated, encode, ih]

theorem drop_pre (pre xs : List Nat) : (pre ++ xs).drop pre.length = xs := by
  simp

/-- The loop of `readRecord` over fields that all lie in the current buffer:
every column is read on the fast path. -/
theorem readRecordLoop_fast (fs : List (List Nat × Nat)) :
    ∀ (i : Nat) (s : DikeAsyncReader) (buf : DikeBuffer) (pre rest : List Nat),
      s.buffer = some buf → buf.data = pre ++ (encode fs ++ rest) → buf.pos = pre.length →
      (∀ x ∈ fs, IsField s.fDelim s.rDelim s.qDelim x.1 x.2) →
      readRecordLoop fs.length i s = some (0,
        { s with
          record := { s.record with
            fields := fieldsAfter buf.id fs i buf.pos s.record.fields
            len := lenAfter fs i s.record.len }
          buffer := some { buf with
            data := pre ++ (terminated fs ++ rest)
            pos := buf.pos + (encode fs).length }
          bytesRead := bytesAfter fs s.bytesRead }) := by
  induction fs with
  | nil =>
    intro i s buf pre rest hb hd hp _
    obtain ⟨id, data, pos⟩ := buf
    simp only at hd hp
    subst hd
    cases s
    simp only at hb
    subst hb
    simp [readRecordLoop, encode, terminated, fieldsAfter, lenAfter, bytesAfter]
  | cons x fs ih =>
    intro i s buf pre rest hb hd hp hf
    obtain ⟨f, d⟩ := x
    have hx : IsField s.fDelim s.rDelim s.qDelim f d := hf (f, d) (List.mem_cons_self _ _)
    have hrest : buf.rest = f ++ d :: (encode fs ++ rest) := by
      unfold DikeBuffer.rest
      rw [hd, hp]
      simp [encode]
    have hfirst : FirstDelimAt s.fDelim s.rDelim s.qDelim false buf.rest f.length := by
      rw [hrest]
      exact hx.first _
    have hset : buf.data.set (buf.pos + f.length) 0 = (pre ++ (f ++ [0])) ++ (encode fs ++ rest) := by
      rw [hd, hp]
      have := set_delim pre f d (encode fs ++ rest)
      simp only [encode, List.append_assoc, List.cons_append, List.singleton_append, List.nil_append] at this ⊢
      exact this
    have h0 := @readField_of_first
      { s with record := { s.record with fields := Function.update s.record.fields i Ptr.null } }
      buf f.length i hb hfirst
    dsimp only at h0
    simp only [List.length_cons, readRecordLoop]
    rw [h0]
    simp only [ne_eq, not_true_eq_false, if_false]
    refine Eq.trans (ih (i + 1) _
      { buf with data := buf.data.set (buf.pos + f.length) 0, pos := buf.pos + f.length + 1 }
      (pre ++ (f ++ [0])) rest rfl hset ?_ ?_) ?_
    · simp only [hp, List.length_append, List.length_cons, List.length_nil]
      omega
    · exact fun y hy => hf y (List.mem_cons_of_mem _ hy)
    · have e2 : buf.pos + f.length + 1 + (encode fs).length =
          buf.pos + (f.length + ((encode fs).length + 1)) := by omega
      simp only [Function.update_idem, fieldsAfter, lenAfter, encode, terminated, bytesAfter,
        List.length_append, List.length_cons, e2]
      simp

theorem bytesAfter_eq (fs : List (List Nat × Nat)) (x : Int) (hx : IsInt32 x) :
    bytesAfter fs x = toInt32 (x + ((encode fs).length : Int)) := by
  induction fs generalizing x with
  | nil => simp [bytesAfter, encode, toInt32_of_isInt32 hx]
  | cons y fs ih =>
    simp only [bytesAfter, encode, List.length_append, List.length_cons]
    rw [ih _ (isInt32_toInt32 _), toInt32_add_toInt32]
    congr 1
    push_cast
    ring

theorem isInt32_bytesAfter (fs : List (List Nat × Nat)) (x : Int) (hx : IsInt32 x) :
    IsInt32 (bytesAfter fs x) := by
  rw [bytesAfter_eq fs x hx]
  exact isInt32_toInt32 _

theorem fieldsAfter_below (id : Nat) (fs : List (List Nat × Nat)) (i off : Nat) (F : Nat → Ptr)
    (m : Nat) (hm : m < i) : fieldsAfter id fs i off F m = F m := by
  induction fs generalizing i off F with
  | nil => rfl
  | cons x fs ih =>
    simp only [fieldsAfter]
    rw [ih (i + 1) _ _ (by omega), Function.update_noteq (by omega)]

theorem fieldsAfter_at (id : Nat) (fs : List (List Nat × Nat)) (i off : Nat) (F : Nat → Ptr)
    (j : Nat) (hj : j < fs.length) :
    fieldsAfter id fs i off F (i + j) = Ptr.inBuffer id (off + (encode (fs.take j)).length) := by
  induction fs generalizing i off F j with
  | nil => exact absurd hj (by simp)
  | cons x fs ih =>
    cases j with
    | zero =>
      simp only [fieldsAfter, Nat.add_zero, List.take_zero, encode, List.length_nil]
      rw [fieldsAfter_below _ _ _ _ _ _ (by omega), Function.update_same]
    | succ j =>
      simp only [fieldsAfter, List.take_succ_cons, encode, List.length_append, List.length_cons]
      have h := ih (i + 1) (off + x.1.length + 1) (Function.update F i (Ptr.inBuffer id off)) j
        (by simpa using hj)
      have e : i + (j + 1) = i + 1 + j := by omega
      rw [e, h]
      congr 1
      omega

theorem lenAfter_below (fs : List (List Nat × Nat)) (i : Nat) (L : Nat → Int)
    (m : Nat) (hm : m < i) : lenAfter fs i L m = L m := by
  induction fs generalizing i L with
  | nil => rfl
  | cons x fs ih =>
    simp only [lenAfter]
    rw [ih (i + 1) _ (by omega), Function.update_noteq (by omega)]

theorem lenAfter_at (fs : List (List Nat × Nat)) (i : Nat) (L : Nat → Int)
    (j : Nat) (x : List Nat × Nat) (hj : fs.get? j = some x) :
    lenAfter fs i L (i + j) = toInt32 ((x.1.length : Int) + 1) := by
  induction fs generalizing i L j with
  | nil => simp at hj
  | cons y fs ih =>
    cases j with
    | zero =>
      simp only [List.get?_cons_zero, Option.some.injEq] at hj
      subst hj
      simp only [lenAfter, Nat.add_zero]
      rw [lenAfter_below _ _ _ _ (by omega), Function.update_same]
    | succ j =>
      simp only [List.get?_cons_succ] at hj
      have e : i + (j + 1) = i + 1 + j := by omega
      simp only [lenAfter]
      rw [e, ih (i + 1) _ j hj]

theorem terminated_append (xs ys : List (List Nat × Nat)) :
    terminated (xs ++ ys) = terminated xs ++ terminated ys := by
  induction xs with
  | nil => rfl
  | cons x xs ih => simp [terminated, ih]

theorem encode_append (xs ys : List (List Nat × Nat)) :
    encode (xs ++ ys) = encode xs ++ encode ys := by
  induction xs with
  | nil => rfl
  | cons x xs ih => simp [encode, ih]

/-- The bytes of field `j` in a buffer of terminated fields. -/
theorem terminated_slice (pre rest : List Nat) (fs : List (List Nat × Nat)) (j : Nat)
    (x : List Nat × Nat) (hj : fs.get? j = some x) :
    ((pre ++ (terminated fs ++ rest)).drop (pre.length + (encode (fs.take j)).length)).take
      (x.1.length + 1) = x.1 ++ [0] := by
  have hsplit : fs = fs.take j ++ x :: fs.drop (j + 1) := by
    have hlt : j < fs.length := by
      rw [List.get?_eq_getElem?] at hj
      exact (List.getElem?_eq_some_iff.1 hj).1
    have hx : fs[j] = x := by
      rw [List.get?_eq_getElem?] at hj
      exact (List.getElem?_eq_some_iff.1 hj).2
    rw [← hx]
    simp
  have h1 : pre ++ (terminated fs ++ rest) =
      (pre ++ terminated (fs.take j)) ++ ((x.1 ++ [0]) ++ (terminated (fs.drop (j + 1)) ++ rest)) := by
    conv_lhs => rw [hsplit]
    simp [terminated_append, terminated]
  have h2 : pre.length + (encode (fs.take j)).length = (pre ++ terminated (fs.take j)).length := by
    simp [encode_length_terminated]
  rw [h1, h2, List.drop_left]
  have h3 : x.1.length + 1 = (x.1 ++ [0]).length := by simp
  rw [h3, List.take_left]

/-! ## releaseBuffers and readRecord -/

/-- What the loop of `releaseBuffers` changes: the held buffers go to the back
of the free queue in their order; nothing else but the two counters moves. -/
theorem releaseLoop_frame (q : List DikeBuffer) (s : DikeAsyncReader) :
    (releaseLoop q s).tmp_q = [] ∧ (releaseLoop q s).free_q = s.free_q ++ q ∧
    (releaseLoop q s).buffer = s.buffer ∧ (releaseLoop q s).record = s.record ∧
    (releaseLoop q s).bytesRead = s.bytesRead ∧ (releaseLoop q s).blockSize = s.blockSize ∧
    (releaseLoop q s).fDelim = s.fDelim ∧ (releaseLoop q s).rDelim = s.rDelim ∧
    (releaseLoop q s).qDelim = s.qDelim ∧ (releaseLoop q s).work_q = s.work_q ∧
    (releaseLoop q s).recordCount = s.recordCount ∧ (releaseLoop q s).filling = s.filling ∧
    (releaseLoop q s).isRunning = s.isRunning := by
  induction q generalizing s with
  | nil => simp [releaseLoop]
  | cons b q ih =>
    simp only [releaseLoop]
    obtain ⟨h1, h2, h3, h4, h5, h6, h7, h8, h9, h10, h11, h12, h13⟩ :=
      ih (pushBuffer b { s with tmp_q := q })
    refine ⟨h1, ?_, h3, h4, h5, h6, h7, h8, h9, h10, h11, h12, h13⟩
    rw [h2]
    simp [pushBuffer]

theorem isEOF_of_blockSize_zero (s : DikeAsyncReader) (h : s.blockSize = 0) : isEOF s = false := by
  simp [isEOF, h]

theorem readRecord_not_eof (s : DikeAsyncReader) (heof : isEOF s = false) :
    readRecord s = readRecordLoop (releaseBuffers s).record.nCol 0
      { releaseBuffers s with
        recordCount := ((releaseBuffers s).recordCount + 1) % 18446744073709551616 } := by
  unfold readRecord
  simp only [heof, Bool.false_eq_true, if_false]

theorem readRecordLoop_succ (n i : Nat) (s : DikeAsyncReader) :
    readRecordLoop (n + 1) i s =
      match readField i
        { s with record := { s.record with fields := Function.update s.record.fields i Ptr.null } } with
      | none => none
      | some (r, s1) => if r ≠ 0 then some (1, s1) else readRecordLoop n (i + 1) s1 := rfl

/-- A record whose `nCol` fields all lie in the current buffer from the cursor
on is read by `readRecord` on the fast path. -/
theorem readRecord_fast (s : DikeAsyncReader) (buf : DikeBuffer) (pre rest : List Nat)
    (fs : List (List Nat × Nat))
    (heof : isEOF s = false) (hn : s.record.nCol = fs.length)
    (hb : s.buffer = some buf) (hd : buf.data = pre ++ (encode fs ++ rest))
    (hp : buf.pos = pre.length)
    (hf : ∀ x ∈ fs, IsField s.fDelim s.rDelim s.qDelim x.1 x.2) :
    ∃ s1, readRecord s = some (0, s1) ∧
      s1.buffer = some { buf with
        data := pre ++ (terminated fs ++ rest), pos := buf.pos + (encode fs).length } ∧
      s1.record.fields = fieldsAfter buf.id fs 0 buf.pos s.record.fields ∧
      s1.record.len = lenAfter fs 0 s.record.len ∧
      s1.record.nCol = s.record.nCol ∧ s1.record.arena = s.record.arena ∧
      s1.bytesRead = bytesAfter fs s.bytesRead ∧
      s1.blockSize = s.blockSize ∧ s1.fDelim = s.fDelim ∧ s1.rDelim = s.rDelim ∧
      s1.qDelim = s.qDelim ∧ s1.work_q = s.work_q ∧ s1.tmp_q = [] ∧
      s1.free_q = s.free_q ++ s.tmp_q ∧
      s1.recordCount = (s.recordCount + 1) % 18446744073709551616 ∧
      s1.filling = s.filling ∧ s1.isRunning = s.isRunning := by
  obtain ⟨h1, h2, h3, h4, h5, h6, h7, h8, h9, h10, h11, h12, h13⟩ := releaseLoop_frame s.tmp_q s
  have hloop := readRecordLoop_fast fs 0
    { releaseBuffers s with
      recordCount := ((releaseBuffers s).recordCount + 1) % 18446744073709551616 }
    buf pre rest (h3.trans hb) hd hp
    (by
      intro x hx
      have := hf x hx
      simpa only [releaseBuffers, h7, h8, h9] using this)
  have hrr : readRecord s = readRecordLoop fs.length 0
      { releaseBuffers s with
        recordCount := ((releaseBuffers s).recordCount + 1) % 18446744073709551616 } := by
    have hn2 : (releaseBuffers s).record.nCol = fs.length := by
      unfold releaseBuffers
      rw [h4, hn]
    rw [readRecord_not_eof s heof, hn2]
  rw [hrr, hloop]
  refine ⟨_, rfl, ?_⟩
  simp only [releaseBuffers, h1, h2, h4, h5, h6, h7, h8, h9, h10, h11, h12, h13, and_self]

/-- What the caller finds at `fields[j]` when it aliases the current buffer. -/
theorem fieldBytes_current (s : DikeAsyncReader) (buf : DikeBuffer) (j off n : Nat)
    (hb : s.buffer = some buf) (hptr : s.record.fields j = Ptr.inBuffer buf.id off)
    (hlen : s.record.len j = (n : Int)) (hfit : off + n ≤ buf.data.length) :
    fieldBytes s j = some ((buf.data.drop off).take n) := by
  unfold fieldBytes
  rw [hptr, hlen]
  simp [loadBytes, bufferById, hb, hfit]

/-! ## readField, slow path -/

theorem store_append (arena : Nat → Nat) (p : Nat) (xs ys : List Nat) :
    store arena p (xs ++ ys) = store (store arena p xs) (p + xs.length) ys := by
  induction xs generalizing arena p with
  | nil => rfl
  | cons c xs ih =>
    rw [List.cons_append]
    simp only [store, List.length_cons]
    rw [ih, Nat.add_assoc, Nat.add_comm 1]

theorem store_outside (arena : Nat → Nat) (p : Nat) (bs : List Nat) (x : Nat)
    (hx : x < p ∨ p + bs.length ≤ x) : store arena p bs x = arena x := by
  induction bs generalizing arena p with
  | nil => rfl
  | cons c bs ih =>
    simp only [store]
    rw [ih _ _ (by simp only [List.length_cons] at hx; omega)]
    exact Function.update_noteq (by simp only [List.length_cons] at hx; omega) _ _

theorem store_inside (arena : Nat → Nat) (p : Nat) (bs : List Nat) (i : Nat)
    (hi : i < bs.length) : store arena p bs (p + i) = bs.getD i 0 := by
  induction bs generalizing arena p i with
  | nil => exact absurd hi (by simp)
  | cons c bs ih =>
    cases i with
    | zero =>
      simp only [store, Nat.add_zero]
      rw [store_outside _ _ _ _ (by omega)]
      simp
    | succ i =>
      simp only [store]
      have e : p + (i + 1) = p + 1 + i := by omega
      rw [e, ih _ _ _ (by simpa using hi)]
      simp

theorem range_store (arena : Nat → Nat) (p : Nat) (bs : List Nat) :
    (List.range bs.length).map (fun i => store arena p bs (p + i)) = bs := by
  apply List.ext_getElem
  · simp
  · intro i h1 h2
    simp only [List.getElem_map, List.getElem_range]
    rw [store_inside _ _ _ _ h2]
    simp [List.getD_eq_getElem?_getD, h2]

theorem copyFirst_eq (bs : List Nat) (arena : Nat → Nat) (p c : Nat) :
    copyFirst bs arena p c = (store arena p bs, p + bs.length, c + bs.length) := by
  induction bs generalizing arena p c with
  | nil => rfl
  | cons b bs ih =>
    simp only [copyFirst, ih, store, List.length_cons]
    congr 2 <;> omega

/-- The loop "Copy second part" either stops at the first delimiter outside
quotes, having stored the bytes before it and a terminator, or stores every
byte up to the end marker. -/
theorem copySecond_cases (f r q : Int) (bs : List Nat) (u : Bool) (arena : Nat → Nat)
    (p c k0 : Nat) :
    (∃ k, FirstDelimAt f r q u bs k ∧
      copySecond f r q bs u arena p c k0 =
        Copy.found (store arena p (bs.take k ++ [0])) (c + k + 1) (k0 + k + 1)) ∨
    ((∀ k, ¬ DelimAt f r q u bs k) ∧
      copySecond f r q bs u arena p c k0 = Copy.exhausted (store arena p bs)) := by
  induction bs generalizing u arena p c k0 with
  | nil =>
    right
    refine ⟨fun k h => ?_, rfl⟩
    exact absurd h.1 (by simp)
  | cons b bs ih =>
    by_cases hc : (if (b : Int) = q then !u else u) = false ∧ ((b : Int) = f ∨ (b : Int) = r)
    · left
      refine ⟨0, ⟨(delimAt_cons_zero f r q u b bs).2 hc, fun j hj => absurd hj (Nat.not_lt_zero j)⟩, ?_⟩
      simp only [copySecond, hc, and_self, if_true, Nat.add_zero, List.take_zero, List.nil_append,
        store]
    · have hstep : copySecond f r q (b :: bs) u arena p c k0 =
          copySecond f r q bs (if (b : Int) = q then !u else u)
            (Function.update arena p b) (p + 1) (c + 1) (k0 + 1) := by
        simp only [copySecond, hc, if_false]
      rcases ih (if (b : Int) = q then !u else u) (Function.update arena p b) (p + 1) (c + 1)
          (k0 + 1) with ⟨k, hk, hs⟩ | ⟨hn, hs⟩
      · left
        refine ⟨k + 1, ⟨(delimAt_cons_succ f r q u b bs k).2 hk.1, ?_⟩, ?_⟩
        · intro j hj hd
          cases j with
          | zero => exact hc ((delimAt_cons_zero f r q u b bs).1 hd)
          | succ j =>
            exact hk.2 j (by omega) ((delimAt_cons_succ f r q u b bs j).1 hd)
        · rw [hstep, hs]
          simp only [List.take_succ_cons, List.cons_append, store]
          congr 1 <;> omega
      · right
        refine ⟨?_, ?_⟩
        · intro k hd
          cases k with
          | zero => exact hc ((delimAt_cons_zero f r q u b bs).1 hd)
          | succ k => exact hn k ((delimAt_cons_succ f r q u b bs k).1 hd)
        · rw [hstep, hs]
          rfl

theorem copySecond_of_first {f r q : Int} {bs : List Nat} {u : Bool} {k : Nat}
    (h : FirstDelimAt f r q u bs k) (arena : Nat → Nat) (p c k0 : Nat) :
    copySecond f r q bs u arena p c k0 =
      Copy.found (store arena p (bs.take k ++ [0])) (c + k + 1) (k0 + k + 1) := by
  rcases copySecond_cases f r q bs u arena p c k0 with ⟨m, hm, hs⟩ | ⟨hn, _⟩
  · rw [hs, firstDelimAt_unique h hm]
  · exact absurd h.1 (hn k)

theorem copySecond_of_none {f r q : Int} {bs : List Nat} {u : Bool}
    (h : ∀ k, ¬ DelimAt f r q u bs k) (arena : Nat → Nat) (p c k0 : Nat) :
    copySecond f r q bs u arena p c k0 = Copy.exhausted (store arena p bs) := by
  rcases copySecond_cases f r q bs u arena p c k0 with ⟨m, hm, _⟩ | ⟨_, hs⟩
  · exact absurd hm.1 (h m)
  · exact hs

/-- The member `fieldMemory[pos]` of a column of the record is the start of
its overflow region. -/
theorem fieldMemoryAt_of_lt {r : DikeRecord} {pos : Nat} (h : pos < r.nCol) :
    r.fieldMemoryAt pos = some (fieldMemory pos) := by
  unfold DikeRecord.fieldMemoryAt
  rw [if_pos h]

/-- For any other index the member `fieldMemory[pos]` is unset. -/
theorem fieldMemoryAt_of_ge {r : DikeRecord} {pos : Nat} (h : ¬ pos < r.nCol) :
    r.fieldMemoryAt pos = none := by
  unfold DikeRecord.fieldMemoryAt
  rw [if_neg h]

theorem fieldMemoryAt_eq_some {r : DikeRecord} {pos base : Nat}
    (h : r.fieldMemoryAt pos = some base) : pos < r.nCol ∧ base = fieldMemory pos := by
  unfold DikeRecord.fieldMemoryAt at h
  by_cases hp : pos < r.nCol
  · rw [if_pos hp] at h
    simp only [Option.some.injEq] at h
    exact ⟨hp, h.symm⟩
  · rw [if_neg hp] at h
    cases h

/-- The state a slow-path `readField(pos)` leaves when the delimiter is `k`
bytes after the cursor of the next ready buffer. -/
theorem readField_slow_found {s : DikeAsyncReader} {buf nbuf : DikeBuffer}
    {q : List DikeBuffer} {k : Nat} (pos : Nat)
    (hb : s.buffer = some buf) (hw : s.work_q = nbuf :: q)
    (h1 : ∀ j, ¬ DelimAt s.fDelim s.rDelim s.qDelim false buf.rest j)
    (h2 : FirstDelimAt s.fDelim s.rDelim s.qDelim (quoteFlag s.qDelim false buf.rest) nbuf.rest k)
    (hpos : pos < s.record.nCol) :
    readField pos s = some (0,
      { s with
        work_q := q
        tmp_q := s.tmp_q ++ [buf]
        record := { s.record with
          fields := Function.update s.record.fields pos (Ptr.inArena (fieldMemory pos))
          len := Function.update s.record.len pos (toInt32 ((buf.rest.length + k + 1 : Nat) : Int))
          arena := store s.record.arena (fieldMemory pos) (buf.rest ++ (nbuf.rest.take k ++ [0])) }
        buffer := some { nbuf with pos := nbuf.pos + (k + 1) }
        bytesRead := toInt32 (s.bytesRead + toInt32 ((buf.rest.length + k + 1 : Nat) : Int)) }) := by
  unfold readField
  rw [hb]
  simp only [scanField_of_none h1 0, fieldMemoryAt_of_lt hpos, copyFirst_eq, getBuffer,
    holdBuffer, hw, copySecond_of_first h2, Function.update_idem, Nat.zero_add, store_append]

/-- The state a `readField(pos)` leaves when neither the rest of the current
buffer nor the next ready buffer holds a delimiter outside quotes. -/
theorem readField_slow_fail {s : DikeAsyncReader} {buf nbuf : DikeBuffer}
    {q : List DikeBuffer} (pos : Nat)
    (hb : s.buffer = some buf) (hw : s.work_q = nbuf :: q)
    (h1 : ∀ j, ¬ DelimAt s.fDelim s.rDelim s.qDelim false buf.rest j)
    (h2 : ∀ j, ¬ DelimAt s.fDelim s.rDelim s.qDelim (quoteFlag s.qDelim false buf.rest) nbuf.rest j)
    (hpos : pos < s.record.nCol) :
    readField pos s = some (1,
      { s with
        work_q := q
        tmp_q := s.tmp_q ++ [buf]
        record := { s.record with
          fields := Function.update s.record.fields pos (Ptr.inArena (fieldMemory pos))
          arena := store s.record.arena (fieldMemory pos) (buf.rest ++ nbuf.rest) }
        buffer := some nbuf }) := by
  unfold readField
  rw [hb]
  simp only [scanField_of_none h1 0, fieldMemoryAt_of_lt hpos, copyFirst_eq, getBuffer,
    holdBuffer, hw, copySecond_of_none h2, Function.update_idem, Nat.zero_add, store_append]

/-! ## Records of plain fields -/

theorem quoteFlag_of_no_quote (q : Int) (u : Bool) (bs : List Nat)
    (h : ∀ c ∈ bs, (c : Int) ≠ q) : quoteFlag q u bs = u := by
  induction bs generalizing u with
  | nil => rfl
  | cons c bs ih =>
    rw [quoteFlag_cons, if_neg (h c (List.mem_cons_self _ _))]
    exact ih u (fun x hx => h x (List.mem_cons_of_mem _ hx))

theorem isField_of_plain {fD rD qD : Int} {f : List Nat} {d : Nat}
    (hf : Plain fD rD qD f) (hd : (d : Int) = fD ∨ (d : Int) = rD) (hq : (d : Int) ≠ qD) :
    IsField fD rD qD f d := by
  refine ⟨⟨by simp, ?_, ?_⟩, ?_⟩
  · have : (f ++ [d]).getD f.length 0 = d := by
      simp [List.getD_eq_getElem?_getD]
    rw [this]
    exact hd
  · rw [List.take_of_length_le (by simp)]
    apply quoteFlag_of_no_quote
    intro c hc
    rcases List.mem_append.1 hc with h | h
    · exact (hf c h).2.2
    · rw [List.mem_singleton.1 h]
      exact hq
  · intro j hj hdel
    have hget : (f ++ [d]).getD j 0 = f[j] := by
      simp [List.getD_eq_getElem?_getD, List.getElem?_append_left hj, hj]
    have hmem : f[j] ∈ f := List.getElem_mem hj
    have h2 := hdel.2.1
    rw [hget] at h2
    rcases h2 with h | h
    · exact (hf _ hmem).1 h
    · exact (hf _ hmem).2.1 h

theorem recordFields_length (fD rD : Nat) (r : List (List Nat)) :
    (recordFields fD rD r).length = r.length := by
  induction r with
  | nil => rfl
  | cons f r ih =>
    cases r with
    | nil => rfl
    | cons g r => simp only [recordFields, List.length_cons] at ih ⊢; omega

theorem recordFields_mem (fD rD : Nat) (r : List (List Nat)) (x : List Nat × Nat)
    (hx : x ∈ recordFields fD rD r) : x.1 ∈ r ∧ (x.2 = fD ∨ x.2 = rD) := by
  induction r with
  | nil => simp [recordFields] at hx
  | cons f r ih =>
    cases r with
    | nil =>
      simp only [recordFields, List.mem_singleton] at hx
      subst hx
      simp
    | cons g r =>
      simp only [recordFields, List.mem_cons] at hx ih ⊢
      rcases hx with h | h
      · subst h
        simp
      · have := ih h
        tauto

theorem recordFields_get (fD rD : Nat) (r : List (List Nat)) (j : Nat) (f : List Nat)
    (hj : r.get? j = some f) :
    ∃ d, (recordFields fD rD r).get? j = some (f, d) := by
  induction r generalizing j with
  | nil => simp at hj
  | cons g r ih =>
    cases r with
    | nil =>
      cases j with
      | zero =>
        simp only [List.get?_cons_zero, Option.some.injEq] at hj
        subst hj
        exact ⟨rD, rfl⟩
      | succ j => simp at hj
    | cons h r =>
      cases j with
      | zero =>
        simp only [List.get?_cons_zero, Option.some.injEq] at hj
        subst hj
        exact ⟨fD, rfl⟩
      | succ j =>
        simp only [List.get?_cons_succ] at hj
        obtain ⟨d, hd⟩ := ih j hj
        exact ⟨d, by simpa only [recordFields, List.get?_cons_succ] using hd⟩

theorem encode_take_le (fs : List (List Nat × Nat)) (j : Nat) (x : List Nat × Nat)
    (hj : fs.get? j = some x) :
    (encode (fs.take j)).length + x.1.length + 1 ≤ (encode fs).length := by
  induction fs generalizing j with
  | nil => simp at hj
  | cons y fs ih =>
    cases j with
    | zero =>
      simp only [List.get?_cons_zero, Option.some.injEq] at hj
      subst hj
      simp [encode]
    | succ j =>
      simp only [List.get?_cons_succ] at hj
      have := ih j hj
      simp only [List.take_succ_cons, encode, List.length_append, List.length_cons]
      omega

/-- When the current buffer is used up and the next ready buffer is empty (the
source returned 0 bytes), `readRecord` with at least one column returns 1. -/
theorem readRecord_exhausted (s : DikeAsyncReader) (buf e : DikeBuffer) (q : List DikeBuffer)
    (heof : isEOF s = false) (hn : 0 < s.record.nCol)
    (hb : s.buffer = some buf) (hr : buf.rest = [])
    (hw : s.work_q = e :: q) (he : e.rest = []) :
    ∃ s1, readRecord s = some (1, s1) := by
  obtain ⟨h1, h2, h3, h4, h5, h6, h7, h8, h9, h10, h11, h12, h13⟩ := releaseLoop_frame s.tmp_q s
  obtain ⟨n, hn1⟩ : ∃ n, s.record.nCol = n + 1 := ⟨s.record.nCol - 1, by omega⟩
  have hnone : ∀ (u : Bool) (j : Nat), ¬ DelimAt s.fDelim s.rDelim s.qDelim u [] j :=
    fun u j h => absurd h.1 (by simp)
  have hf := @readField_slow_fail
    { releaseBuffers s with
      recordCount := ((releaseBuffers s).recordCount + 1) % 18446744073709551616
      record := { (releaseBuffers s).record with
        fields := Function.update (releaseBuffers s).record.fields 0 Ptr.null } }
    buf e q 0 (h3.trans hb) (h10.trans hw)
    (by
      rw [hr]
      simpa only [releaseBuffers, h7, h8, h9] using hnone false)
    (by
      rw [he]
      simpa only [releaseBuffers, h7, h8, h9] using hnone _)
    (by
      have e : (releaseBuffers s).record.nCol = s.record.nCol := by
        unfold releaseBuffers
        rw [h4]
      simpa only [e] using hn)
  have hn2 : (releaseBuffers s).record.nCol = n + 1 := by
    unfold releaseBuffers
    rw [h4, hn1]
  rw [readRecord_not_eof s heof, hn2, readRecordLoop_succ, hf]
  exact ⟨_, rfl⟩

theorem afterCalls_succ {s s1 : DikeAsyncReader} {r : Int} (n : Nat)
    (h : readRecord s = some (r, s1)) : afterCalls (n + 1) s = afterCalls n s1 := by
  simp only [afterCalls, h]

theorem bufferSize_isInt32 (n m : Nat) (h : n ≤ m) (hm : m ≤ BUFFER_SIZE) : IsInt32 ((n : Int)) := by
  have hb : BUFFER_SIZE = 131072 := by decide
  unfold IsInt32
  omega

/-- The fields of a record read on the fast path, as the caller sees them. -/
theorem fieldBytes_fast (s s1 : DikeAsyncReader) (buf : DikeBuffer) (pre rest : List Nat)
    (fs : List (List Nat × Nat)) (hp : buf.pos = pre.length)
    (hfit : (pre ++ (encode fs ++ rest)).length ≤ BUFFER_SIZE)
    (hb : s1.buffer = some { buf with
        data := pre ++ (terminated fs ++ rest), pos := buf.pos + (encode fs).length })
    (hF : s1.record.fields = fieldsAfter buf.id fs 0 buf.pos s.record.fields)
    (hL : s1.record.len = lenAfter fs 0 s.record.len)
    (j : Nat) (x : List Nat × Nat) (hj : fs.get? j = some x) :
    fieldBytes s1 j = some (x.1 ++ [0]) := by
  have hlt : j < fs.length := by
    rw [List.get?_eq_getElem?] at hj
    exact (List.getElem?_eq_some_iff.1 hj).1
  have hle := encode_take_le fs j x hj
  have hlen : (pre ++ (encode fs ++ rest)).length = pre.length + (encode fs).length + rest.length := by
    simp only [List.length_append]
    omega
  have hptr : s1.record.fields j =
      Ptr.inBuffer buf.id (pre.length + (encode (fs.take j)).length) := by
    rw [hF]
    have := fieldsAfter_at buf.id fs 0 buf.pos s.record.fields j hlt
    rw [Nat.zero_add] at this
    rw [this, hp]
  have hl : s1.record.len j = ((x.1.length + 1 : Nat) : Int) := by
    rw [hL]
    have := lenAfter_at fs 0 s.record.len j x hj
    rw [Nat.zero_add] at this
    rw [this]
    have hi : IsInt32 (((x.1.length + 1 : Nat) : Int)) :=
      bufferSize_isInt32 _ _ (by omega) hfit
    rw [← toInt32_of_isInt32 hi]
    congr 1
  have h := fieldBytes_current s1 _ j _ _ hb hptr hl
    (by
      simp only [List.length_append, encode_length_terminated]
      omega)
  rw [h]
  simp only
  rw [terminated_slice pre rest fs j x hj]

/-- Records of `N ≥ 1` fields each in one buffer are read one per `readRecord`
call, and the call after the last one returns 1. -/
theorem readRecords_fields (fD rD N : Nat) (e : DikeBuffer) (q : List DikeBuffer)
    (recs : List (List (List Nat))) :
    ∀ (s : DikeAsyncReader) (buf : DikeBuffer) (pre : List Nat),
      0 < N → s.record.nCol = N → s.blockSize = 0 →
      (∀ r ∈ recs, r.length = N ∧
        ∀ x ∈ recordFields fD rD r, IsField s.fDelim s.rDelim s.qDelim x.1 x.2) →
      s.buffer = some buf → buf.data = pre ++ encodeRecords fD rD recs →
      buf.pos = pre.length → buf.data.length ≤ BUFFER_SIZE →
      s.work_q = e :: q → e.rest = [] →
      (∀ i r, recs.get? i = some r →
        ∃ si s1, afterCalls i s = some si ∧ readRecord si = some (0, s1) ∧
          ∀ j f, r.get? j = some f → fieldBytes s1 j = some (f ++ [0])) ∧
      (∃ sR s1, afterCalls recs.length s = some sR ∧ readRecord sR = some (1, s1)) := by
  induction recs with
  | nil =>
    intro s buf pre hN hcol hlim _ hb hd hp _ hw he
    refine ⟨fun i r h => by simp at h, s, ?_⟩
    have hr : buf.rest = [] := by
      unfold DikeBuffer.rest
      rw [hd, hp]
      simp [encodeRecords]
    obtain ⟨s1, h1⟩ := readRecord_exhausted s buf e q (isEOF_of_blockSize_zero s hlim)
      (by omega) hb hr hw he
    exact ⟨s1, rfl, h1⟩
  | cons r recs ih =>
    intro s buf pre hN hcol hlim hrec hb hd hp hfit hw he
    have hr := hrec r (List.mem_cons_self _ _)
    have hd2 : buf.data = pre ++ (encode (recordFields fD rD r) ++ encodeRecords fD rD recs) := by
      rw [hd]
      rfl
    obtain ⟨s1, hread, hb1, hF, hL, hn1, _, _, hbs, hf1, hr1, hq1, hw1, _⟩ :=
      readRecord_fast s buf pre (encodeRecords fD rD recs) (recordFields fD rD r)
        (isEOF_of_blockSize_zero s hlim)
        (by rw [recordFields_length, hcol, hr.1]) hb hd2 hp hr.2
    have hih := ih s1
      { buf with
        data := pre ++ (terminated (recordFields fD rD r) ++ encodeRecords fD rD recs)
        pos := buf.pos + (encode (recordFields fD rD r)).length }
      (pre ++ terminated (recordFields fD rD r))
      hN (hn1.trans hcol) (hbs.trans hlim)
      (by
        intro r2 hr2
        rw [hf1, hr1, hq1]
        exact hrec r2 (List.mem_cons_of_mem _ hr2))
      hb1 (by simp) (by simp [hp, encode_length_terminated])
      (by
        rw [hd2] at hfit
        simp only [List.length_append, encode_length_terminated] at hfit ⊢
        exact hfit)
      (hw1.trans hw) he
    refine ⟨?_, ?_⟩
    · intro i r2 hi
      cases i with
      | zero =>
        simp only [List.get?_cons_zero, Option.some.injEq] at hi
        subst hi
        refine ⟨s, s1, rfl, hread, ?_⟩
        intro j f hj
        obtain ⟨d, hd3⟩ := recordFields_get fD rD r j f hj
        exact fieldBytes_fast s s1 buf pre (encodeRecords fD rD recs) (recordFields fD rD r) hp
          (by rw [← hd2]; exact hfit) hb1 hF hL j (f, d) hd3
      | succ i =>
        simp only [List.get?_cons_succ] at hi
        obtain ⟨si, s2, h1, h2⟩ := hih.1 i r2 hi
        exact ⟨si, s2, by rw [afterCalls_succ i hread]; exact h1, h2⟩
    · obtain ⟨sR, s2, h1, h2⟩ := hih.2
      exact ⟨sR, s2, by rw [List.length_cons, afterCalls_succ _ hread]; exact h1, h2⟩

/-- Plain fields between delimiters that differ from the quote byte are
fields. -/
theorem isField_recordFields_of_plain (s : DikeAsyncReader) (fD rD : Nat) (r : List (List Nat))
    (hfD : s.fDelim = fD) (hrD : s.rDelim = rD) (hqf : s.qDelim ≠ fD) (hqr : s.qDelim ≠ rD)
    (hr : ∀ f ∈ r, Plain s.fDelim s.rDelim s.qDelim f) :
    ∀ x ∈ recordFields fD rD r, IsField s.fDelim s.rDelim s.qDelim x.1 x.2 := by
  intro x hx
  obtain ⟨hx1, hx2⟩ := recordFields_mem fD rD r x hx
  apply isField_of_plain (hr _ hx1)
  · rcases hx2 with h | h
    · left
      rw [h, hfD]
    · right
      rw [h, hrD]
  · rcases hx2 with h | h
    · rw [h]
      exact fun hh => hqf hh.symm
    · rw [h]
      exact fun hh => hqr hh.symm

/-- The scenario of the spec, evaluated: `1,2,3\n4,5,6\n` with three columns
gives ("1","2","3"), then ("4","5","6"), then a call that returns 1. -/
theorem readRecord_scenario :
    ((afterCalls 1 (readerOn 0 3 (bytes "1,2,3\n4,5,6\n") 0 [[]])).map
      (fun t => (fieldBytes t 0, fieldBytes t 1, fieldBytes t 2))) =
      some (some (bytes "1\x00"), some (bytes "2\x00"), some (bytes "3\x00")) ∧
    ((afterCalls 2 (readerOn 0 3 (bytes "1,2,3\n4,5,6\n") 0 [[]])).map
      (fun t => (fieldBytes t 0, fieldBytes t 1, fieldBytes t 2))) =
      some (some (bytes "4\x00"), some (bytes "5\x00"), some (bytes "6\x00")) ∧
    ((afterCalls 2 (readerOn 0 3 (bytes "1,2,3\n4,5,6\n") 0 [[]])).bind
      (fun t => (readRecord t).map Prod.fst)) = some 1 := by
  refine ⟨by decide, by decide, by decide⟩

/-! ## Quotes -/

theorem quoteFlag_nil (q : Int) (u : Bool) : quoteFlag q u [] = u := rfl

theorem quoteFlag_eq_count (q : Int) (u : Bool) (bs : List Nat) :
    quoteFlag q u bs = if quoteCount q bs % 2 = 0 then u else !u := by
  induction bs generalizing u with
  | nil => simp [quoteFlag, quoteCount]
  | cons c bs ih =>
    rw [quoteFlag_cons, ih]
    unfold quoteCount
    by_cases hc : (c : Int) = q
    · rw [List.countP_cons_of_pos _ _ (by simpa using hc), if_pos hc]
      rcases Nat.mod_two_eq_zero_or_one (List.countP (fun (c : Nat) => decide ((c : Int) = q)) bs) with h | h
      · have h2 : (List.countP (fun (c : Nat) => decide ((c : Int) = q)) bs + 1) % 2 ≠ 0 := by omega
        rw [if_pos h, if_neg h2]
      · have h1 : ¬ List.countP (fun (c : Nat) => decide ((c : Int) = q)) bs % 2 = 0 := by omega
        have h2 : (List.countP (fun (c : Nat) => decide ((c : Int) = q)) bs + 1) % 2 = 0 := by omega
        rw [if_neg h1, if_pos h2, Bool.not_not]
    · rw [List.countP_cons_of_neg _ _ (by simpa using hc), if_neg hc]

/-- With a quote byte that differs from both delimiters, a delimiter byte is
outside quotes exactly when an even number of quote bytes precedes it. -/
theorem delimAt_iff_even (f r q : Int) (hqf : q ≠ f) (hqr : q ≠ r) (bs : List Nat) (k : Nat) :
    DelimAt f r q false bs k ↔
      (k < bs.length ∧ (((bs.getD k 0 : Nat) : Int) = f ∨ ((bs.getD k 0 : Nat) : Int) = r) ∧
        quoteCount q (bs.take k) % 2 = 0) := by
  unfold DelimAt
  constructor
  · rintro ⟨h1, h2, h3⟩
    refine ⟨h1, h2, ?_⟩
    have hne : ((bs.getD k 0 : Nat) : Int) ≠ q := by
      rcases h2 with h | h
      · rw [h]
        exact fun hh => hqf hh.symm
      · rw [h]
        exact fun hh => hqr hh.symm
    have ht : bs.take (k + 1) = bs.take k ++ [bs.getD k 0] := by
      rw [List.take_succ]
      simp [List.getD_eq_getElem?_getD, List.getElem?_eq_getElem h1]
    rw [ht, quoteFlag_append, quoteFlag_cons, if_neg hne, quoteFlag_nil, quoteFlag_eq_count] at h3
    by_contra hodd
    rw [if_neg hodd] at h3
    simp at h3
  · rintro ⟨h1, h2, h3⟩
    refine ⟨h1, h2, ?_⟩
    have hne : ((bs.getD k 0 : Nat) : Int) ≠ q := by
      rcases h2 with h | h
      · rw [h]
        exact fun hh => hqf hh.symm
      · rw [h]
        exact fun hh => hqr hh.symm
    have ht : bs.take (k + 1) = bs.take k ++ [bs.getD k 0] := by
      rw [List.take_succ]
      simp [List.getD_eq_getElem?_getD, List.getElem?_eq_getElem h1]
    rw [ht, quoteFlag_append, quoteFlag_cons, if_neg hne, quoteFlag_nil, quoteFlag_eq_count, if_pos h3]

/-- C3. Quote handling: with a quote byte different from both delimiters,
`readField` ends the field at the first field or record delimiter byte that is
preceded, since the cursor, by an even number of quote bytes (delimiter bytes
before it, all preceded by an odd number of quote bytes, do not end it), and the
field's bytes are all bytes before that delimiter, quote bytes included,
followed by the terminator. -/
theorem readField_quotes (s : DikeAsyncReader) (buf : DikeBuffer) (pos k : Nat)
    (hb : s.buffer = some buf) (hfit : buf.data.length ≤ BUFFER_SIZE)
    (hqf : s.qDelim ≠ s.fDelim) (hqr : s.qDelim ≠ s.rDelim)
    (hk : k < buf.rest.length)
    (hd : ((buf.rest.getD k 0 : Nat) : Int) = s.fDelim ∨ ((buf.rest.getD k 0 : Nat) : Int) = s.rDelim)
    (heven : quoteCount s.qDelim (buf.rest.take k) % 2 = 0)
    (hquoted : ∀ j, j < k →
      (((buf.rest.getD j 0 : Nat) : Int) = s.fDelim ∨ ((buf.rest.getD j 0 : Nat) : Int) = s.rDelim) →
      quoteCount s.qDelim (buf.rest.take j) % 2 = 1) :
    ∃ s1 buf1, readField pos s = some (0, s1) ∧ s1.buffer = some buf1 ∧
      buf1.pos = buf.pos + k + 1 ∧
      fieldBytes s1 pos = some (buf.rest.take k ++ [0]) := by
  have hfirst : FirstDelimAt s.fDelim s.rDelim s.qDelim false buf.rest k := by
    refine ⟨(delimAt_iff_even _ _ _ hqf hqr _ _).2 ⟨hk, hd, heven⟩, ?_⟩
    intro j hj hdel
    obtain ⟨_, h2, h3⟩ := (delimAt_iff_even _ _ _ hqf hqr _ _).1 hdel
    have := hquoted j hj h2
    omega
  have hlt : buf.pos + k < buf.data.length := by
    unfold DikeBuffer.rest at hk
    rw [List.length_drop] at hk
    omega
  refine ⟨_, _, readField_of_first pos hb hfirst, rfl, rfl, ?_⟩
  have hi : IsInt32 (((k + 1 : Nat) : Int)) := bufferSize_isInt32 _ _ (by omega) hfit
  rw [fieldBytes_current _ { buf with data := buf.data.set (buf.pos + k) 0, pos := buf.pos + k + 1 }
    pos buf.pos (k + 1) rfl (by simp) (by
      simp only [Function.update_same]
      rw [← toInt32_of_isInt32 hi]
      congr 1) (by simp only [List.length_set]; omega)]
  congr 1
  simp only
  unfold DikeBuffer.rest
  apply List.ext_getElem
  · simp only [List.length_take, List.length_drop, List.length_set, List.length_append,
      List.length_cons, List.length_nil]
    omega
  · intro i h1 h2
    simp only [List.length_take, List.length_drop, List.length_set] at h1
    simp only [List.getElem_take, List.getElem_drop, List.getElem_set]
    by_cases hik : i = k
    · subst hik
      have hlen : (List.take i (List.drop buf.pos buf.data)).length = i := by
        simp only [List.length_take, List.length_drop]
        omega
      rw [if_pos rfl, List.getElem_append_right (by omega)]
      simp [hlen]
    · have hik2 : i < k := by omega
      rw [if_neg (by omega), List.getElem_append_left (by simp; omega)]
      simp

/-- Witness for C3: the input `"a,b",c\n` (bytes 34 97 44 98 34 44 99 10) read
with two columns. Field 0 ends at the comma at offset 5, after two quote bytes,
and its bytes are `"a,b"` with both quotes; field 1 is `c`. -/
theorem readField_quotes_witness :
    (5 < ([34, 97, 44, 98, 34, 44, 99, 10] : List Nat).length ∧
     quoteCount 34 (([34, 97, 44, 98, 34, 44, 99, 10] : List Nat).take 5) % 2 = 0 ∧
     (∀ j, j < 5 →
      (((([34, 97, 44, 98, 34, 44, 99, 10] : List Nat).getD j 0 : Nat) : Int) = 44 ∨
        ((([34, 97, 44, 98, 34, 44, 99, 10] : List Nat).getD j 0 : Nat) : Int) = 10) →
      quoteCount 34 (([34, 97, 44, 98, 34, 44, 99, 10] : List Nat).take j) % 2 = 1)) ∧
    (∃ s1 buf1, readField 0 (readerOn 0 2 [34, 97, 44, 98, 34, 44, 99, 10] 0 [[]]) = some (0, s1) ∧
      s1.buffer = some buf1 ∧ buf1.pos = 0 + 5 + 1 ∧
      fieldBytes s1 0 = some ([34, 97, 44, 98, 34] ++ [0])) ∧
    ((afterCalls 1 (readerOn 0 2 [34, 97, 44, 98, 34, 44, 99, 10] 0 [[]])).map
      (fun t => (fieldBytes t 0, fieldBytes t 1))) =
      some (some [34, 97, 44, 98, 34, 0], some [99, 0]) :=
  ⟨⟨by decide, by decide, by decide⟩,
    readField_quotes (readerOn 0 2 [34, 97, 44, 98, 34, 44, 99, 10] 0 [[]])
      { id := 0, data := [34, 97, 44, 98, 34, 44, 99, 10], pos := 0 } 0 5 rfl (by decide)
      (by decide) (by decide) (by decide) (by decide) (by decide) (by decide),
    by decide⟩

/-! ## A field across a buffer boundary -/

theorem delimAt_append_right (f r q : Int) (u : Bool) (xs ys : List Nat) (k : Nat) :
    DelimAt f r q u (xs ++ ys) (xs.length + k) ↔ DelimAt f r q (quoteFlag q u xs) ys k := by
  unfold DelimAt
  have h1 : (xs ++ ys).getD (xs.length + k) 0 = ys.getD k 0 := by
    simp [List.getD_eq_getElem?_getD, List.getElem?_append_right]
  have h2 : (xs ++ ys).take (xs.length + k + 1) = xs ++ ys.take (k + 1) := by
    rw [Nat.add_assoc, List.take_append]
  rw [h1, h2, quoteFlag_append]
  simp only [List.length_append]
  constructor
  · rintro ⟨h, h3⟩
    exact ⟨by omega, h3⟩
  · rintro ⟨h, h3⟩
    exact ⟨by omega, h3⟩

theorem delimAt_lt_length {f r q : Int} {u : Bool} {bs : List Nat} {k : Nat}
    (h : DelimAt f r q u bs k) : k < bs.length := h.1

/-- A first delimiter that lies in the second of two byte runs: the first run
holds none, and the second holds it first, the quote flag carried over. -/
theorem firstDelimAt_split {f r q : Int} {u : Bool} {xs ys : List Nat} {k : Nat}
    (h : FirstDelimAt f r q u (xs ++ ys) (xs.length + k)) :
    (∀ j, ¬ DelimAt f r q u xs j) ∧ FirstDelimAt f r q (quoteFlag q u xs) ys k := by
  refine ⟨?_, (delimAt_append_right f r q u xs ys k).1 h.1, ?_⟩
  · intro j hj
    have hlt := delimAt_lt_length hj
    exact h.2 j (by omega) ((delimAt_append_left f r q u xs ys j hlt).2 hj)
  · intro j hj hd
    exact h.2 (xs.length + j) (by omega) ((delimAt_append_right f r q u xs ys j).2 hd)

/-- The converse: a run without delimiter followed by a run whose first
delimiter, with the carried flag, is at `k`. -/
theorem firstDelimAt_join {f r q : Int} {u : Bool} {xs ys : List Nat} {k : Nat}
    (h1 : ∀ j, ¬ DelimAt f r q u xs j) (h2 : FirstDelimAt f r q (quoteFlag q u xs) ys k) :
    FirstDelimAt f r q u (xs ++ ys) (xs.length + k) := by
  refine ⟨(delimAt_append_right f r q u xs ys k).2 h2.1, ?_⟩
  intro j hj hd
  by_cases hlt : j < xs.length
  · exact h1 j ((delimAt_append_left f r q u xs ys j hlt).1 hd)
  · obtain ⟨i, rfl⟩ : ∃ i, j = xs.length + i := ⟨j - xs.length, by omega⟩
    exact h2.2 i (by omega) ((delimAt_append_right f r q u xs ys i).1 hd)

theorem delimAt_join_none {f r q : Int} {u : Bool} {xs ys : List Nat}
    (h1 : ∀ j, ¬ DelimAt f r q u xs j) (h2 : ∀ j, ¬ DelimAt f r q (quoteFlag q u xs) ys j) :
    ∀ j, ¬ DelimAt f r q u (xs ++ ys) j := by
  intro j hd
  by_cases hlt : j < xs.length
  · exact h1 j ((delimAt_append_left f r q u xs ys j hlt).1 hd)
  · obtain ⟨i, rfl⟩ : ∃ i, j = xs.length + i := ⟨j - xs.length, by omega⟩
    exact h2 i ((delimAt_append_right f r q u xs ys i).1 hd)

/-- What the caller finds at `fields[j]` when it points into the arena. -/
theorem fieldBytes_arena (s : DikeAsyncReader) (j p : Nat) (bs : List Nat) (arena : Nat → Nat)
    (hptr : s.record.fields j = Ptr.inArena p) (hlen : s.record.len j = (bs.length : Int))
    (ha : s.record.arena = store arena p bs) :
    fieldBytes s j = some bs := by
  unfold fieldBytes
  rw [hptr, hlen]
  simp only [loadBytes, Int.toNat_ofNat, ha, range_store]

theorem fieldSize_isInt32 (n : Nat) (h : n ≤ FIELED_SIZE) : IsInt32 ((n : Int)) := by
  have hb : FIELED_SIZE = 1024 := by decide
  unfold IsInt32
  omega

/-- C4. Boundary property, for a column `pos < nCol` of a record with
`nCol ≤ MAX_COLUMNS` (the columns whose overflow region the constructor sets
up): a field (content `f` followed by its delimiter `d`
outside quotes, `f.length + 1 ≤ FIELED_SIZE`) split at any point `m ≤ f.length`
between the rest of the current buffer and the start of the next ready buffer is
read by `readField` with result 0, the same field bytes (`f` followed by 0), the
same recorded length and the same growth of `bytesRead` as on the fast path,
where the whole field lies in the current buffer. The field pointer is the start
of the column's arena region, the write stays inside that region, the used-up
buffer is appended to the held queue, and the cursor of the new buffer is one
past the delimiter. The split may fall inside a quoted region: the quote flag
is carried across the boundary. The column's region lies inside the arena. -/
theorem readField_boundary (sF sS : DikeAsyncReader) (bF bS nb : DikeBuffer)
    (q : List DikeBuffer) (pos m : Nat) (f : List Nat) (d : Nat) (tlF tl : List Nat)
    (hfield : IsField sF.fDelim sF.rDelim sF.qDelim f d)
    (hsize : f.length + 1 ≤ FIELED_SIZE) (hm : m ≤ f.length)
    (hfD : sS.fDelim = sF.fDelim) (hrD : sS.rDelim = sF.rDelim) (hqD : sS.qDelim = sF.qDelim)
    (hbytes : sS.bytesRead = sF.bytesRead)
    (hbF : sF.buffer = some bF) (hrF : bF.rest = f ++ d :: tlF)
    (hbS : sS.buffer = some bS) (hrS : bS.rest = f.take m)
    (hw : sS.work_q = nb :: q) (hn : nb.rest = f.drop m ++ d :: tl)
    (hpos : pos < sS.record.nCol) (hcol : sS.record.nCol ≤ MAX_COLUMNS) :
    ∃ s1 s2, readField pos sF = some (0, s1) ∧ readField pos sS = some (0, s2) ∧
      fieldBytes s1 pos = some (f ++ [0]) ∧ fieldBytes s2 pos = some (f ++ [0]) ∧
      s1.record.len pos = (f.length : Int) + 1 ∧ s2.record.len pos = s1.record.len pos ∧
      s1.bytesRead = toInt32 (sF.bytesRead + ((f.length : Int) + 1)) ∧
      s2.bytesRead = s1.bytesRead ∧
      s2.record.fields pos = Ptr.inArena (fieldMemory pos) ∧
      (∀ x, x < fieldMemory pos ∨ fieldMemory pos + FIELED_SIZE ≤ x →
        s2.record.arena x = sS.record.arena x) ∧
      s2.tmp_q = sS.tmp_q ++ [bS] ∧ s2.work_q = q ∧
      s2.buffer = some { nb with pos := nb.pos + (f.length - m + 1) } ∧
      fieldMemory pos + FIELED_SIZE ≤ FIELED_SIZE * MAX_COLUMNS := by
  have hfirstF : FirstDelimAt sF.fDelim sF.rDelim sF.qDelim false bF.rest f.length := by
    rw [hrF]
    exact hfield.first tlF
  have hsplit : f ++ d :: tl = f.take m ++ (f.drop m ++ d :: tl) := by
    rw [← List.append_assoc, List.take_append_drop]
  have hlenm : (f.take m).length = m := by
    rw [List.length_take]
    omega
  have hfirst2 : FirstDelimAt sF.fDelim sF.rDelim sF.qDelim false
      (f.take m ++ (f.drop m ++ d :: tl)) ((f.take m).length + (f.length - m)) := by
    rw [← hsplit, hlenm]
    have := hfield.first tl
    have e : m + (f.length - m) = f.length := by omega
    rw [e]
    exact this
  obtain ⟨hnone, hnext⟩ := firstDelimAt_split hfirst2
  have hslow := @readField_slow_found sS bS nb q (f.length - m) pos hbS hw
    (by rw [hfD, hrD, hqD, hrS]; exact hnone)
    (by rw [hfD, hrD, hqD, hrS, hn]; exact hnext) hpos
  have hcount : bS.rest.length + (f.length - m) + 1 = f.length + 1 := by
    rw [hrS, hlenm]
    omega
  have hbytesS : bS.rest ++ (nb.rest.take (f.length - m) ++ [0]) = f ++ [0] := by
    rw [hrS, hn]
    have : (f.drop m ++ d :: tl).take (f.length - m) = f.drop m := by
      rw [List.take_append_of_le_length (by simp)]
      apply List.take_of_length_le
      simp
    rw [this, ← List.append_assoc, List.take_append_drop]
  have hi : IsInt32 (((f.length + 1 : Nat) : Int)) := fieldSize_isInt32 _ hsize
  have hcast : ((f.length : Int) + 1) = ((f.length + 1 : Nat) : Int) := by push_cast; rfl
  have hdataF : bF.pos + (f.length + 1) ≤ bF.data.length := by
    have := congrArg List.length hrF
    unfold DikeBuffer.rest at this
    simp only [List.length_drop, List.length_append, List.length_cons] at this
    omega
  have hregion : fieldMemory pos + FIELED_SIZE ≤ FIELED_SIZE * MAX_COLUMNS := by
    have hF : FIELED_SIZE = 1024 := rfl
    have hM : MAX_COLUMNS = 128 := rfl
    unfold fieldMemory
    rw [hF, hM]
    rw [hM] at hcol
    omega
  refine ⟨_, _, readField_of_first pos hbF hfirstF, hslow, ?_, ?_, ?_, ?_, rfl, ?_, ?_, ?_, rfl, rfl,
    rfl, hregion⟩
  · rw [fieldBytes_current _
      { bF with data := bF.data.set (bF.pos + f.length) 0, pos := bF.pos + f.length + 1 }
      pos bF.pos (f.length + 1) rfl (by simp) (by
        simp only [Function.update_same]
        rw [hcast, toInt32_of_isInt32 hi]) (by simp only [List.length_set]; omega)]
    congr 1
    simp only
    have hd2 : bF.data = bF.data.take bF.pos ++ (f ++ d :: tlF) := by
      rw [← hrF]
      unfold DikeBuffer.rest
      rw [List.take_append_drop]
    have hl : (bF.data.take bF.pos).length = bF.pos := by
      rw [List.length_take]
      omega
    have hset := set_delim (bF.data.take bF.pos) f d tlF
    rw [hl, ← hd2] at hset
    rw [hset]
    have e1 : List.drop bF.pos (List.take bF.pos bF.data ++ (f ++ 0 :: tlF)) = f ++ 0 :: tlF := by
      have := drop_pre (bF.data.take bF.pos) (f ++ 0 :: tlF)
      rw [hl] at this
      exact this
    rw [e1]
    have e2 : f ++ 0 :: tlF = (f ++ [0]) ++ tlF := by simp
    have e3 : f.length + 1 = (f ++ [0]).length := by simp
    rw [e2, e3, List.take_left]
  · apply fieldBytes_arena _ pos (fieldMemory pos) (f ++ [0]) sS.record.arena
    · simp
    · simp only [Function.update_same, hcount, List.length_append, List.length_cons,
        List.length_nil]
      exact toInt32_of_isInt32 hi
    · simp only [hbytesS]
  · simp only [Function.update_same]
    rw [hcast, toInt32_of_isInt32 hi]
  · simp only [Function.update_same, hcount]
    rw [hcast]
  · simp only [hcount, hbytes]
    rw [toInt32_of_isInt32 hi, hcast]
  · simp
  · intro x hx
    simp only [hbytesS]
    apply store_outside
    simp only [List.length_append, List.length_cons, List.length_nil]
    omega

/-- Witness for C4: the field `"a,b"` of the record `"a,b",c\n`, whole in one
buffer and split after `"a`, inside the quoted region. -/
theorem readField_boundary_witness :
    (IsField 44 10 34 [34, 97, 44, 98, 34] 44 ∧ [34, 97, 44, 98, 34].length + 1 ≤ FIELED_SIZE ∧
      2 ≤ [34, 97, 44, 98, 34].length ∧ 0 < quotedSplit.record.nCol ∧
      quotedSplit.record.nCol ≤ MAX_COLUMNS) ∧
    (∃ s1 s2, readField 0 quotedWhole = some (0, s1) ∧ readField 0 quotedSplit = some (0, s2) ∧
      fieldBytes s1 0 = some ([34, 97, 44, 98, 34] ++ [0]) ∧
      fieldBytes s2 0 = some ([34, 97, 44, 98, 34] ++ [0]) ∧
      s1.record.len 0 = (([34, 97, 44, 98, 34] : List Nat).length : Int) + 1 ∧
      s2.record.len 0 = s1.record.len 0 ∧
      s1.bytesRead = toInt32 (quotedWhole.bytesRead + ((([34, 97, 44, 98, 34] : List Nat).length : Int) + 1)) ∧
      s2.bytesRead = s1.bytesRead ∧
      s2.record.fields 0 = Ptr.inArena (fieldMemory 0) ∧
      (∀ x, x < fieldMemory 0 ∨ fieldMemory 0 + FIELED_SIZE ≤ x →
        s2.record.arena x = quotedSplit.record.arena x) ∧
      s2.tmp_q = quotedSplit.tmp_q ++ [{ id := 0, data := [34, 97], pos := 0 }] ∧ s2.work_q = [] ∧
      s2.buffer = some
        { id := 1, data := [44, 98, 34, 44, 99, 10], pos := 0 + ([34, 97, 44, 98, 34].length - 2 + 1) } ∧
      fieldMemory 0 + FIELED_SIZE ≤ FIELED_SIZE * MAX_COLUMNS) :=
  ⟨⟨by decide, by decide, by decide, by decide, by decide⟩,
    readField_boundary quotedWhole quotedSplit
      { id := 0, data := [34, 97, 44, 98, 34, 44, 99, 10], pos := 0 }
      { id := 0, data := [34, 97], pos := 0 }
      { id := 1, data := [44, 98, 34, 44, 99, 10], pos := 0 } [] 0 2
      [34, 97, 44, 98, 34] 44 [99, 10] [99, 10]
      (by decide) (by decide) (by decide) rfl rfl rfl rfl rfl rfl rfl rfl rfl rfl
      (by decide) (by decide)⟩

/-! ## The block-size limit -/

theorem toUInt64_of_nonneg {x : Int} (h0 : 0 ≤ x) (h : IsInt32 x) : toUInt64 x = x := by
  unfold IsInt32 at h
  unfold toUInt64
  omega

theorem eof_iff_of_nonneg (s : DikeAsyncReader) (h0 : 0 ≤ s.bytesRead) (hi : IsInt32 s.bytesRead) :
    isEOF s = true ↔ (s.blockSize ≠ 0 ∧ (s.blockSize : Int) < s.bytesRead) := by
  unfold isEOF
  rw [toUInt64_of_nonneg h0 hi]
  simp only [Bool.and_eq_true, decide_eq_true_eq]
  constructor
  · rintro ⟨h1, h2⟩
    exact ⟨by omega, h2⟩
  · rintro ⟨h1, h2⟩
    exact ⟨by omega, h2⟩

/-- `readField` never looks at the block-size limit. -/
theorem readField_blockSize (L pos : Nat) (s : DikeAsyncReader) :
    readField pos { s with blockSize := L } =
      (readField pos s).map (fun p => (p.1, { p.2 with blockSize := L })) := by
  unfold readField
  cases hb : s.buffer with
  | none => simp only [hb, Option.map_none']
  | some buf =>
    simp only [hb]
    cases hscan : scanField s.fDelim s.rDelim s.qDelim buf.rest false 0 with
    | found k => rfl
    | exhausted u =>
      cases hfm : s.record.fieldMemoryAt pos with
      | none => simp only [Option.map_none']
      | some base =>
        simp only [getBuffer, holdBuffer]
        cases hw : s.work_q with
        | nil => simp only [hw, Option.map_none']
        | cons nb q =>
          simp only [hw]
          cases hc : copySecond s.fDelim s.rDelim s.qDelim nb.rest u
            (copyFirst buf.rest s.record.arena base 0).1
            (copyFirst buf.rest s.record.arena base 0).2.1
            (copyFirst buf.rest s.record.arena base 0).2.2 0 with
          | found a c k => rfl
          | exhausted a => rfl

/-- The loop of `readRecord` never looks at the block-size limit. -/
theorem readRecordLoop_blockSize (L n : Nat) :
    ∀ (i : Nat) (s : DikeAsyncReader),
      readRecordLoop n i { s with blockSize := L } =
        (readRecordLoop n i s).map (fun p => (p.1, { p.2 with blockSize := L })) := by
  induction n with
  | zero =>
    intro i s
    rfl
  | succ n ih =>
    intro i s
    rw [readRecordLoop_succ, readRecordLoop_succ]
    have h := readField_blockSize L i
      { s with record := { s.record with fields := Function.update s.record.fields i Ptr.null } }
    dsimp only at h ⊢
    rw [h]
    cases hr : readField i
        { s with record := { s.record with fields := Function.update s.record.fields i Ptr.null } } with
    | none => rfl
    | some p =>
      obtain ⟨r, s1⟩ := p
      simp only [Option.map_some']
      by_cases h0 : r = 0
      · simp only [h0, ne_eq, not_true_eq_false, if_false]
        exact ih (i + 1) s1
      · simp only [h0, ne_eq, not_false_eq_true, if_true, Option.map_some']

/-- What `readField` leaves alone, whatever it returns, and the values it can
return. -/
theorem readField_frame {pos : Nat} {s t : DikeAsyncReader} {r : Int}
    (h : readField pos s = some (r, t)) :
    t.blockSize = s.blockSize ∧ t.fDelim = s.fDelim ∧ t.rDelim = s.rDelim ∧
    t.qDelim = s.qDelim ∧ t.free_q = s.free_q ∧ t.record.nCol = s.record.nCol ∧
    t.recordCount = s.recordCount ∧ t.pushCount = s.pushCount ∧
    t.emptyCount = s.emptyCount ∧ t.filling = s.filling ∧ t.isRunning = s.isRunning ∧
    (r = 0 ∨ r = 1) := by
  unfold readField at h
  cases hb : s.buffer with
  | none => simp [hb] at h
  | some buf =>
    simp only [hb] at h
    cases hscan : scanField s.fDelim s.rDelim s.qDelim buf.rest false 0 with
    | found k =>
      simp only [hscan, Option.some.injEq, Prod.mk.injEq] at h
      obtain ⟨rfl, rfl⟩ := h
      simp
    | exhausted u =>
      cases hfm : s.record.fieldMemoryAt pos with
      | none => simp [hscan, hfm] at h
      | some base =>
        simp only [hscan, hfm, getBuffer, holdBuffer] at h
        cases hw : s.work_q with
        | nil => simp [hw] at h
        | cons nb q =>
          simp only [hw] at h
          cases hc : copySecond s.fDelim s.rDelim s.qDelim nb.rest u
            (copyFirst buf.rest s.record.arena base 0).1
            (copyFirst buf.rest s.record.arena base 0).2.1
            (copyFirst buf.rest s.record.arena base 0).2.2 0 with
          | found a c k =>
            simp only [hc, Option.some.injEq, Prod.mk.injEq] at h
            obtain ⟨rfl, rfl⟩ := h
            simp
          | exhausted a =>
            simp only [hc, Option.some.injEq, Prod.mk.injEq] at h
            obtain ⟨rfl, rfl⟩ := h
            simp

/-- What the loop of `readRecord` leaves alone, and the values it can return. -/
theorem readRecordLoop_frame (n : Nat) :
    ∀ (i : Nat) (s t : DikeAsyncReader) (r : Int), readRecordLoop n i s = some (r, t) →
      t.blockSize = s.blockSize ∧ t.fDelim = s.fDelim ∧ t.rDelim = s.rDelim ∧
      t.qDelim = s.qDelim ∧ t.free_q = s.free_q ∧ t.record.nCol = s.record.nCol ∧
      t.recordCount = s.recordCount ∧ t.pushCount = s.pushCount ∧
      t.emptyCount = s.emptyCount ∧ t.filling = s.filling ∧ t.isRunning = s.isRunning ∧
      (r = 0 ∨ r = 1) := by
  induction n with
  | zero =>
    intro i s t r h
    simp only [readRecordLoop, Option.some.injEq, Prod.mk.injEq] at h
    obtain ⟨rfl, rfl⟩ := h
    simp
  | succ n ih =>
    intro i s t r h
    rw [readRecordLoop_succ] at h
    cases hr : readField i
        { s with record := { s.record with fields := Function.update s.record.fields i Ptr.null } } with
    | none => simp [hr] at h
    | some p =>
      obtain ⟨r1, s1⟩ := p
      have hf := readField_frame hr
      simp only [hr] at h
      by_cases h0 : r1 = 0
      · simp only [h0, ne_eq, not_true_eq_false, if_false] at h
        have h2 := ih (i + 1) s1 t r h
        obtain ⟨a1, a2, a3, a4, a5, a6, a7, a8, a9, a10, a11, _⟩ := hf
        obtain ⟨b1, b2, b3, b4, b5, b6, b7, b8, b9, b10, b11, b12⟩ := h2
        exact ⟨b1.trans a1, b2.trans a2, b3.trans a3, b4.trans a4, b5.trans a5, b6.trans a6,
          b7.trans a7, b8.trans a8, b9.trans a9, b10.trans a10, b11.trans a11, b12⟩
      · simp only [h0, ne_eq, not_false_eq_true, if_true, Option.some.injEq, Prod.mk.injEq] at h
        obtain ⟨rfl, rfl⟩ := h
        obtain ⟨a1, a2, a3, a4, a5, a6, a7, a8, a9, a10, a11, _⟩ := hf
        exact ⟨a1, a2, a3, a4, a5, a6, a7, a8, a9, a10, a11, Or.inr rfl⟩

theorem releaseLoop_blockSize (L : Nat) (q : List DikeBuffer) (s : DikeAsyncReader) :
    releaseLoop q { s with blockSize := L } = { releaseLoop q s with blockSize := L } := by
  induction q generalizing s with
  | nil => rfl
  | cons b q ih =>
    simp only [releaseLoop]
    exact ih (pushBuffer b { s with tmp_q := q })

/-- A `readRecord` call that is not at EOF does what it would do without a
limit. -/
theorem readRecord_blockSize (s : DikeAsyncReader) (heof : isEOF s = false) :
    readRecord s =
      (readRecord { s with blockSize := 0 }).map
        (fun p => (p.1, { p.2 with blockSize := s.blockSize })) := by
  have h1 := readRecord_not_eof s heof
  have h2 := readRecord_not_eof { s with blockSize := 0 } (isEOF_of_blockSize_zero _ rfl)
  have h3 : releaseBuffers { s with blockSize := 0 } = { releaseBuffers s with blockSize := 0 } :=
    releaseLoop_blockSize 0 s.tmp_q s
  rw [h3] at h2
  have h4 := readRecordLoop_blockSize 0 (releaseBuffers s).record.nCol 0
    { releaseBuffers s with
      recordCount := ((releaseBuffers s).recordCount + 1) % 18446744073709551616 }
  dsimp only at h2 h4
  rw [h2, h4, h1]
  have hbs : (releaseBuffers s).blockSize = s.blockSize := (releaseLoop_frame s.tmp_q s).2.2.2.2.2.1
  cases hr : readRecordLoop (releaseBuffers s).record.nCol 0
      { releaseBuffers s with
        recordCount := ((releaseBuffers s).recordCount + 1) % 18446744073709551616 } with
  | none => rfl
  | some p =>
    obtain ⟨r, t⟩ := p
    have hfr := (readRecordLoop_frame _ _ _ _ _ hr).1
    simp only [Option.map_some']
    rw [← hbs]
    dsimp only at hfr
    rw [← hfr]

/-! ## Records spread over several buffers -/

theorem pendingQ_eq_nil {q : List DikeBuffer} (h : ∀ c ∈ q, c.rest = []) : pendingQ q = [] := by
  induction q with
  | nil => rfl
  | cons b q ih =>
    simp only [pendingQ]
    rw [h b (List.mem_cons_self _ _), ih (fun c hc => h c (List.mem_cons_of_mem _ hc))]
    rfl

theorem rest_eq_nil_of_pendingQ {q : List DikeBuffer} (h : pendingQ q = []) :
    ∀ c ∈ q, c.rest = [] := by
  induction q with
  | nil => intro c hc; exact absurd hc (List.not_mem_nil c)
  | cons b q ih =>
    simp only [pendingQ, List.append_eq_nil] at h
    intro c hc
    rcases List.mem_cons.1 hc with rfl | h2
    · exact h.1
    · exact ih h.2 c h2

theorem pending_eq (s : DikeAsyncReader) (buf : DikeBuffer) (hb : s.buffer = some buf) :
    pending s = buf.rest ++ pendingQ s.work_q := by
  simp [pending, hb, pendingQ]

/-- Two ways to split the same bytes: the shorter left part is a prefix of the
longer one. -/
theorem append_split {a p x y : List Nat} (h : a ++ p = x ++ y) (hlen : x.length ≤ a.length) :
    ∃ z, a = x ++ z ∧ y = z ++ p := by
  rcases List.append_eq_append_iff.1 h with ⟨z, h1, h2⟩ | ⟨z, h1, h2⟩
  · have hz : z = [] := by
      have := congrArg List.length h1
      simp only [List.length_append] at this
      exact List.length_eq_zero.1 (by omega)
    subst hz
    exact ⟨[], by simpa using h1.symm, by simpa using h2.symm⟩
  · exact ⟨z, h1, h2⟩

theorem drop_after (data : List Nat) (p : Nat) (x z : List Nat) (h : data.drop p = x ++ z) :
    data.drop (p + x.length) = z := by
  rw [← List.drop_drop, h, List.drop_left]

/-- One `readField` on a stream of buffers: when the pending bytes start with a
field of at most `FIELED_SIZE` bytes (delimiter included) and the ready queue is
chunked, the call returns 0 and consumes exactly that field. -/
theorem readField_stream (s : DikeAsyncReader) (buf : DikeBuffer) (pos : Nat)
    (f : List Nat) (d : Nat) (tl : List Nat)
    (hb : s.buffer = some buf) (hc : Chunked s.work_q)
    (hpend : pending s = f ++ d :: tl)
    (hf : IsField s.fDelim s.rDelim s.qDelim f d) (hsize : f.length + 1 ≤ FIELED_SIZE)
    (hpos : pos < s.record.nCol) :
    ∃ t buf1, readField pos s = some (0, t) ∧ t.buffer = some buf1 ∧ pending t = tl ∧
      Chunked t.work_q ∧
      (∀ e ∈ s.work_q, e.rest = [] → e ∈ t.work_q) ∧
      t.bytesRead = toInt32 (s.bytesRead + ((f.length : Int) + 1)) := by
  rw [pending_eq s buf hb] at hpend
  by_cases hlen : f.length + 1 ≤ buf.rest.length
  · -- the delimiter lies in the current buffer
    have h2 : buf.rest ++ pendingQ s.work_q = (f ++ [d]) ++ tl := by simpa using hpend
    obtain ⟨z, hz1, hz2⟩ := append_split h2 (by simpa using hlen)
    have hrest : buf.rest = f ++ d :: z := by simpa using hz1
    have hfirst : FirstDelimAt s.fDelim s.rDelim s.qDelim false buf.rest f.length := by
      rw [hrest]
      exact hf.first z
    refine ⟨_, _, readField_of_first pos hb hfirst, rfl, ?_, hc, fun e he _ => he, rfl⟩
    have hr1 : DikeBuffer.rest
        { buf with data := buf.data.set (buf.pos + f.length) 0, pos := buf.pos + f.length + 1 } = z := by
      unfold DikeBuffer.rest at hrest ⊢
      simp only
      rw [List.drop_set_of_lt _ _ (by omega)]
      have e2 : buf.data.drop buf.pos = (f ++ [d]) ++ z := by simpa using hrest
      have := drop_after _ _ _ _ e2
      simpa [Nat.add_assoc] using this
    rw [pending_eq _ _ rfl, hr1, hz2]
  · -- the field runs into the next ready buffer
    have hlen2 : buf.rest.length ≤ f.length := by omega
    have h2 : f ++ d :: tl = buf.rest ++ pendingQ s.work_q := hpend.symm
    obtain ⟨f2, hf2, hp2⟩ := append_split h2 hlen2
    cases hw : s.work_q with
    | nil =>
      rw [hw] at hp2
      simp [pendingQ] at hp2
    | cons nb q =>
      rw [hw] at hp2 hc
      simp only [pendingQ] at hp2
      have hf2len : f2.length + 1 ≤ nb.rest.length := by
        rcases hc.1 with h | h
        · have := congrArg List.length hf2
          simp only [List.length_append] at this
          omega
        · rw [pendingQ_eq_nil h, List.append_nil] at hp2
          rw [hp2]
          simp
      have h3 : nb.rest ++ pendingQ q = (f2 ++ [d]) ++ tl := by simpa using hp2
      obtain ⟨z, hz1, hz2⟩ := append_split h3 (by simpa using hf2len)
      have hnrest : nb.rest = f2 ++ d :: z := by simpa using hz1
      have hfirst2 : FirstDelimAt s.fDelim s.rDelim s.qDelim false
          (buf.rest ++ (f2 ++ d :: z)) (buf.rest.length + f2.length) := by
        have := hf.first z
        rw [hf2, List.append_assoc, List.length_append] at this
        exact this
      obtain ⟨hnone, hnext⟩ := firstDelimAt_split hfirst2
      have hslow := @readField_slow_found s buf nb q f2.length pos hb hw hnone
        (by rw [hnrest]; exact hnext) hpos
      have hcount : buf.rest.length + f2.length + 1 = f.length + 1 := by
        have := congrArg List.length hf2
        simp only [List.length_append] at this
        omega
      have hi : IsInt32 (((f.length + 1 : Nat) : Int)) := fieldSize_isInt32 _ hsize
      refine ⟨_, _, hslow, rfl, ?_, hc.2, ?_, ?_⟩
      rotate_left
      rotate_left
      · simp only [hcount]
        rw [toInt32_of_isInt32 hi]
        push_cast
        rfl
      · have hr1 : DikeBuffer.rest { nb with pos := nb.pos + (f2.length + 1) } = z := by
          unfold DikeBuffer.rest at hnrest ⊢
          simp only
          have e2 : nb.data.drop nb.pos = (f2 ++ [d]) ++ z := by simpa using hnrest
          have := drop_after _ _ _ _ e2
          simpa using this
        rw [pending_eq _ _ rfl, hr1, hz2]
      · intro e he herest
        rcases List.mem_cons.1 he with rfl | h
        · rw [herest] at hnrest
          simp at hnrest
        · exact h

/-- The loop of `readRecord` on a stream of buffers: when the pending bytes
start with the fields `fs`, each of at most `FIELED_SIZE` bytes, the loop reads
them all and returns 0. -/
theorem readRecordLoop_stream (fs : List (List Nat × Nat)) :
    ∀ (i : Nat) (s : DikeAsyncReader) (buf : DikeBuffer) (tl : List Nat),
      s.buffer = some buf → Chunked s.work_q → pending s = encode fs ++ tl →
      (∀ x ∈ fs, IsField s.fDelim s.rDelim s.qDelim x.1 x.2 ∧ x.1.length + 1 ≤ FIELED_SIZE) →
      i + fs.length ≤ s.record.nCol →
      ∃ t buf1, readRecordLoop fs.length i s = some (0, t) ∧ t.buffer = some buf1 ∧
        pending t = tl ∧ Chunked t.work_q ∧
        (∀ e ∈ s.work_q, e.rest = [] → e ∈ t.work_q) ∧
        t.bytesRead = bytesAfter fs s.bytesRead := by
  induction fs with
  | nil =>
    intro i s buf tl hb hc hp _ _
    exact ⟨s, buf, rfl, hb, by simpa [encode] using hp, hc, fun e he _ => he, rfl⟩
  | cons x fs ih =>
    intro i s buf tl hb hc hp hf hcol
    have hx := hf x (List.mem_cons_self _ _)
    obtain ⟨t1, b1, hr1, hb1, hp1, hc1, he1, hbytes1⟩ := readField_stream
      { s with record := { s.record with fields := Function.update s.record.fields i Ptr.null } }
      buf i x.1 x.2 (encode fs ++ tl) hb hc (by simpa [encode] using hp) hx.1 hx.2
      (by
        simp only [List.length_cons] at hcol
        simp only
        omega)
    obtain ⟨_, hfd, hrd, hqd, _, hnc, _⟩ := readField_frame hr1
    obtain ⟨t, b2, hr2, hb2, hp2, hc2, he2, hbytes2⟩ := ih (i + 1) t1 b1 tl hb1 hc1 hp1
      (by
        intro y hy
        rw [hfd, hrd, hqd]
        exact hf y (List.mem_cons_of_mem _ hy))
      (by
        simp only [List.length_cons] at hcol
        rw [hnc]
        simp only
        omega)
    refine ⟨t, b2, ?_, hb2, hp2, hc2, fun e he her => he2 e (he1 e he her) her, ?_⟩
    · rw [List.length_cons, readRecordLoop_succ, hr1]
      simp only [ne_eq, not_true_eq_false, if_false]
      exact hr2
    · rw [hbytes2, hbytes1]
      rfl

/-- `readRecord` on a stream of buffers: when the reader is not at EOF and the
pending bytes start with a record of `nCol` fields, each of at most `FIELED_SIZE`
bytes, the call returns 0 and consumes exactly that record. -/
theorem readRecord_stream (s : DikeAsyncReader) (buf : DikeBuffer) (tl : List Nat)
    (fs : List (List Nat × Nat))
    (heof : isEOF s = false) (hn : s.record.nCol = fs.length)
    (hb : s.buffer = some buf) (hc : Chunked s.work_q) (hp : pending s = encode fs ++ tl)
    (hf : ∀ x ∈ fs, IsField s.fDelim s.rDelim s.qDelim x.1 x.2 ∧ x.1.length + 1 ≤ FIELED_SIZE) :
    ∃ t buf1, readRecord s = some (0, t) ∧ t.buffer = some buf1 ∧ pending t = tl ∧
      Chunked t.work_q ∧ (∀ e ∈ s.work_q, e.rest = [] → e ∈ t.work_q) ∧
      t.bytesRead = bytesAfter fs s.bytesRead ∧
      t.blockSize = s.blockSize ∧ t.fDelim = s.fDelim ∧ t.rDelim = s.rDelim ∧
      t.qDelim = s.qDelim ∧ t.record.nCol = s.record.nCol ∧
      t.recordCount = (s.recordCount + 1) % 18446744073709551616 := by
  obtain ⟨_, _, h3, h4, h5, h6, h7, h8, h9, h10, h11, _, _⟩ := releaseLoop_frame s.tmp_q s
  have hn2 : (releaseBuffers s).record.nCol = fs.length := by
    unfold releaseBuffers
    rw [h4, hn]
  obtain ⟨t, b1, hr, hb1, hp1, hc1, he1, hbytes⟩ := readRecordLoop_stream fs 0
    { releaseBuffers s with
      recordCount := ((releaseBuffers s).recordCount + 1) % 18446744073709551616 }
    buf tl (h3.trans hb)
    (by
      have : (releaseBuffers s).work_q = s.work_q := h10
      simp only [this]
      exact hc)
    (by
      have e1 : (releaseBuffers s).work_q = s.work_q := h10
      have e2 : (releaseBuffers s).buffer = s.buffer := h3
      simp only [pending, e1, e2] at hp ⊢
      exact hp)
    (by
      intro x hx
      have := hf x hx
      simpa only [releaseBuffers, h7, h8, h9] using this)
    (by
      simp only [hn2, Nat.zero_add]
      exact Nat.le_refl _)
  obtain ⟨f1, f2, f3, f4, _, f6, f7, _⟩ := readRecordLoop_frame _ _ _ _ _ hr
  refine ⟨t, b1, ?_, hb1, hp1, hc1, ?_, ?_, ?_, ?_, ?_, ?_, ?_, ?_⟩
  · rw [readRecord_not_eof s heof, hn2]
    exact hr
  · intro e he her
    have e1 : (releaseBuffers s).work_q = s.work_q := h10
    exact he1 e (by simp only [e1]; exact he) her
  · rw [hbytes]
    simp only [releaseBuffers, h5]
  · rw [f1]
    exact h6
  · rw [f2]
    exact h7
  · rw [f3]
    exact h8
  · rw [f4]
    exact h9
  · rw [f6]
    simp only [releaseBuffers, h4]
  · rw [f7]
    simp only [releaseBuffers, h11]

/-- When nothing is pending and a ready buffer exists, `readRecord` with at
least one column returns 1. -/
theorem readRecord_stream_end (s : DikeAsyncReader) (buf e : DikeBuffer)
    (heof : isEOF s = false) (hn : 0 < s.record.nCol)
    (hb : s.buffer = some buf) (hp : pending s = []) (he : e ∈ s.work_q) :
    ∃ t, readRecord s = some (1, t) := by
  rw [pending_eq s buf hb] at hp
  simp only [List.append_eq_nil] at hp
  cases hw : s.work_q with
  | nil =>
    rw [hw] at he
    exact absurd he (List.not_mem_nil e)
  | cons nb q =>
    have hnb : nb.rest = [] :=
      rest_eq_nil_of_pendingQ hp.2 nb (by rw [hw]; exact List.mem_cons_self _ _)
    exact readRecord_exhausted s buf nb q heof hn hb hp.1 hw hnb

/-- Records of `N ≥ 1` fields each on a stream of buffers are read one per
`readRecord` call, and the call after the last one returns 1. -/
theorem readRecords_stream (fD rD N : Nat) (recs : List (List (List Nat))) :
    ∀ (s : DikeAsyncReader) (buf e : DikeBuffer),
      0 < N → s.record.nCol = N → s.blockSize = 0 →
      (∀ r ∈ recs, r.length = N ∧ ∀ x ∈ recordFields fD rD r,
        IsField s.fDelim s.rDelim s.qDelim x.1 x.2 ∧ x.1.length + 1 ≤ FIELED_SIZE) →
      s.buffer = some buf → Chunked s.work_q → pending s = encodeRecords fD rD recs →
      e ∈ s.work_q → e.rest = [] →
      (∀ i, i < recs.length →
        ∃ si s1, afterCalls i s = some si ∧ readRecord si = some (0, s1)) ∧
      (∃ sR s1, afterCalls recs.length s = some sR ∧ readRecord sR = some (1, s1)) := by
  induction recs with
  | nil =>
    intro s buf e hN hcol hlim _ hb _ hp he _
    refine ⟨fun i hi => absurd hi (Nat.not_lt_zero i), s, ?_⟩
    obtain ⟨t, ht⟩ := readRecord_stream_end s buf e (isEOF_of_blockSize_zero s hlim)
      (by omega) hb (by simpa [encodeRecords] using hp) he
    exact ⟨t, rfl, ht⟩
  | cons r recs ih =>
    intro s buf e hN hcol hlim hrec hb hc hp he her
    have hr := hrec r (List.mem_cons_self _ _)
    obtain ⟨s1, b1, hread, hb1, hp1, hc1, he1, _, hbs, hf1, hr1, hq1, hn1, _⟩ :=
      readRecord_stream s buf (encodeRecords fD rD recs) (recordFields fD rD r)
        (isEOF_of_blockSize_zero s hlim) (by rw [recordFields_length, hcol, hr.1]) hb hc
        (by simpa [encodeRecords] using hp) hr.2
    have hih := ih s1 b1 e hN (hn1.trans hcol) (hbs.trans hlim)
      (by
        intro r2 hr2
        rw [hf1, hr1, hq1]
        exact hrec r2 (List.mem_cons_of_mem _ hr2))
      hb1 hc1 hp1 (he1 e he her) her
    refine ⟨?_, ?_⟩
    · intro i hi
      cases i with
      | zero => exact ⟨s, s1, rfl, hread⟩
      | succ i =>
        obtain ⟨si, s2, h1, h2⟩ := hih.1 i (by simpa using hi)
        exact ⟨si, s2, by rw [afterCalls_succ i hread]; exact h1, h2⟩
    · obtain ⟨sR, s2, h1, h2⟩ := hih.2
      exact ⟨sR, s2, by rw [List.length_cons, afterCalls_succ _ hread]; exact h1, h2⟩

/-- C6. For a non-negative `bytesRead` (it counts bytes), `isEOF` returns true
if and only if the block-size limit is nonzero and `bytesRead` is strictly
greater than it. With limit 0 `isEOF` is false in every state, and with
`bytesRead` equal to the limit it is false. -/
theorem isEOF_iff (s : DikeAsyncReader) :
    (0 ≤ s.bytesRead → IsInt32 s.bytesRead →
      (isEOF s = true ↔ (s.blockSize ≠ 0 ∧ (s.blockSize : Int) < s.bytesRead))) ∧
    (s.blockSize = 0 → isEOF s = false) ∧
    (s.bytesRead = (s.blockSize : Int) → IsInt32 s.bytesRead → isEOF s = false) := by
  refine ⟨eof_iff_of_nonneg s, isEOF_of_blockSize_zero s, ?_⟩
  intro h hi
  have h0 : 0 ≤ s.bytesRead := by omega
  cases he : isEOF s with
  | false => rfl
  | true =>
    have := ((eof_iff_of_nonneg s h0 hi).1 he).2
    omega

/-- Witness for C6: limit 3; `bytesRead = 3` is not EOF, `bytesRead = 4` is. -/
theorem isEOF_iff_witness :
    (0 ≤ limited.bytesRead ∧ IsInt32 limited.bytesRead) ∧
    (isEOF limited = true ↔ (limited.blockSize ≠ 0 ∧ (limited.blockSize : Int) < limited.bytesRead)) ∧
    isEOF { limited with bytesRead := 3 } = false ∧
    isEOF { limited with bytesRead := 4 } = true ∧
    isEOF { limited with blockSize := 0, bytesRead := 4 } = false :=
  ⟨⟨by decide, by decide⟩, (isEOF_iff limited).1 (by decide) (by decide),
    (isEOF_iff { limited with bytesRead := 3 }).2.2 rfl (by decide),
    ((isEOF_iff { limited with bytesRead := 4 }).1 (by decide) (by decide)).2 ⟨by decide, by decide⟩,
    (isEOF_iff { limited with blockSize := 0, bytesRead := 4 }).2.1 rfl⟩

/-! ## When readField fails -/

theorem recordDelims_field (r q f0 : Int) (hr : ∀ c : Nat, (c : Int) = r → ((c : Int) = f0 ∨ (c : Int) = r))
    (f : List Nat) (d : Nat) (tl : List Nat) :
    ∀ u, FirstDelimAt f0 r q u (f ++ [d]) f.length →
      recordDelims r q (f ++ d :: tl) u =
        (if (d : Int) = r then 1 else 0) + recordDelims r q tl false := by
  induction f with
  | nil =>
    intro u h
    have h0 := (delimAt_cons_zero f0 r q u d []).1 h.1
    simp only [List.nil_append, recordDelims, h0.1, true_and]
  | cons c f ih =>
    intro u h
    have hnot : ¬ ((if (c : Int) = q then !u else u) = false ∧ ((c : Int) = f0 ∨ (c : Int) = r)) := by
      intro hc
      exact h.2 0 (by simp) ((delimAt_cons_zero f0 r q u c (f ++ [d])).2 hc)
    have hzero : ¬ ((if (c : Int) = q then !u else u) = false ∧ (c : Int) = r) :=
      fun hc => hnot ⟨hc.1, hr c hc.2⟩
    have hnext : FirstDelimAt f0 r q (if (c : Int) = q then !u else u) (f ++ [d]) f.length := by
      refine ⟨(delimAt_cons_succ f0 r q u c (f ++ [d]) f.length).1 h.1, ?_⟩
      intro j hj hd
      exact h.2 (j + 1) (by simp only [List.length_cons]; omega)
        ((delimAt_cons_succ f0 r q u c (f ++ [d]) j).2 hd)
    simp only [List.cons_append, recordDelims, hzero, if_false, Nat.zero_add]
    exact ih _ hnext

theorem recordDelims_record (fD rD : Nat) (hne : fD ≠ rD) (q : Int) (r : List (List Nat))
    (hr : r ≠ [])
    (hf : ∀ x ∈ recordFields fD rD r, IsField (fD : Int) (rD : Int) q x.1 x.2) (tl : List Nat) :
    recordDelims (rD : Int) q (encode (recordFields fD rD r) ++ tl) false =
      1 + recordDelims (rD : Int) q tl false := by
  induction r with
  | nil => exact absurd rfl hr
  | cons f r ih =>
    cases r with
    | nil =>
      have h := hf (f, rD) (by simp [recordFields])
      have := recordDelims_field (rD : Int) q (fD : Int) (fun c hc => Or.inr hc) f rD tl false h
      simp only [recordFields, encode, List.append_nil, List.append_assoc, List.cons_append,
        List.nil_append]
      rw [this, if_pos rfl]
    | cons g r =>
      have h := hf (f, fD) (by simp [recordFields])
      have := recordDelims_field (rD : Int) q (fD : Int) (fun c hc => Or.inr hc) f fD
        (encode (recordFields fD rD (g :: r)) ++ tl) false h
      simp only [recordFields, encode, List.append_assoc, List.cons_append] at this ⊢
      rw [this, if_neg (by exact_mod_cast hne), Nat.zero_add]
      exact ih (by simp) (fun x hx => hf x (by
        simp only [recordFields, List.mem_cons]
        exact Or.inr hx))

theorem recordDelims_records (fD rD N : Nat) (hne : fD ≠ rD) (hN : 0 < N) (q : Int)
    (recs : List (List (List Nat)))
    (hrec : ∀ r ∈ recs, r.length = N ∧
      ∀ x ∈ recordFields fD rD r, IsField (fD : Int) (rD : Int) q x.1 x.2) :
    recordDelims (rD : Int) q (encodeRecords fD rD recs) false = recs.length := by
  induction recs with
  | nil => rfl
  | cons r recs ih =>
    have hr := hrec r (List.mem_cons_self _ _)
    have hne2 : r ≠ [] := by
      intro h
      rw [h] at hr
      simp at hr
      omega
    simp only [encodeRecords, List.length_cons]
    rw [recordDelims_record fD rD hne q r hne2 hr.2, ih (fun r2 h2 => hrec r2 (List.mem_cons_of_mem _ h2))]
    omega

/-- When the first `R` calls return 0 and the next returns 1, `R` calls
succeed. -/
theorem successfulCalls_eq (R : Nat) :
    ∀ (s : DikeAsyncReader),
      (∀ i, i < R → ∃ si s1, afterCalls i s = some si ∧ readRecord si = some (0, s1)) →
      (∃ sR s1, afterCalls R s = some sR ∧ readRecord sR = some (1, s1)) →
      ∀ fuel, R < fuel → successfulCalls fuel s = R := by
  induction R with
  | zero =>
    intro s _ hlast fuel hfuel
    obtain ⟨sR, s1, h1, h2⟩ := hlast
    simp only [afterCalls, Option.some.injEq] at h1
    subst h1
    obtain ⟨n, rfl⟩ : ∃ n, fuel = n + 1 := ⟨fuel - 1, by omega⟩
    simp [successfulCalls, h2]
  | succ R ih =>
    intro s hall hlast fuel hfuel
    obtain ⟨s0, s1, h1, h2⟩ := hall 0 (by omega)
    simp only [afterCalls, Option.some.injEq] at h1
    subst h1
    obtain ⟨n, rfl⟩ : ∃ n, fuel = n + 1 := ⟨fuel - 1, by omega⟩
    have h3 := ih s1
      (fun i hi => by
        obtain ⟨si, s2, h4, h5⟩ := hall (i + 1) (by omega)
        rw [afterCalls_succ i h2] at h4
        exact ⟨si, s2, h4, h5⟩)
      (by
        obtain ⟨sR, s2, h4, h5⟩ := hlast
        rw [afterCalls_succ R h2] at h4
        exact ⟨sR, s2, h4, h5⟩)
      n (by omega)
    simp [successfulCalls, h2, h3]

theorem encode_slice (pre rest : List Nat) (fs : List (List Nat × Nat)) (j : Nat)
    (x : List Nat × Nat) (hj : fs.get? j = some x) :
    ((pre ++ (encode fs ++ rest)).drop (pre.length + (encode (fs.take j)).length)).take
      (x.1.length + 1) = x.1 ++ [x.2] := by
  have hsplit : fs = fs.take j ++ x :: fs.drop (j + 1) := by
    have hlt : j < fs.length := by
      rw [List.get?_eq_getElem?] at hj
      exact (List.getElem?_eq_some_iff.1 hj).1
    have hx : fs[j] = x := by
      rw [List.get?_eq_getElem?] at hj
      exact (List.getElem?_eq_some_iff.1 hj).2
    rw [← hx]
    simp
  have h1 : pre ++ (encode fs ++ rest) =
      (pre ++ encode (fs.take j)) ++ ((x.1 ++ [x.2]) ++ (encode (fs.drop (j + 1)) ++ rest)) := by
    conv_lhs => rw [hsplit]
    simp [encode_append, encode]
  have h2 : pre.length + (encode (fs.take j)).length = (pre ++ encode (fs.take j)).length := by
    simp
  rw [h1, h2, List.drop_left]
  have h3 : x.1.length + 1 = (x.1 ++ [x.2]).length := by simp
  rw [h3, List.take_left]

theorem get_of_slice (data : List Nat) (off : Nat) (f : List Nat) (d : Nat)
    (h : (data.drop off).take (f.length + 1) = f ++ [d]) :
    data.get? (off + f.length) = some d := by
  have h1 : ((data.drop off).take (f.length + 1))[f.length]? = some d := by
    rw [h]
    simp
  rw [List.getElem?_take_of_lt (by omega), List.getElem?_drop] at h1
  rw [List.get?_eq_getElem?]
  exact h1

theorem encode_take_succ (fs : List (List Nat × Nat)) (j : Nat) (x : List Nat × Nat)
    (hj : fs.get? j = some x) :
    (encode (fs.take (j + 1))).length = (encode (fs.take j)).length + x.1.length + 1 := by
  have hlt : j < fs.length := by
    rw [List.get?_eq_getElem?] at hj
    exact (List.getElem?_eq_some_iff.1 hj).1
  have hx : fs[j] = x := by
    rw [List.get?_eq_getElem?] at hj
    exact (List.getElem?_eq_some_iff.1 hj).2
  rw [List.take_succ, List.getElem?_eq_getElem hlt, hx]
  simp only [Option.toList_some, encode_append, encode, List.length_append, List.length_cons,
    List.length_nil]
  omega

/-- Away from the delimiter positions the terminated bytes are the encoded
bytes. -/
theorem terminated_get_other (rest : List Nat) (fs : List (List Nat × Nat)) :
    ∀ (pre : List Nat) (i : Nat),
      (∀ j x, fs.get? j = some x → i ≠ pre.length + (encode (fs.take j)).length + x.1.length) →
      (pre ++ (terminated fs ++ rest)).get? i = (pre ++ (encode fs ++ rest)).get? i := by
  induction fs with
  | nil =>
    intro pre i _
    rfl
  | cons x fs ih =>
    intro pre i hi
    have h0 : i ≠ pre.length + x.1.length := by
      have := hi 0 x rfl
      simpa [encode] using this
    have e1 : pre ++ (terminated (x :: fs) ++ rest) =
        (pre ++ (x.1 ++ [0])) ++ (terminated fs ++ rest) := by
      simp [terminated]
    have e2 : pre ++ (encode (x :: fs) ++ rest) =
        pre ++ (x.1 ++ x.2 :: (encode fs ++ rest)) := by
      simp [encode]
    have e3 : (pre ++ (x.1 ++ [0])) ++ (encode fs ++ rest) =
        (pre ++ (x.1 ++ x.2 :: (encode fs ++ rest))).set (pre.length + x.1.length) 0 := by
      rw [set_delim]
      simp
    rw [e1, ih (pre ++ (x.1 ++ [0])) i, e3, e2]
    · simp only [List.get?_eq_getElem?]
      exact List.getElem?_set_ne (Ne.symm h0)
    · intro j y hj
      have := hi (j + 1) y (by simpa using hj)
      simp only [List.take_succ_cons, encode, List.length_append, List.length_cons,
        List.length_nil] at this ⊢
      omega

/-- How `readField` moves buffers: either the current buffer stays (fast path)
or it goes to the back of the held queue and the first ready buffer becomes
current (slow path). -/
theorem readField_shape {pos : Nat} {s t : DikeAsyncReader} {r : Int}
    (h : readField pos s = some (r, t)) :
    ∃ buf, s.buffer = some buf ∧
      ((∃ b1, t.buffer = some b1 ∧ b1.id = buf.id ∧ t.tmp_q = s.tmp_q ∧ t.work_q = s.work_q ∧
          t.record.fields = Function.update s.record.fields pos (Ptr.inBuffer buf.id buf.pos)) ∨
       (∃ nb q b1, s.work_q = nb :: q ∧ t.buffer = some b1 ∧ b1.id = nb.id ∧
          t.tmp_q = s.tmp_q ++ [buf] ∧ t.work_q = q ∧
          t.record.fields = Function.update s.record.fields pos (Ptr.inArena (fieldMemory pos)))) := by
  unfold readField at h
  cases hb : s.buffer with
  | none => simp [hb] at h
  | some buf =>
    refine ⟨buf, rfl, ?_⟩
    simp only [hb] at h
    cases hscan : scanField s.fDelim s.rDelim s.qDelim buf.rest false 0 with
    | found k =>
      simp only [hscan, Option.some.injEq, Prod.mk.injEq] at h
      obtain ⟨rfl, rfl⟩ := h
      exact Or.inl ⟨_, rfl, rfl, rfl, rfl, rfl⟩
    | exhausted u =>
      cases hfm : s.record.fieldMemoryAt pos with
      | none => simp [hscan, hfm] at h
      | some base =>
        have hbase : base = fieldMemory pos := (fieldMemoryAt_eq_some hfm).2
        subst hbase
        simp only [hscan, hfm, getBuffer, holdBuffer] at h
        cases hw : s.work_q with
        | nil => simp [hw] at h
        | cons nb q =>
          simp only [hw] at h
          cases hc : copySecond s.fDelim s.rDelim s.qDelim nb.rest u
            (copyFirst buf.rest s.record.arena (fieldMemory pos) 0).1
            (copyFirst buf.rest s.record.arena (fieldMemory pos) 0).2.1
            (copyFirst buf.rest s.record.arena (fieldMemory pos) 0).2.2 0 with
          | found a c k =>
            simp only [hc, Option.some.injEq, Prod.mk.injEq] at h
            obtain ⟨rfl, rfl⟩ := h
            exact Or.inr ⟨nb, q, _, rfl, rfl, rfl, rfl, rfl, by simp⟩
          | exhausted a =>
            simp only [hc, Option.some.injEq, Prod.mk.injEq] at h
            obtain ⟨rfl, rfl⟩ := h
            exact Or.inr ⟨nb, q, _, rfl, rfl, rfl, rfl, rfl, by simp⟩

theorem poolIds_eq (s : DikeAsyncReader) : poolIds s = heldIds s ++ workerIds s := by
  simp [poolIds, heldIds, workerIds]

/-- `readField` keeps the pool: the same buffer identities, each as often. -/
theorem readField_poolIds {pos : Nat} {s t : DikeAsyncReader} {r : Int}
    (h : readField pos s = some (r, t)) : (poolIds t).Perm (poolIds s) := by
  obtain ⟨_, _, _, _, hfree, _, _, _, _, hfill, _, _⟩ := readField_frame h
  obtain ⟨buf, hb, h1 | h1⟩ := readField_shape h
  · obtain ⟨b1, hb1, hid, htmp, hwork, _⟩ := h1
    have : poolIds t = poolIds s := by
      simp [poolIds, hb, hb1, hid, htmp, hwork, hfree, hfill]
    rw [this]
  · obtain ⟨nb, q, b1, hw, hb1, hid, htmp, hwork, _⟩ := h1
    rw [List.perm_iff_count]
    intro a
    simp only [poolIds, hb, hb1, htmp, hwork, hfree, hfill, hw, Option.toList_some, List.map_append,
      List.map_cons, List.map_nil, List.count_append, List.count_cons, List.count_nil, hid]
    omega

/-- `readField` only adds to the current and held buffers. -/
theorem readField_heldIds {pos : Nat} {s t : DikeAsyncReader} {r : Int}
    (h : readField pos s = some (r, t)) : ∀ id, id ∈ heldIds s → id ∈ heldIds t := by
  obtain ⟨buf, hb, h1 | h1⟩ := readField_shape h
  · obtain ⟨b1, hb1, hid, htmp, _, _⟩ := h1
    intro id hmem
    simp only [heldIds, hb, hb1, htmp, Option.toList_some, List.map_append, List.map_cons,
      List.map_nil, List.mem_append, List.mem_cons, hid] at hmem ⊢
    exact hmem
  · obtain ⟨nb, q, b1, _, hb1, hid, htmp, _, _⟩ := h1
    intro id hmem
    simp only [heldIds, hb, hb1, htmp, Option.toList_some, List.map_append, List.map_cons,
      List.map_nil, List.mem_append, List.mem_cons, List.mem_singleton, List.not_mem_nil,
      or_false] at hmem ⊢
    tauto

/-- A field pointer is sound in a state: it is the start of the column's arena
region, or an address in the current buffer or in a held buffer. -/
theorem readField_sound {pos : Nat} {s t : DikeAsyncReader} {r : Int}
    (h : readField pos s = some (r, t)) :
    t.record.fields pos = Ptr.inArena (fieldMemory pos) ∨
      ∃ id off, t.record.fields pos = Ptr.inBuffer id off ∧ id ∈ heldIds t := by
  obtain ⟨buf, hb, h1 | h1⟩ := readField_shape h
  · obtain ⟨b1, hb1, hid, _, _, hf⟩ := h1
    right
    refine ⟨buf.id, buf.pos, by rw [hf, Function.update_same], ?_⟩
    simp [heldIds, hb1, hid]
  · obtain ⟨nb, q, b1, _, _, _, _, _, hf⟩ := h1
    left
    rw [hf, Function.update_same]

theorem readField_fields_other {pos : Nat} {s t : DikeAsyncReader} {r : Int}
    (h : readField pos s = some (r, t)) (j : Nat) (hj : j ≠ pos) :
    t.record.fields j = s.record.fields j := by
  obtain ⟨buf, hb, h1 | h1⟩ := readField_shape h
  · obtain ⟨_, _, _, _, _, hf⟩ := h1
    rw [hf, Function.update_noteq hj]
  · obtain ⟨_, _, _, _, _, _, _, _, hf⟩ := h1
    rw [hf, Function.update_noteq hj]

/-- The loop of `readRecord` keeps the pool, and when it returns 0 every column
it read has a sound field pointer. -/
theorem readRecordLoop_sound (n : Nat) :
    ∀ (i : Nat) (s t : DikeAsyncReader) (r : Int), readRecordLoop n i s = some (r, t) →
      (poolIds t).Perm (poolIds s) ∧
      (r = 0 →
        (∀ j, j < i → (s.record.fields j = Ptr.inArena (fieldMemory j) ∨
          ∃ id off, s.record.fields j = Ptr.inBuffer id off ∧ id ∈ heldIds s)) →
        ∀ j, j < i + n → (t.record.fields j = Ptr.inArena (fieldMemory j) ∨
          ∃ id off, t.record.fields j = Ptr.inBuffer id off ∧ id ∈ heldIds t)) := by
  induction n with
  | zero =>
    intro i s t r h
    simp only [readRecordLoop, Option.some.injEq, Prod.mk.injEq] at h
    obtain ⟨rfl, rfl⟩ := h
    exact ⟨List.Perm.refl _, fun _ hs j hj => hs j (by omega)⟩
  | succ n ih =>
    intro i s t r h
    rw [readRecordLoop_succ] at h
    cases hr : readField i
        { s with record := { s.record with fields := Function.update s.record.fields i Ptr.null } } with
    | none => simp [hr] at h
    | some p =>
      obtain ⟨r1, s1⟩ := p
      have hperm := readField_poolIds hr
      have hheld := readField_heldIds hr
      have hsound := readField_sound hr
      have hother := readField_fields_other hr
      simp only [hr] at h
      by_cases h0 : r1 = 0
      · simp only [h0, ne_eq, not_true_eq_false, if_false] at h
        obtain ⟨hp2, hs2⟩ := ih (i + 1) s1 t r h
        refine ⟨hp2.trans hperm, ?_⟩
        intro hr0 hs j hj
        apply hs2 hr0 _ j (by omega)
        intro j2 hj2
        by_cases hji : j2 = i
        · subst hji
          exact hsound
        · rw [hother j2 hji]
          simp only [Function.update_noteq hji]
          rcases hs j2 (by omega) with h3 | ⟨id, off, h3, h4⟩
          · exact Or.inl h3
          · exact Or.inr ⟨id, off, h3, hheld id h4⟩
      · simp only [h0, ne_eq, not_false_eq_true, if_true, Option.some.injEq, Prod.mk.injEq] at h
        obtain ⟨rfl, rfl⟩ := h
        exact ⟨hperm, fun h1 => absurd h1 (by decide)⟩

theorem releaseBuffers_poolIds (s : DikeAsyncReader) :
    (poolIds (releaseBuffers s)).Perm (poolIds s) := by
  obtain ⟨h1, h2, h3, _, _, _, _, _, _, h10, _, h12, _⟩ := releaseLoop_frame s.tmp_q s
  rw [List.perm_iff_count]
  intro a
  simp only [poolIds, releaseBuffers, h1, h2, h3, h10, h12, List.map_append, List.count_append,
    List.map_nil, List.count_nil]
  omega

/-- `readRecord` keeps the pool. -/
theorem readRecord_poolIds {s t : DikeAsyncReader} {r : Int}
    (h : readRecord s = some (r, t)) : (poolIds t).Perm (poolIds s) := by
  cases heof : isEOF s with
  | true =>
    unfold readRecord at h
    simp only [heof, if_true, Option.some.injEq, Prod.mk.injEq] at h
    rw [← h.2]
  | false =>
    rw [readRecord_not_eof s heof] at h
    exact (readRecordLoop_sound _ _ _ _ _ h).1.trans (releaseBuffers_poolIds s)

theorem seekRecord_poolIds {s t : DikeAsyncReader} {r : Int}
    (h : seekRecord s = some (r, t)) : poolIds t = poolIds s := by
  unfold seekRecord at h
  cases hb : s.buffer with
  | none => simp [hb] at h
  | some buf =>
    simp only [hb] at h
    cases hscan : scanRecord s.rDelim s.qDelim buf.rest false 0 with
    | none =>
      simp only [hscan, Option.some.injEq, Prod.mk.injEq] at h
      rw [← h.2]
    | some k =>
      simp only [hscan, Option.some.injEq, Prod.mk.injEq] at h
      rw [← h.2]
      simp [poolIds, hb]

/-- Every step keeps the pool. -/
theorem step_poolIds {s t : DikeAsyncReader} (h : Step s t) : (poolIds t).Perm (poolIds s) := by
  cases h with
  | take h =>
    unfold workerTake at h
    split at h
    · simp at h
    · split at h
      · simp at h
      · split at h
        · rename_i b q hfill hfree
          simp only [Option.some.injEq] at h
          subst h
          rw [List.perm_iff_count]
          intro a
          simp only [poolIds, hfill, hfree, Option.toList_none, Option.toList_some, List.map_append,
            List.map_cons, List.map_nil, List.count_append, List.count_cons, List.count_nil]
          omega
        · simp at h
  | publish chunk _ h =>
    unfold workerPublish at h
    split at h
    · simp at h
    · rename_i b hfill
      simp only [Option.some.injEq] at h
      subst h
      rw [List.perm_iff_count]
      intro a
      simp only [poolIds, hfill, DikeBuffer.refill, Option.toList_none, Option.toList_some,
        List.map_append, List.map_cons, List.map_nil, List.count_append, List.count_cons,
        List.count_nil]
      omega
  | ctorGet h =>
    unfold ctorGetBuffer getBuffer at h
    cases hb : s.buffer with
    | some b => simp [hb] at h
    | none =>
      cases hw : s.work_q with
      | nil => simp [hb, hw] at h
      | cons b q =>
        simp only [hb, hw, Option.some.injEq] at h
        subst h
        rw [List.perm_iff_count]
        intro a
        simp only [poolIds, hb, hw, Option.toList_none, Option.toList_some, List.map_append,
          List.map_cons, List.map_nil, List.count_append, List.count_cons, List.count_nil]
        omega
  | delims f r q => exact List.Perm.refl _
  | seek h => rw [seekRecord_poolIds h]
  | field pos h => exact readField_poolIds h
  | record h => exact readRecord_poolIds h

/-- Pool invariant on identities: in every reachable state no pool buffer is in
two places at once. -/
theorem reachable_nodup {s : DikeAsyncReader} (h : Reachable s) : (poolIds s).Nodup := by
  induction h with
  | init blockSize record =>
    have : poolIds (construct blockSize record) = [0, 1, 2, 3] := rfl
    rw [this]
    decide
  | step _ hstep ih => exact (step_poolIds hstep).nodup_iff.2 ih

theorem started_reachable : Reachable started := by
  have h0 := Reachable.init 0 (DikeRecord.new 3 (fun _ => 0))
  have h1 : Step (construct 0 (DikeRecord.new 3 (fun _ => 0)))
      { construct 0 (DikeRecord.new 3 (fun _ => 0)) with
        free_q := [{ id := 1, data := [], pos := 0 }, { id := 2, data := [], pos := 0 },
          { id := 3, data := [], pos := 0 }]
        filling := some { id := 0, data := [], pos := 0 } } := Step.take rfl
  have h2 : Step
      { construct 0 (DikeRecord.new 3 (fun _ => 0)) with
        free_q := [{ id := 1, data := [], pos := 0 }, { id := 2, data := [], pos := 0 },
          { id := 3, data := [], pos := 0 }]
        filling := some { id := 0, data := [], pos := 0 } }
      { construct 0 (DikeRecord.new 3 (fun _ => 0)) with
        free_q := [{ id := 1, data := [], pos := 0 }, { id := 2, data := [], pos := 0 },
          { id := 3, data := [], pos := 0 }]
        work_q := [{ id := 0, data := bytes "1,2,3\n", pos := 0 }] } :=
    Step.publish (bytes "1,2,3\n") (by decide) rfl
  have h3 : Step
      { construct 0 (DikeRecord.new 3 (fun _ => 0)) with
        free_q := [{ id := 1, data := [], pos := 0 }, { id := 2, data := [], pos := 0 },
          { id := 3, data := [], pos := 0 }]
        work_q := [{ id := 0, data := bytes "1,2,3\n", pos := 0 }] }
      started := Step.ctorGet rfl
  exact Reachable.step (Reachable.step (Reachable.step h0 h1) h2) h3

theorem toInt32_add_toInt32_right (x y : Int) : toInt32 (x + toInt32 y) = toInt32 (x + y) := by
  unfold toInt32
  omega

/-- The two counters after the loop of `releaseBuffers`. -/
theorem releaseLoop_counters (q : List DikeBuffer) :
    ∀ (s : DikeAsyncReader),
      (IsInt32 s.pushCount →
        (releaseLoop q s).pushCount = toInt32 (s.pushCount + (q.length : Int))) ∧
      (releaseLoop q s).emptyCount =
        if s.free_q = [] ∧ q ≠ [] then toInt32 (s.emptyCount + 1) else s.emptyCount := by
  induction q with
  | nil =>
    intro s
    refine ⟨fun h => ?_, ?_⟩
    · simp [releaseLoop, toInt32_of_isInt32 h]
    · simp [releaseLoop]
  | cons b q ih =>
    intro s
    obtain ⟨h1, h2⟩ := ih (pushBuffer b { s with tmp_q := q })
    refine ⟨fun _ => ?_, ?_⟩
    · simp only [releaseLoop]
      rw [h1 (isInt32_toInt32 _)]
      simp only [pushBuffer, List.length_cons, toInt32_add_toInt32]
      congr 1
      push_cast
      ring
    · simp only [releaseLoop]
      rw [h2]
      simp [pushBuffer]

/-- C18. Deferred release: `releaseBuffers` leaves the held queue empty and
appends the held buffers, in their held order, to the back of the free queue,
touching nothing else but the two counters. Each `pushBuffer` appends its buffer
to the free queue, adds one to `pushCount` (in `int` arithmetic, exactly one when
the sum fits an `int`), and adds one to `emptyCount` exactly when the free queue
was empty just before the push. Over a whole release `pushCount` grows by the
number of held buffers and `emptyCount` by one exactly when the free queue was
empty and a buffer was held. -/
theorem releaseBuffers_deferred (s : DikeAsyncReader) (b : DikeBuffer) :
    (releaseBuffers s).tmp_q = [] ∧ (releaseBuffers s).free_q = s.free_q ++ s.tmp_q ∧
    (releaseBuffers s).buffer = s.buffer ∧ (releaseBuffers s).work_q = s.work_q ∧
    (releaseBuffers s).bytesRead = s.bytesRead ∧ (releaseBuffers s).recordCount = s.recordCount ∧
    (pushBuffer b s).free_q = s.free_q ++ [b] ∧
    (pushBuffer b s).pushCount = toInt32 (s.pushCount + 1) ∧
    (IsInt32 (s.pushCount + 1) → (pushBuffer b s).pushCount = s.pushCount + 1) ∧
    (s.free_q = [] → (pushBuffer b s).emptyCount = toInt32 (s.emptyCount + 1)) ∧
    (s.free_q ≠ [] → (pushBuffer b s).emptyCount = s.emptyCount) ∧
    (IsInt32 s.pushCount →
      (releaseBuffers s).pushCount = toInt32 (s.pushCount + (s.tmp_q.length : Int))) ∧
    (releaseBuffers s).emptyCount =
      (if s.free_q = [] ∧ s.tmp_q ≠ [] then toInt32 (s.emptyCount + 1) else s.emptyCount) := by
  obtain ⟨h1, h2, h3, _, h5, _, _, _, _, h10, h11, _, _⟩ := releaseLoop_frame s.tmp_q s
  obtain ⟨c1, c2⟩ := releaseLoop_counters s.tmp_q s
  refine ⟨h1, h2, h3, h10, h5, h11, rfl, rfl, ?_, ?_, ?_, c1, c2⟩
  · intro h
    exact toInt32_of_isInt32 h
  · intro h
    simp [pushBuffer, h]
  · intro h
    simp [pushBuffer, h]

/-- Witness for C18: two held buffers and an empty free queue. The release
puts both in the free queue in order, counts two pushes and one empty queue. -/
theorem releaseBuffers_deferred_witness :
    (IsInt32 heldTwo.pushCount ∧ IsInt32 (heldTwo.pushCount + 1) ∧ heldTwo.free_q = []) ∧
    (releaseBuffers heldTwo).tmp_q = [] ∧
    (releaseBuffers heldTwo).free_q =
      [{ id := 1, data := bytes "a", pos := 1 }, { id := 2, data := bytes "b", pos := 1 }] ∧
    (releaseBuffers heldTwo).pushCount = 2 ∧ (releaseBuffers heldTwo).emptyCount = 1 ∧
    (pushBuffer { id := 1, data := bytes "a", pos := 1 } heldTwo).pushCount = 1 ∧
    (pushBuffer { id := 1, data := bytes "a", pos := 1 } heldTwo).emptyCount = 1 := by
  have h := releaseBuffers_deferred heldTwo { id := 1, data := bytes "a", pos := 1 }
  obtain ⟨h1, h2, _, _, _, _, _, h8, h9, h10, _, h12, h13⟩ := h
  refine ⟨⟨by decide, by decide, rfl⟩, h1, ?_, ?_, ?_, ?_, ?_⟩
  · rw [h2]
    rfl
  · rw [h12 (by decide)]
    decide
  · rw [h13]
    decide
  · rw [h9 (by decide)]
    decide
  · rw [h10 rfl]
    decide

/-! ## The recorded length -/

/-- The bytes of a field delivered on the fast path. -/
theorem fieldBytes_of_first (s : DikeAsyncReader) (buf : DikeBuffer) (pos k : Nat)
    (hb : s.buffer = some buf) (hfit : buf.data.length ≤ BUFFER_SIZE)
    (hk : FirstDelimAt s.fDelim s.rDelim s.qDelim false buf.rest k)
    (s1 : DikeAsyncReader) (h : readField pos s = some (0, s1)) :
    fieldBytes s1 pos = some (buf.rest.take k ++ [0]) := by
  have hlt : buf.pos + k < buf.data.length := by
    have h1 := hk.1.1
    unfold DikeBuffer.rest at h1
    rw [List.length_drop] at h1
    omega
  rw [readField_of_first pos hb hk] at h
  simp only [Option.some.injEq, Prod.mk.injEq, true_and] at h
  subst h
  have hi : IsInt32 (((k + 1 : Nat) : Int)) := bufferSize_isInt32 _ _ (by omega) hfit
  rw [fieldBytes_current _ { buf with data := buf.data.set (buf.pos + k) 0, pos := buf.pos + k + 1 }
    pos buf.pos (k + 1) rfl (by simp) (by
      simp only [Function.update_same]
      rw [← toInt32_of_isInt32 hi]
      congr 1) (by simp only [List.length_set]; omega)]
  congr 1
  simp only
  unfold DikeBuffer.rest
  apply List.ext_getElem
  · simp only [List.length_take, List.length_drop, List.length_set, List.length_append,
      List.length_cons, List.length_nil]
    omega
  · intro i h1 h2
    simp only [List.length_take, List.length_drop, List.length_set] at h1
    simp only [List.getElem_take, List.getElem_drop, List.getElem_set]
    by_cases hik : i = k
    · subst hik
      have hlen : (List.take i (List.drop buf.pos buf.data)).length = i := by
        simp only [List.length_take, List.length_drop]
        omega
      rw [if_pos rfl, List.getElem_append_right (by omega)]
      simp [hlen]
    · have hik2 : i < k := by omega
      rw [if_neg (by omega), List.getElem_append_left (by simp; omega)]
      simp

/-- C16. Recorded field length: on the fast path, with `k` the offset of the
first delimiter outside quotes from the cursor (the field start), `readField`
sets `len[pos]` to `k + 1`, that is delimiter position minus field start plus
one, the content length plus one for the byte that held the delimiter and now
holds the terminator; and the call adds exactly `len[pos]` to `bytesRead` (in
`int` arithmetic, and as integers when the sum fits an `int`). -/
theorem readField_len (s : DikeAsyncReader) (buf : DikeBuffer) (pos : Nat)
    (hb : s.buffer = some buf) (hfit : buf.data.length ≤ BUFFER_SIZE)
    (hd : ∃ k, DelimAt s.fDelim s.rDelim s.qDelim false buf.rest k) :
    ∃ k s1, FirstDelimAt s.fDelim s.rDelim s.qDelim false buf.rest k ∧
      readField pos s = some (0, s1) ∧
      s1.record.fields pos = Ptr.inBuffer buf.id buf.pos ∧
      s1.record.len pos = (((buf.pos + k : Nat) : Int) - (buf.pos : Int)) + 1 ∧
      s1.record.len pos = ((buf.rest.take k).length : Int) + 1 ∧
      fieldBytes s1 pos = some (buf.rest.take k ++ [0]) ∧
      s1.bytesRead = toInt32 (s.bytesRead + s1.record.len pos) ∧
      (IsInt32 (s.bytesRead + s1.record.len pos) →
        s1.bytesRead - s.bytesRead = s1.record.len pos) := by
  obtain ⟨k, hk⟩ := exists_first_of_exists hd
  have hlt : buf.pos + k < buf.data.length := by
    have h1 := hk.1.1
    unfold DikeBuffer.rest at h1
    rw [List.length_drop] at h1
    omega
  have hi : IsInt32 (((k + 1 : Nat) : Int)) := bufferSize_isInt32 _ _ (by omega) hfit
  have hlen : toInt32 ((k : Int) + 1) = (k : Int) + 1 := by
    have := toInt32_of_isInt32 hi
    push_cast at this
    exact this
  have htake : (buf.rest.take k).length = k := by
    rw [List.length_take]
    have := hk.1.1
    omega
  refine ⟨k, _, hk, readField_of_first pos hb hk, ?_, ?_, ?_, ?_, ?_, ?_⟩
  · simp
  · simp only [Function.update_same, hlen]
    push_cast
    ring
  · simp only [Function.update_same, hlen, htake]
  · exact fieldBytes_of_first s buf pos k hb hfit hk _ (readField_of_first pos hb hk)
  · simp only [Function.update_same, hlen]
  · intro h
    simp only [Function.update_same, hlen] at h ⊢
    rw [toInt32_of_isInt32 h]
    ring

/-- Witness for C16: the field `"a,b"` of `"a,b",c\n`; the delimiter is at
offset 5, the recorded length is 6 and `bytesRead` grows by 6. -/
theorem readField_len_witness :
    (quotedWhole.buffer = some { id := 0, data := [34, 97, 44, 98, 34, 44, 99, 10], pos := 0 } ∧
      DelimAt 44 10 34 false [34, 97, 44, 98, 34, 44, 99, 10] 5) ∧
    ∃ s1, readField 0 quotedWhole = some (0, s1) ∧ s1.record.len 0 = 6 ∧
      s1.bytesRead - quotedWhole.bytesRead = 6 := by
  refine ⟨⟨rfl, by decide⟩, ?_⟩
  obtain ⟨k, s1, hk, h1, _, h3, _, _, _, h7⟩ :=
    readField_len quotedWhole { id := 0, data := [34, 97, 44, 98, 34, 44, 99, 10], pos := 0 } 0
      rfl (by decide) ⟨5, by decide⟩
  have hk5 : k = 5 :=
    firstDelimAt_unique hk
      (by decide : FirstDelimAt 44 10 34 false [34, 97, 44, 98, 34, 44, 99, 10] 5)
  subst hk5
  have hl : s1.record.len 0 = 6 := by
    rw [h3]
    decide
  refine ⟨s1, h1, hl, ?_⟩
  rw [h7 (by rw [hl]; decide), hl]

/-! ## The overflow arena -/

/-- A scan that ran to the end marker passed no delimiter outside quotes. -/
theorem no_delim_of_scan {f r q : Int} {bs : List Nat} {u v : Bool}
    (h : scanField f r q bs u 0 = Scan.exhausted v) : ∀ k, ¬ DelimAt f r q u bs k := by
  rcases scanField_cases f r q bs u 0 with ⟨k, _, hs⟩ | ⟨hn, _⟩
  · rw [h] at hs
    cases hs
  · exact hn

/-- C19. Overflow-arena frame, for a record with `nCol ≤ MAX_COLUMNS`: the
members `fieldMemory[i]`, `i < nCol`, are the offsets `i * FIELED_SIZE`, and the
regions of `FIELED_SIZE` bytes that start there are pairwise disjoint and lie
inside the arena of `FIELED_SIZE * MAX_COLUMNS` bytes; and a slow-path
`readField(pos)` for a column `pos < nCol` whose field, terminator included, has
at most `FIELED_SIZE` bytes succeeds, writes no arena byte outside the region of
column `pos`, and leaves the regions, field pointers and lengths of all other
columns unchanged. -/
theorem readField_arena_frame (s : DikeAsyncReader) (buf nbuf : DikeBuffer)
    (q : List DikeBuffer) (pos k : Nat)
    (hb : s.buffer = some buf) (hw : s.work_q = nbuf :: q)
    (h1 : ∀ j, ¬ DelimAt s.fDelim s.rDelim s.qDelim false buf.rest j)
    (h2 : FirstDelimAt s.fDelim s.rDelim s.qDelim (quoteFlag s.qDelim false buf.rest) nbuf.rest k)
    (hsize : buf.rest.length + k + 1 ≤ FIELED_SIZE)
    (hpos : pos < s.record.nCol) (hcol : s.record.nCol ≤ MAX_COLUMNS) :
    (∀ i, i < s.record.nCol → s.record.fieldMemoryAt i = some (i * FIELED_SIZE)) ∧
    (∀ i j, i < s.record.nCol → j < s.record.nCol → i ≠ j →
      fieldMemory i + FIELED_SIZE ≤ fieldMemory j ∨ fieldMemory j + FIELED_SIZE ≤ fieldMemory i) ∧
    (∀ i, i < s.record.nCol → fieldMemory i + FIELED_SIZE ≤ FIELED_SIZE * MAX_COLUMNS) ∧
    ∃ s1, readField pos s = some (0, s1) ∧
      s1.record.fields pos = Ptr.inArena (fieldMemory pos) ∧
      (∀ a, a < fieldMemory pos ∨ fieldMemory pos + FIELED_SIZE ≤ a →
        s1.record.arena a = s.record.arena a) ∧
      (∀ j o, j ≠ pos → j < s.record.nCol → o < FIELED_SIZE →
        s1.record.arena (fieldMemory j + o) = s.record.arena (fieldMemory j + o)) ∧
      (∀ j, j ≠ pos →
        s1.record.fields j = s.record.fields j ∧ s1.record.len j = s.record.len j) ∧
      (∀ a, s1.record.arena a ≠ s.record.arena a →
        fieldMemory pos ≤ a ∧ a < fieldMemory pos + FIELED_SIZE ∧
          a < FIELED_SIZE * MAX_COLUMNS) := by
  have hF : FIELED_SIZE = 1024 := rfl
  have hM : MAX_COLUMNS = 128 := rfl
  have hdis : ∀ i j, i ≠ j →
      fieldMemory i + FIELED_SIZE ≤ fieldMemory j ∨ fieldMemory j + FIELED_SIZE ≤ fieldMemory i := by
    intro i j hij
    unfold fieldMemory
    rw [hF]
    omega
  have hin : ∀ i, i < s.record.nCol → fieldMemory i + FIELED_SIZE ≤ FIELED_SIZE * MAX_COLUMNS := by
    intro i hi
    unfold fieldMemory
    rw [hF, hM]
    rw [hM] at hcol
    omega
  have hlen : (buf.rest ++ (nbuf.rest.take k ++ [0])).length = buf.rest.length + k + 1 := by
    have := h2.1.1
    simp only [List.length_append, List.length_take, List.length_cons, List.length_nil]
    omega
  have hout : ∀ a, a < fieldMemory pos ∨ fieldMemory pos + FIELED_SIZE ≤ a →
      store s.record.arena (fieldMemory pos) (buf.rest ++ (nbuf.rest.take k ++ [0])) a
        = s.record.arena a := by
    intro a ha
    apply store_outside
    rw [hlen]
    omega
  refine ⟨fun i hi => fieldMemoryAt_of_lt hi, fun i j _ _ hij => hdis i j hij, hin, _,
    readField_slow_found pos hb hw h1 h2 hpos, ?_, hout, ?_, ?_, ?_⟩
  · simp
  · intro j o hj _ ho
    apply hout
    rcases hdis j pos hj with h | h
    · left
      omega
    · right
      omega
  · intro j hj
    simp [Function.update_noteq hj]
  · intro a ha
    have hnot : ¬ (a < fieldMemory pos ∨ fieldMemory pos + FIELED_SIZE ≤ a) :=
      fun h => ha (hout a h)
    have hp := hin pos hpos
    omega

/-- Witness for C19: the field `"a,b"` split over two buffers is assembled in
the region of column 0 of 2; the region of column 1 keeps its bytes. -/
theorem readField_arena_frame_witness :
    (quotedSplit.buffer = some { id := 0, data := [34, 97], pos := 0 } ∧
      quotedSplit.work_q = [{ id := 1, data := [44, 98, 34, 44, 99, 10], pos := 0 }] ∧
      FirstDelimAt 44 10 34 true [44, 98, 34, 44, 99, 10] 3 ∧
      0 < quotedSplit.record.nCol ∧ quotedSplit.record.nCol ≤ MAX_COLUMNS) ∧
    ∃ s1, readField 0 quotedSplit = some (0, s1) ∧
      s1.record.arena (fieldMemory 1) = quotedSplit.record.arena (fieldMemory 1) ∧
      s1.record.fields 1 = quotedSplit.record.fields 1 ∧
      s1.record.len 1 = quotedSplit.record.len 1 := by
  refine ⟨⟨rfl, rfl, by decide, by decide, by decide⟩, ?_⟩
  obtain ⟨_, _, _, s1, h, _, _, h5, h6, _⟩ :=
    readField_arena_frame quotedSplit { id := 0, data := [34, 97], pos := 0 }
      { id := 1, data := [44, 98, 34, 44, 99, 10], pos := 0 } [] 0 3 rfl rfl
      (no_delim_of_scan (rfl : scanField 44 10 34 [34, 97] false 0 = Scan.exhausted true))
      (by decide) (by decide) (by decide) (by decide)
  exact ⟨s1, h, h5 1 0 (by decide) (by decide) (by decide), (h6 1 (by decide)).1,
    (h6 1 (by decide)).2⟩

/-! ## seekRecord -/

theorem recDelimAt_iff (r q : Int) (u : Bool) (bs : List Nat) (k : Nat) :
    RecDelimAt r q u bs k ↔ DelimAt r r q u bs k := by
  unfold RecDelimAt DelimAt
  simp only [or_self]

/-- The loop of `seekRecord` is the field scan with the record delimiter as
the only delimiter. -/
theorem scanRecord_eq (r q : Int) (bs : List Nat) :
    ∀ (u : Bool) (k0 : Nat),
      scanRecord r q bs u k0 =
        match scanField r r q bs u k0 with
        | Scan.found k => some k
        | Scan.exhausted _ => none := by
  induction bs with
  | nil =>
    intro u k0
    rfl
  | cons c bs ih =>
    intro u k0
    simp only [scanRecord, scanField, or_self]
    by_cases hc : (if (c : Int) = q then !u else u) = false ∧ (c : Int) = r
    · rw [if_pos hc, if_pos hc]
    · rw [if_neg hc, if_neg hc]
      exact ih _ _

theorem scanRecord_of_first {r q : Int} {bs : List Nat} {u : Bool} {k : Nat}
    (hk : RecDelimAt r q u bs k) (hfirst : ∀ j, j < k → ¬ RecDelimAt r q u bs j) :
    scanRecord r q bs u 0 = some k := by
  have h : FirstDelimAt r r q u bs k :=
    ⟨(recDelimAt_iff r q u bs k).1 hk, fun j hj hd => hfirst j hj ((recDelimAt_iff r q u bs j).2 hd)⟩
  rw [scanRecord_eq, scanField_of_first h 0, Nat.zero_add]

theorem scanRecord_of_none {r q : Int} {bs : List Nat} {u : Bool}
    (h : ∀ k, ¬ RecDelimAt r q u bs k) : scanRecord r q bs u 0 = none := by
  rw [scanRecord_eq, scanField_of_none (fun k hd => h k ((recDelimAt_iff r q u bs k).2 hd)) 0]

/-- C14. `seekRecord`: if the rest of the current buffer holds a record
delimiter outside quotes, with `k` the offset of the first one, `seekRecord`
returns 0, moves the cursor to one past that delimiter and adds `k + 1`, the
number of bytes skipped with the delimiter, to `bytesRead` (in `int` arithmetic,
exactly when the sum fits an `int`), changing nothing else; if it holds none,
`seekRecord` returns 1 and changes nothing. In both cases the call returns and
the bytes of the buffer are the same afterwards. -/
theorem seekRecord_skips (s : DikeAsyncReader) (buf : DikeBuffer) (hb : s.buffer = some buf) :
    (∀ k, RecDelimAt s.rDelim s.qDelim false buf.rest k →
      (∀ j, j < k → ¬ RecDelimAt s.rDelim s.qDelim false buf.rest j) →
      seekRecord s = some (0,
        { s with
          bytesRead := toInt32 (s.bytesRead + ((k : Int) + 1))
          buffer := some { buf with pos := buf.pos + k + 1 } }) ∧
      (IsInt32 (s.bytesRead + ((k : Int) + 1)) →
        toInt32 (s.bytesRead + ((k : Int) + 1)) = s.bytesRead + ((k : Int) + 1))) ∧
    ((∀ k, ¬ RecDelimAt s.rDelim s.qDelim false buf.rest k) → seekRecord s = some (1, s)) ∧
    ∃ r t b1, seekRecord s = some (r, t) ∧ t.buffer = some b1 ∧ b1.data = buf.data ∧
      b1.id = buf.id ∧ (r = 0 ∨ r = 1) ∧
      (r = 1 → b1.pos = buf.pos ∧ t.bytesRead = s.bytesRead) := by
  refine ⟨?_, ?_, ?_⟩
  · intro k hk hfirst
    refine ⟨?_, toInt32_of_isInt32⟩
    unfold seekRecord
    simp only [hb, scanRecord_of_first hk hfirst]
  · intro hn
    unfold seekRecord
    simp only [hb, scanRecord_of_none hn]
  · unfold seekRecord
    simp only [hb]
    cases scanRecord s.rDelim s.qDelim buf.rest false 0 with
    | none => exact ⟨1, s, buf, rfl, hb, rfl, rfl, Or.inr rfl, fun _ => ⟨rfl, rfl⟩⟩
    | some k =>
      refine ⟨0, _, _, rfl, rfl, rfl, rfl, Or.inl rfl, ?_⟩
      intro h
      exact absurd h (by decide)

/-- Witness for C14: skipping the header `h,"x\ny"\n`, whose first line feed
is quoted: the cursor moves to offset 8 and `bytesRead` becomes 8. A buffer
whose only line feed is quoted is left as it is and 1 is returned. -/
theorem seekRecord_skips_witness :
    (withHeader.buffer =
        some { id := 0, data := [104, 44, 34, 120, 10, 121, 34, 10, 49, 44, 50, 10], pos := 0 } ∧
      RecDelimAt 10 34 false [104, 44, 34, 120, 10, 121, 34, 10, 49, 44, 50, 10] 7 ∧
      ¬ RecDelimAt 10 34 false [104, 44, 34, 120, 10, 121, 34, 10, 49, 44, 50, 10] 4) ∧
    (∃ t b1, seekRecord withHeader = some (0, t) ∧ t.buffer = some b1 ∧ b1.pos = 8 ∧
      b1.data = [104, 44, 34, 120, 10, 121, 34, 10, 49, 44, 50, 10] ∧ t.bytesRead = 8) ∧
    (∃ t b1, seekRecord noRecord = some (1, t) ∧ t.buffer = some b1 ∧ b1.pos = 0 ∧
      t.bytesRead = 0) := by
  refine ⟨⟨rfl, by decide, by decide⟩, ?_, ?_⟩
  · have h := (seekRecord_skips withHeader
      { id := 0, data := [104, 44, 34, 120, 10, 121, 34, 10, 49, 44, 50, 10], pos := 0 } rfl).1
      7 (by decide) (by decide)
    exact ⟨_, _, h.1, rfl, rfl, rfl, by decide⟩
  · have h := (seekRecord_skips noRecord { id := 0, data := [34, 97, 10], pos := 0 } rfl).2.1
      (fun k hk => no_delim_of_scan
        (rfl : scanField 10 10 34 [34, 97, 10] false 0 = Scan.exhausted true) k
        ((recDelimAt_iff 10 34 false [34, 97, 10] k).1 hk))
    exact ⟨_, _, h, rfl, rfl, rfl⟩

/-! ## The record count -/

theorem readRecord_enter (s : DikeAsyncReader) (heof : isEOF s = false) :
    readRecord s = readRecordLoop s.record.nCol 0 (enterRecord s) := by
  rw [readRecord_not_eof s heof]
  have h := (releaseLoop_frame s.tmp_q s).2.2.2.1
  unfold enterRecord
  unfold releaseBuffers at h ⊢
  rw [h]

theorem enterRecord_recordCount (s : DikeAsyncReader) :
    (enterRecord s).recordCount = (s.recordCount + 1) % 18446744073709551616 := by
  have h := (releaseLoop_frame s.tmp_q s).2.2.2.2.2.2.2.2.2.2.1
  unfold enterRecord
  unfold releaseBuffers
  simp only [h]

/-- When all calls of the field loop return 0, the loop returns 0. -/
theorem readRecordLoop_of_fieldsRead {n i : Nat} {s t : DikeAsyncReader}
    (h : FieldsRead n i s t) : readRecordLoop n i s = some (0, t) := by
  induction h with
  | done i s => rfl
  | next h1 _ ih =>
    rw [readRecordLoop_succ]
    unfold resetField at h1
    rw [h1]
    simpa using ih

/-- When a call of the field loop returns non-zero, the loop returns 1 at once. -/
theorem readRecordLoop_of_fail {j : Nat} :
    ∀ {i : Nat} {s s1 t : DikeAsyncReader} {r : Int} (m : Nat),
      FieldsRead j i s s1 → readField (i + j) (resetField (i + j) s1) = some (r, t) → r ≠ 0 →
      readRecordLoop (j + 1 + m) i s = some (1, t) := by
  induction j with
  | zero =>
    intro i s s1 t r m h hf hr
    cases h
    rw [Nat.zero_add, Nat.add_comm, readRecordLoop_succ]
    unfold resetField at hf
    rw [Nat.add_zero] at hf
    rw [hf]
    simp [hr]
  | succ j ih =>
    intro i s s1 t r m h hf hr
    cases h with
    | next h1 h2 =>
      have e : j + 1 + 1 + m = (j + 1 + m) + 1 := by omega
      rw [e, readRecordLoop_succ]
      unfold resetField at h1
      rw [h1]
      have e2 : i + (j + 1) = i + 1 + j := by omega
      rw [e2] at hf
      simpa using ih m h2 hf hr

/-- When the loop returns 0, all its calls returned 0. -/
theorem fieldsRead_of_loop (n : Nat) :
    ∀ (i : Nat) (s t : DikeAsyncReader), readRecordLoop n i s = some (0, t) →
      FieldsRead n i s t := by
  induction n with
  | zero =>
    intro i s t h
    simp only [readRecordLoop, Option.some.injEq, Prod.mk.injEq, true_and] at h
    subst h
    exact FieldsRead.done i s
  | succ n ih =>
    intro i s t h
    rw [readRecordLoop_succ] at h
    cases hrf : readField i (resetField i s) with
    | none =>
      unfold resetField at hrf
      rw [hrf] at h
      cases h
    | some p =>
      obtain ⟨r, s1⟩ := p
      have hrf2 := hrf
      unfold resetField at hrf
      rw [hrf] at h
      by_cases hr : r = 0
      · subst hr
        simp only [ne_eq, not_true_eq_false, if_false] at h
        exact FieldsRead.next hrf2 (ih _ _ _ h)
      · simp only [ne_eq, hr, not_false_eq_true, if_true, Option.some.injEq, Prod.mk.injEq] at h
        exact absurd h.1 (by decide)

theorem fieldsRead_recordCount {n i : Nat} {s t : DikeAsyncReader}
    (h : FieldsRead n i s t) : t.recordCount = s.recordCount := by
  induction h with
  | done i s => rfl
  | next h1 _ ih =>
    rw [ih, (readField_frame h1).2.2.2.2.2.2.1]
    rfl

/-- C11 as stated fails: on the last record `3,4` without record delimiter,
with the source at its end, `readRecord` is not at EOF, the call `readField(0)`
returns 0, the call `readField(1)` returns 1 and `readRecord` returns 1, yet
the record count has gone from 0 to 1. -/
theorem recordCount_advance_counterexample :
    isEOF incomplete = false ∧ incomplete.record.nCol = 2 ∧ incomplete.recordCount = 0 ∧
    (readField 0 (resetField 0 (enterRecord incomplete))).map Prod.fst = some 0 ∧
    ((readField 0 (resetField 0 (enterRecord incomplete))).bind
      (fun p => readField 1 (resetField 1 p.2))).map Prod.fst = some 1 ∧
    (readRecord incomplete).map Prod.fst = some 1 ∧
    (readRecord incomplete).map (fun p => p.2.recordCount) = some 1 := by
  refine ⟨by decide, by decide, by decide, by decide, by decide, by decide, by decide⟩

/-- C11 (amended). When `readRecord` is not at EOF, the record count is
increased by exactly one (modulo 2^64) whatever the field reads return: when
all `nCol` calls of `readField` return 0, `readRecord` returns 0, and when the
calls before column `j` return 0 and the call for column `j` fails,
`readRecord` returns 1 in the state that call left; in both cases the record
count is one more than before. At EOF `readRecord` returns 1 and changes
nothing. -/
theorem recordCount_advance (s : DikeAsyncReader) :
    (isEOF s = true → readRecord s = some (1, s)) ∧
    (isEOF s = false → ∀ t, FieldsRead s.record.nCol 0 (enterRecord s) t →
      readRecord s = some (0, t) ∧
        t.recordCount = (s.recordCount + 1) % 18446744073709551616) ∧
    (isEOF s = false → ∀ t, readRecord s = some (0, t) →
      FieldsRead s.record.nCol 0 (enterRecord s) t) ∧
    (isEOF s = false → ∀ j s1 r t, j < s.record.nCol → FieldsRead j 0 (enterRecord s) s1 →
      readField j (resetField j s1) = some (r, t) → r ≠ 0 →
      readRecord s = some (1, t) ∧
        t.recordCount = (s.recordCount + 1) % 18446744073709551616) ∧
    (isEOF s = false → ∀ r t, readRecord s = some (r, t) →
      t.recordCount = (s.recordCount + 1) % 18446744073709551616 ∧ (r = 0 ∨ r = 1)) := by
  refine ⟨?_, ?_, ?_, ?_, ?_⟩
  · intro h
    unfold readRecord
    simp [h]
  · intro heof t h
    rw [readRecord_enter s heof]
    exact ⟨readRecordLoop_of_fieldsRead h,
      (fieldsRead_recordCount h).trans (enterRecord_recordCount s)⟩
  · intro heof t h
    rw [readRecord_enter s heof] at h
    exact fieldsRead_of_loop _ _ _ _ h
  · intro heof j s1 r t hj h hf hr
    rw [readRecord_enter s heof]
    obtain ⟨m, hm⟩ : ∃ m, s.record.nCol = j + 1 + m := ⟨s.record.nCol - (j + 1), by omega⟩
    rw [hm]
    have hf0 : readField (0 + j) (resetField (0 + j) s1) = some (r, t) := by
      rw [Nat.zero_add]
      exact hf
    refine ⟨readRecordLoop_of_fail m h hf0 hr, ?_⟩
    rw [(readField_frame hf).2.2.2.2.2.2.1]
    exact (fieldsRead_recordCount h).trans (enterRecord_recordCount s)
  · intro heof r t h
    rw [readRecord_enter s heof] at h
    have hfr := readRecordLoop_frame _ _ _ _ _ h
    exact ⟨hfr.2.2.2.2.2.2.1.trans (enterRecord_recordCount s), hfr.2.2.2.2.2.2.2.2.2.2.2⟩

/-- Witness for C11 (amended): the record `1,2,3\n` is read by three field
calls, `readRecord` returns 0 and the record count goes from 0 to 1. -/
theorem recordCount_advance_witness :
    isEOF started = false ∧
    ∃ t, FieldsRead started.record.nCol 0 (enterRecord started) t ∧
      readRecord started = some (0, t) ∧ t.recordCount = 1 := by
  refine ⟨by decide, ?_⟩
  have h0 : (readRecord started).map Prod.fst = some 0 := by decide
  cases hr : readRecord started with
  | none =>
    rw [hr] at h0
    cases h0
  | some p =>
    obtain ⟨r, t⟩ := p
    rw [hr] at h0
    simp only [Option.map_some', Option.some.injEq] at h0
    subst h0
    have hf := (recordCount_advance started).2.2.1 (by decide) t hr
    have h := (recordCount_advance started).2.1 (by decide) t hf
    exact ⟨t, hf, rfl, h.2⟩

/-! ## The pool invariant -/

theorem poolIds_length (s : DikeAsyncReader) :
    (poolIds s).length = poolCount s + s.filling.toList.length := by
  unfold poolIds poolCount
  simp only [List.length_map, List.length_append]
  omega

theorem reachable_perm {s : DikeAsyncReader} (h : Reachable s) :
    (poolIds s).Perm [0, 1, 2, 3] := by
  induction h with
  | init blockSize record => exact List.Perm.refl _
  | step _ hstep ih => exact (step_poolIds hstep).trans ih

theorem takenOne_reachable : Reachable takenOne :=
  Reachable.step (Reachable.init 0 (DikeRecord.new 3 (fun _ => 0))) (Step.take rfl)

/-- Between two whole calls of the tokenizer the buffers in the free queue,
the ready queue, the held queue, the current buffer and the Worker's local
variable are the `QUEUE_SIZE` pool buffers, each once; `releaseBuffers` keeps
both the count and the absence of duplicates. -/
theorem pool_between_calls (s : DikeAsyncReader) (h : Reachable s) :
    poolCount s + s.filling.toList.length = QUEUE_SIZE ∧ (poolIds s).Nodup ∧
    (s.filling = none → poolCount s = QUEUE_SIZE) ∧
    (∀ b, s.filling = some b → poolCount s = QUEUE_SIZE - 1) ∧
    poolCount (releaseBuffers s) = poolCount s ∧ (poolIds (releaseBuffers s)).Nodup := by
  have hlen : poolCount s + s.filling.toList.length = QUEUE_SIZE := by
    rw [← poolIds_length, (reachable_perm h).length_eq]
    rfl
  have hrel := releaseBuffers_poolIds s
  have hfill : (releaseBuffers s).filling = s.filling :=
    (releaseLoop_frame s.tmp_q s).2.2.2.2.2.2.2.2.2.2.2.1
  refine ⟨hlen, reachable_nodup h, ?_, ?_, ?_, hrel.nodup_iff.2 (reachable_nodup h)⟩
  · intro hn
    rw [hn] at hlen
    exact hlen
  · intro b hb
    rw [hb] at hlen
    simp only [Option.toList_some, List.length_singleton] at hlen
    omega
  · have h1 := poolIds_length (releaseBuffers s)
    have h2 := poolIds_length s
    rw [hrel.length_eq, hfill] at h1
    omega

/-! ## FIFO order of the ready queue -/

theorem workerPublish_work_q {chunk : List Nat} {s t : DikeAsyncReader} {b : DikeBuffer}
    (hf : s.filling = some b) (h : workerPublish chunk s = some t) :
    t.work_q = s.work_q ++ [b.refill chunk] := by
  unfold workerPublish at h
  rw [hf] at h
  simp only [Option.some.injEq] at h
  rw [← h]

theorem getBuffer_work_q {s t : DikeAsyncReader} {b : DikeBuffer}
    (h : getBuffer s = some (b, t)) : s.work_q = b :: t.work_q := by
  unfold getBuffer at h
  cases hw : s.work_q with
  | nil => simp [hw] at h
  | cons c q =>
    simp only [hw, Option.some.injEq, Prod.mk.injEq] at h
    obtain ⟨rfl, rfl⟩ := h
    rfl

/-- The buffers published are those returned followed by those still ready,
and their bytes are the chunks read. -/
theorem fifo_queue {s : DikeAsyncReader} {reads : List (List Nat)} {p g : List DikeBuffer}
    (h : Fifo s reads p g) : p = g ++ s.work_q ∧ p.map DikeBuffer.data = reads := by
  induction h with
  | start blockSize record => exact ⟨rfl, rfl⟩
  | publish chunk b _ hf hw ih =>
    rw [workerPublish_work_q hf hw, ih.1, List.map_append, ← ih.2, ih.1]
    simp [DikeBuffer.refill]
  | get b _ hg ih =>
    refine ⟨?_, ih.2⟩
    rw [ih.1, getBuffer_work_q hg]
    simp
  | other _ hw ih =>
    rw [hw]
    exact ih

/-- C13. FIFO order of buffers: for every sequence of Worker publications and
`getBuffer` calls from construction on (any other steps, which leave the ready
queue alone, in between), the buffers published are the buffers returned
followed by the buffers still ready; so the k-th buffer returned by `getBuffer`
is the k-th buffer the Worker published, its bytes are the k-th chunk the Byte
Source returned, and the bytes of the returned buffers, concatenated buffer by
buffer and followed by those of the ready buffers, are the bytes the Byte
Source returned in the order they were read. -/
theorem getBuffer_fifo (s : DikeAsyncReader) (reads : List (List Nat)) (p g : List DikeBuffer)
    (h : Fifo s reads p g) :
    p = g ++ s.work_q ∧ p.map DikeBuffer.data = reads ∧
    (∀ k b, g.get? k = some b → p.get? k = some b ∧ reads.get? k = some b.data) ∧
    (g.map DikeBuffer.data).flatten = (reads.take g.length).flatten ∧
    (g.map DikeBuffer.data).flatten ++ (s.work_q.map DikeBuffer.data).flatten = reads.flatten := by
  obtain ⟨h1, h2⟩ := fifo_queue h
  have hk : ∀ k b, g.get? k = some b → p.get? k = some b := by
    intro k b hkb
    rw [List.get?_eq_getElem?] at hkb ⊢
    have hlt : k < g.length := (List.getElem?_eq_some_iff.1 hkb).1
    rw [h1, List.getElem?_append_left hlt]
    exact hkb
  refine ⟨h1, h2, ?_, ?_, ?_⟩
  · intro k b hkb
    refine ⟨hk k b hkb, ?_⟩
    have := hk k b hkb
    rw [← h2]
    rw [List.get?_eq_getElem?] at this ⊢
    rw [List.getElem?_map, this]
    rfl
  · rw [← h2, h1, List.map_append, List.take_append_of_le_length (by simp)]
    rw [List.take_of_length_le (by simp)]
  · rw [← h2, h1]
    simp

/-- Witness for C13: the Worker publishes `1,2` and then `3\n`; the two calls
of `getBuffer` return the buffer holding `1,2` first and the one holding `3\n`
second. -/
theorem getBuffer_fifo_witness :
    ∃ s g, Fifo s [[49, 44, 50], [51, 10]]
        [{ id := 0, data := [49, 44, 50], pos := 0 }, { id := 1, data := [51, 10], pos := 0 }] g ∧
      g = [{ id := 0, data := [49, 44, 50], pos := 0 }, { id := 1, data := [51, 10], pos := 0 }] ∧
      s.work_q = [] ∧ (g.map DikeBuffer.data).flatten = [49, 44, 50, 51, 10] := by
  have h0 := Fifo.start 0 (DikeRecord.new 3 (fun _ => 0))
  have h1 : Fifo takenOne [] [] [] := Fifo.other h0 rfl
  have h2 : Fifo
      { takenOne with filling := none, work_q := [{ id := 0, data := [49, 44, 50], pos := 0 }] }
      ([] ++ [[49, 44, 50]])
      ([] ++ [DikeBuffer.refill { id := 0, data := [], pos := 0 } [49, 44, 50]]) [] :=
    Fifo.publish [49, 44, 50] { id := 0, data := [], pos := 0 } h1 rfl rfl
  have h3 : Fifo
      { takenOne with
        filling := some { id := 1, data := [], pos := 0 }
        free_q := [{ id := 2, data := [], pos := 0 }, { id := 3, data := [], pos := 0 }]
        work_q := [{ id := 0, data := [49, 44, 50], pos := 0 }] }
      ([] ++ [[49, 44, 50]])
      ([] ++ [DikeBuffer.refill { id := 0, data := [], pos := 0 } [49, 44, 50]]) [] :=
    Fifo.other h2 rfl
  have h4 : Fifo
      { takenOne with
        filling := none
        free_q := [{ id := 2, data := [], pos := 0 }, { id := 3, data := [], pos := 0 }]
        work_q := [{ id := 0, data := [49, 44, 50], pos := 0 },
          { id := 1, data := [51, 10], pos := 0 }] }
      ([] ++ [[49, 44, 50]] ++ [[51, 10]])
      ([] ++ [DikeBuffer.refill { id := 0, data := [], pos := 0 } [49, 44, 50]] ++
        [DikeBuffer.refill { id := 1, data := [], pos := 0 } [51, 10]]) [] :=
    Fifo.publish [51, 10] { id := 1, data := [], pos := 0 } h3 rfl rfl
  have h5 : Fifo
      { takenOne with
        filling := none
        free_q := [{ id := 2, data := [], pos := 0 }, { id := 3, data := [], pos := 0 }]
        work_q := [{ id := 1, data := [51, 10], pos := 0 }] }
      ([] ++ [[49, 44, 50]] ++ [[51, 10]])
      ([] ++ [DikeBuffer.refill { id := 0, data := [], pos := 0 } [49, 44, 50]] ++
        [DikeBuffer.refill { id := 1, data := [], pos := 0 } [51, 10]])
      ([] ++ [{ id := 0, data := [49, 44, 50], pos := 0 }]) :=
    Fifo.get { id := 0, data := [49, 44, 50], pos := 0 } h4 rfl
  have h6 : Fifo
      { takenOne with
        filling := none
        free_q := [{ id := 2, data := [], pos := 0 }, { id := 3, data := [], pos := 0 }]
        work_q := [] }
      ([] ++ [[49, 44, 50]] ++ [[51, 10]])
      ([] ++ [DikeBuffer.refill { id := 0, data := [], pos := 0 } [49, 44, 50]] ++
        [DikeBuffer.refill { id := 1, data := [], pos := 0 } [51, 10]])
      ([] ++ [{ id := 0, data := [49, 44, 50], pos := 0 }] ++
        [{ id := 1, data := [51, 10], pos := 0 }]) :=
    Fifo.get { id := 1, data := [51, 10], pos := 0 } h5 rfl
  have h := getBuffer_fifo _ _ _ _ h6
  refine ⟨_, _, h6, ?_, rfl, ?_⟩
  · have e := h.1
    simp only [List.append_nil] at e
    exact e.symm
  · rw [h.2.2.2.1]
    rfl

/-! ### The tokenizer's calls as publications and retrievals -/

theorem fifo_readField {s t : DikeAsyncReader} {reads : List (List Nat)} {p g : List DikeBuffer}
    {pos : Nat} {r : Int} (h : Fifo s reads p g) (hr : readField pos s = some (r, t)) :
    ∃ g2, Fifo t reads p g2 := by
  obtain ⟨buf, _, hs⟩ := readField_shape hr
  rcases hs with ⟨b1, _, _, _, hw, _⟩ | ⟨nb, q, b1, hw, _, _, _, hq, _⟩
  · exact ⟨g, Fifo.other h hw⟩
  · have hg : getBuffer s = some (nb, { s with work_q := q }) := by
      unfold getBuffer
      rw [hw]
    exact ⟨g ++ [nb], Fifo.other (Fifo.get nb h hg) hq⟩

theorem fifo_loop {reads : List (List Nat)} {p : List DikeBuffer} (n : Nat) :
    ∀ (i : Nat) (s t : DikeAsyncReader) (g : List DikeBuffer) (r : Int),
      Fifo s reads p g → readRecordLoop n i s = some (r, t) → ∃ g2, Fifo t reads p g2 := by
  induction n with
  | zero =>
    intro i s t g r h hr
    simp only [readRecordLoop, Option.some.injEq, Prod.mk.injEq] at hr
    rw [← hr.2]
    exact ⟨g, h⟩
  | succ n ih =>
    intro i s t g r h hr
    rw [readRecordLoop_succ] at hr
    cases hrf : readField i (resetField i s) with
    | none =>
      unfold resetField at hrf
      rw [hrf] at hr
      cases hr
    | some x =>
      obtain ⟨r1, s1⟩ := x
      have h0 : Fifo (resetField i s) reads p g := Fifo.other h rfl
      obtain ⟨g1, hg1⟩ := fifo_readField h0 hrf
      unfold resetField at hrf
      rw [hrf] at hr
      by_cases hr1 : r1 = 0
      · subst hr1
        simp only [ne_eq, not_true_eq_false, if_false] at hr
        exact ih _ _ _ _ _ hg1 hr
      · simp only [ne_eq, hr1, not_false_eq_true, if_true, Option.some.injEq,
          Prod.mk.injEq] at hr
        rw [← hr.2]
        exact ⟨g1, hg1⟩

/-- Every reachable state has a history of publications and retrievals. -/
theorem fifo_of_reachable {s : DikeAsyncReader} (h : Reachable s) :
    ∃ reads p g, Fifo s reads p g := by
  induction h with
  | init blockSize record => exact ⟨[], [], [], Fifo.start blockSize record⟩
  | @step s0 t0 _ hstep ih =>
    obtain ⟨reads, p, g, hf⟩ := ih
    cases hstep with
    | take ht =>
      refine ⟨reads, p, g, Fifo.other hf ?_⟩
      unfold workerTake at ht
      split at ht
      · cases ht
      · split at ht
        · cases ht
        · split at ht
          · simp only [Option.some.injEq] at ht
            rw [← ht]
          · cases ht
    | publish chunk _ hp =>
      cases hfill : (_ : DikeAsyncReader).filling with
      | none =>
        unfold workerPublish at hp
        rw [hfill] at hp
        cases hp
      | some b => exact ⟨_, _, g, Fifo.publish chunk b hf hfill hp⟩
    | ctorGet hc =>
      unfold ctorGetBuffer at hc
      split at hc
      · rename_i b s1 _ hg
        simp only [Option.some.injEq] at hc
        rw [← hc]
        exact ⟨reads, p, _, Fifo.other (Fifo.get b hf hg) rfl⟩
      · cases hc
    | delims f r q => exact ⟨reads, p, g, Fifo.other hf rfl⟩
    | seek hs =>
      refine ⟨reads, p, g, Fifo.other hf ?_⟩
      unfold seekRecord at hs
      split at hs
      · cases hs
      · split at hs
        · simp only [Option.some.injEq, Prod.mk.injEq] at hs
          rw [← hs.2]
        · simp only [Option.some.injEq, Prod.mk.injEq] at hs
          rw [← hs.2]
    | field pos hr =>
      obtain ⟨g2, hg2⟩ := fifo_readField hf hr
      exact ⟨reads, p, g2, hg2⟩
    | record hr =>
      by_cases heof : isEOF s0 = true
      · unfold readRecord at hr
        simp only [heof, if_true, Option.some.injEq, Prod.mk.injEq] at hr
        rw [← hr.2]
        exact ⟨reads, p, g, hf⟩
      · have heof2 : isEOF s0 = false := by simpa using heof
        rw [readRecord_enter s0 heof2] at hr
        have hw : (enterRecord s0).work_q = s0.work_q :=
          (releaseLoop_frame s0.tmp_q s0).2.2.2.2.2.2.2.2.2.1
        obtain ⟨g2, hg2⟩ := fifo_loop _ _ _ _ _ _ (Fifo.other hf hw) hr
        exact ⟨reads, p, g2, hg2⟩

/-! ## getColumnCount and the tokenizer -/

/-- Over bytes without delimiter outside quotes the loop of `getColumnCount`
only moves its quote flag. -/
theorem countColumns_skip (f r q : Int) (bs : List Nat) :
    ∀ (u : Bool) (n : Nat) (rest : List Nat), (∀ k, ¬ DelimAt f r q u bs k) →
      countColumns f r q (bs ++ rest) u n = countColumns f r q rest (quoteFlag q u bs) n := by
  induction bs with
  | nil =>
    intro u n rest _
    rfl
  | cons c bs ih =>
    intro u n rest h
    have h0 := h 0
    rw [delimAt_cons_zero] at h0
    have hs : ∀ k, ¬ DelimAt f r q (if (c : Int) = q then !u else u) bs k :=
      fun k hk => h (k + 1) ((delimAt_cons_succ f r q u c bs k).2 hk)
    rw [List.cons_append, quoteFlag_cons]
    simp only [countColumns]
    by_cases hu : (if (c : Int) = q then !u else u) = false
    · have hf : ¬ (c : Int) = f := fun e => h0 ⟨hu, Or.inl e⟩
      have hr : ¬ (c : Int) = r := fun e => h0 ⟨hu, Or.inr e⟩
      rw [if_pos hu, if_neg hf, if_neg hr]
      exact ih _ _ _ hs
    · rw [if_neg hu]
      exact ih _ _ _ hs

/-- The loop of `getColumnCount` over one field and its delimiter. -/
theorem countColumns_field {f r q : Int} {x : List Nat} {d : Nat} (h : IsField f r q x d)
    (n : Nat) (rest : List Nat) :
    countColumns f r q (x ++ d :: rest) false n =
      if (d : Int) = f then countColumns f r q rest false (n + 1) else n + 1 := by
  obtain ⟨hnone, hfirst⟩ := @firstDelimAt_split f r q false x [d] 0 (by simpa using h)
  rw [countColumns_skip f r q x false n (d :: rest) hnone]
  have h0 := (delimAt_cons_zero f r q (quoteFlag q false x) d []).1 hfirst.1
  simp only [countColumns]
  rw [if_pos h0.1, h0.1]
  by_cases hf : (d : Int) = f
  · rw [if_pos hf, if_pos hf]
  · have hr : (d : Int) = r := h0.2.resolve_left hf
    rw [if_neg hf, if_neg hf, if_pos hr]

/-- Over one record the loop of `getColumnCount` counts its fields and stops. -/
theorem countColumns_record {f r q : Int} (hfr : f ≠ r) (fs : List (List Nat × Nat)) :
    ∀ (n : Nat) (tl : List Nat), IsRecord f r q fs →
      countColumns f r q (encode fs ++ tl) false n = n + fs.length := by
  induction fs with
  | nil =>
    intro n tl h
    exact absurd h (fun h => h)
  | cons x fs ih =>
    intro n tl h
    cases fs with
    | nil =>
      obtain ⟨h1, h2⟩ := h
      have hne : ¬ ((x.2 : Nat) : Int) = f := fun e => hfr (e.symm.trans h2)
      simp only [encode, List.append_nil, List.append_assoc, List.cons_append, List.nil_append,
        List.length_singleton]
      rw [countColumns_field h1, if_neg hne]
    | cons y fs =>
      obtain ⟨h1, h2, h3⟩ := h
      have e : encode (x :: y :: fs) ++ tl = x.1 ++ x.2 :: (encode (y :: fs) ++ tl) := by
        simp [encode]
      rw [e, countColumns_field h1, if_pos h2, ih _ _ h3]
      simp only [List.length_cons]
      omega

theorem isRecord_fields {f r q : Int} (fs : List (List Nat × Nat)) (h : IsRecord f r q fs) :
    ∀ x ∈ fs, IsField f r q x.1 x.2 := by
  induction fs with
  | nil => exact absurd h (fun h => h)
  | cons x fs ih =>
    cases fs with
    | nil =>
      intro y hy
      rw [List.mem_singleton] at hy
      rw [hy]
      exact h.1
    | cons z fs =>
      intro y hy
      rcases List.mem_cons.1 hy with e | hm
      · rw [e]
        exact h.1
      · exact ih h.2.2 y hm

theorem split_at_offset (bs : List Nat) (k : Nat) (h : k < bs.length) :
    ∃ x d rest, bs = x ++ d :: rest ∧ x.length = k := by
  refine ⟨bs.take k, bs[k], bs.drop (k + 1), ?_, by simp; omega⟩
  rw [← List.drop_eq_getElem_cons h, List.take_append_drop]

/-- The byte after the run `x` is a delimiter outside quotes. -/
theorem delimAt_mid (f r q : Int) (u : Bool) (x : List Nat) (d : Nat) (rest : List Nat) :
    DelimAt f r q u (x ++ d :: rest) x.length ↔
      (((d : Int) = f ∨ (d : Int) = r) ∧ quoteFlag q u (x ++ [d]) = false) := by
  have h1 := delimAt_append_right f r q u x (d :: rest) 0
  rw [Nat.add_zero] at h1
  rw [h1, delimAt_cons_zero, quoteFlag_append, quoteFlag_cons, quoteFlag_nil]
  exact And.comm

/-- The bytes up to the first record delimiter outside quotes form one record
for the tokenizer. -/
theorem exists_record (f r q : Int) :
    ∀ (k : Nat) (bs : List Nat), RecDelimAt r q false bs k →
      (∀ j, j < k → ¬ RecDelimAt r q false bs j) →
      ∃ fs tl, bs = encode fs ++ tl ∧ IsRecord f r q fs ∧ (encode fs).length = k + 1 := by
  intro k
  induction k using Nat.strong_induction_on with
  | _ k ih =>
    intro bs hk hfirst
    have hd : DelimAt f r q false bs k := ⟨hk.1, Or.inr hk.2.1, hk.2.2⟩
    obtain ⟨k0, h0⟩ := @exists_first_of_exists f r q false bs ⟨k, hd⟩
    have hle : k0 ≤ k := by
      by_contra hc
      exact h0.2 k (by omega) hd
    obtain ⟨x, d, rest, heq, hx⟩ := split_at_offset bs k0 h0.1.1
    subst heq
    subst hx
    have e : x ++ d :: rest = (x ++ [d]) ++ rest := by simp
    have hmid := (delimAt_mid f r q false x d rest).1 h0.1
    have hfield : IsField f r q x d := by
      unfold IsField
      have h2 := h0
      rw [e] at h2
      exact (firstDelimAt_append_left f r q false (x ++ [d]) rest x.length (by simp)).1 h2
    by_cases hr : (d : Int) = r
    · have hk0 : x.length = k := by
        by_contra hne
        exact hfirst x.length (by omega)
          ((recDelimAt_iff r q false _ _).2
            ((delimAt_mid r r q false x d rest).2 ⟨Or.inl hr, hmid.2⟩))
      refine ⟨[(x, d)], rest, by simp [encode], ⟨hfield, hr⟩, ?_⟩
      simp [encode, hk0]
    · have hf : (d : Int) = f := hmid.1.resolve_right hr
      have hlt : x.length < k := by
        rcases Nat.lt_or_ge x.length k with h | h
        · exact h
        · have e2 : k = x.length := by omega
          have h3 := (recDelimAt_iff r q false _ _).1 hk
          rw [e2] at h3
          have h4 := ((delimAt_mid r r q false x d rest).1 h3).1
          rcases h4 with h4 | h4
          · exact absurd h4 hr
          · exact absurd h4 hr
      obtain ⟨m, hm⟩ : ∃ m, k = (x ++ [d]).length + m :=
        ⟨k - (x.length + 1), by simp; omega⟩
      have hrest : ∀ j, RecDelimAt r q false (x ++ d :: rest) ((x ++ [d]).length + j) ↔
          RecDelimAt r q false rest j := by
        intro j
        rw [recDelimAt_iff, recDelimAt_iff, e]
        have h1 := delimAt_append_right r r q false (x ++ [d]) rest j
        rw [hmid.2] at h1
        exact h1
      have hm1 : RecDelimAt r q false rest m := by
        rw [← hrest, ← hm]
        exact hk
      have hm2 : ∀ j, j < m → ¬ RecDelimAt r q false rest j := by
        intro j hj hc
        exact hfirst _ (by rw [hm]; omega) ((hrest j).2 hc)
      have hmk : m < k := by
        rw [hm]
        simp
      obtain ⟨fs, tl, e1, e2, e3⟩ := ih m hmk rest hm1 hm2
      cases fs with
      | nil => exact absurd e2 (fun h => h)
      | cons y fs =>
        refine ⟨(x, d) :: y :: fs, tl, ?_, ⟨hfield, hf, e2⟩, ?_⟩
        · rw [e1]
          simp [encode]
        · have e4 : (encode ((x, d) :: y :: fs)).length
              = (x ++ [d]).length + (encode (y :: fs)).length := by
            simp [encode]
            omega
          rw [e4, e3, hm]
          omega

/-- C15. `getColumnCount` agrees with the tokenizer: with a field delimiter
different from the record delimiter, for every current buffer that holds a
record delimiter outside quotes at or after the cursor, the bytes from the
cursor up to the first such delimiter are the fields of one record (each field
ended by the first delimiter outside quotes after its start, all but the last
by a field delimiter and the last by that record delimiter), `getColumnCount`
returns the number `n` of these fields, and the `n` successive `readField` calls
of the field loop from the same cursor all return 0 on the fast path: the
current buffer stays current, no ready buffer is taken, every field pointer
points into the current buffer and the cursor ends one past the record
delimiter. `getColumnCount` itself assigns no member and writes through no
pointer, so it is embedded as a function from the state to the count alone and
the field calls above start from the very state it was given: buffer bytes,
cursor and `bytesRead` are as before the call. -/
theorem getColumnCount_agrees (s : DikeAsyncReader) (buf : DikeBuffer) (k : Nat)
    (hb : s.buffer = some buf) (hfr : s.fDelim ≠ s.rDelim)
    (hk : RecDelimAt s.rDelim s.qDelim false buf.rest k)
    (hfirst : ∀ j, j < k → ¬ RecDelimAt s.rDelim s.qDelim false buf.rest j) :
    ∃ fs tl, buf.rest = encode fs ++ tl ∧ IsRecord s.fDelim s.rDelim s.qDelim fs ∧
      (encode fs).length = k + 1 ∧
      getColumnCount s = some fs.length ∧
      ∃ t, FieldsRead fs.length 0 s t ∧
        t.buffer = some { buf with
          data := buf.data.take buf.pos ++ (terminated fs ++ tl), pos := buf.pos + (k + 1) } ∧
        t.work_q = s.work_q ∧ t.tmp_q = s.tmp_q ∧
        ∀ j, j < fs.length →
          t.record.fields j = Ptr.inBuffer buf.id (buf.pos + (encode (fs.take j)).length) := by
  obtain ⟨fs, tl, e1, e2, e3⟩ := exists_record s.fDelim s.rDelim s.qDelim k buf.rest hk hfirst
  refine ⟨fs, tl, e1, e2, e3, ?_, ?_⟩
  · unfold getColumnCount
    rw [hb]
    simp only [e1]
    rw [countColumns_record hfr fs 0 tl e2, Nat.zero_add]
  · have hpos : buf.pos ≤ buf.data.length := by
      have h1 := hk.1
      unfold DikeBuffer.rest at h1
      rw [List.length_drop] at h1
      omega
    have hd : buf.data = buf.data.take buf.pos ++ (encode fs ++ tl) := by
      rw [← e1]
      exact (List.take_append_drop buf.pos buf.data).symm
    have hp : buf.pos = (buf.data.take buf.pos).length := by
      rw [List.length_take]
      omega
    have hloop := readRecordLoop_fast fs 0 s buf (buf.data.take buf.pos) tl hb hd hp
      (isRecord_fields fs e2)
    refine ⟨_, fieldsRead_of_loop _ _ _ _ hloop, ?_, rfl, rfl, ?_⟩
    · rw [e3]
    · intro j hj
      have h := fieldsAfter_at buf.id fs 0 buf.pos s.record.fields j hj
      rw [Nat.zero_add] at h
      exact h

/-- Witness for C15: in `a,"b,c",d\ne,` the first record delimiter outside
quotes is at offset 9; `getColumnCount` returns 3 and three field calls succeed,
leaving the cursor at offset 10. -/
theorem getColumnCount_agrees_witness :
    (detect.buffer =
        some { id := 0, data := [97, 44, 34, 98, 44, 99, 34, 44, 100, 10, 101, 44], pos := 0 } ∧
      detect.fDelim ≠ detect.rDelim ∧
      RecDelimAt 10 34 false [97, 44, 34, 98, 44, 99, 34, 44, 100, 10, 101, 44] 9) ∧
    getColumnCount detect = some 3 ∧
    ∃ t b1, FieldsRead 3 0 detect t ∧ t.buffer = some b1 ∧ b1.pos = 10 := by
  refine ⟨⟨rfl, by decide, by decide⟩, by decide, ?_⟩
  obtain ⟨fs, tl, _, _, _, h4, t, h5, h6, _⟩ :=
    getColumnCount_agrees detect
      { id := 0, data := [97, 44, 34, 98, 44, 99, 34, 44, 100, 10, 101, 44], pos := 0 } 9
      rfl (by decide) (by decide) (by decide)
  have h3 : fs.length = 3 := by
    have e : getColumnCount detect = some 3 := by decide
    rw [e] at h4
    simp only [Option.some.injEq] at h4
    exact h4.symm
  rw [h3] at h5
  exact ⟨t, _, h5, h6, rfl⟩

/-! ## What a call consumes -/

theorem pendingQ_append (a b : List DikeBuffer) : pendingQ (a ++ b) = pendingQ a ++ pendingQ b := by
  induction a with
  | nil => rfl
  | cons x a ih =>
    rw [List.cons_append]
    simp only [pendingQ, ih, List.append_assoc]

theorem pending_length (s : DikeAsyncReader) (buf : DikeBuffer) (hb : s.buffer = some buf) :
    (pending s).length = buf.rest.length + (pendingQ s.work_q).length := by
  rw [pending_eq s buf hb, List.length_append]

/-- On the slow path a call for an index that is no column of the record does
not return: it copies through the unset member `fieldMemory[pos]`. -/
theorem readField_unset {s : DikeAsyncReader} {buf : DikeBuffer} (pos : Nat)
    (hb : s.buffer = some buf)
    (h1 : ∀ j, ¬ DelimAt s.fDelim s.rDelim s.qDelim false buf.rest j)
    (hge : ¬ pos < s.record.nCol) : readField pos s = none := by
  unfold readField
  rw [hb]
  simp only [scanField_of_none h1 0, fieldMemoryAt_of_ge hge]

/-- The three ways a `readField` call returns: on the fast path, on the slow
path with a delimiter in the next ready buffer, and on the slow path without. -/
theorem readField_cases {pos : Nat} {s t : DikeAsyncReader} {r : Int}
    (h : readField pos s = some (r, t)) :
    ∃ buf, s.buffer = some buf ∧
      ((∃ k, FirstDelimAt s.fDelim s.rDelim s.qDelim false buf.rest k ∧ r = 0 ∧
          t.buffer = some { buf with data := buf.data.set (buf.pos + k) 0, pos := buf.pos + k + 1 } ∧
          t.work_q = s.work_q ∧ t.bytesRead = toInt32 (s.bytesRead + ((k : Int) + 1))) ∨
       (∃ nb q k, s.work_q = nb :: q ∧
          FirstDelimAt s.fDelim s.rDelim s.qDelim (quoteFlag s.qDelim false buf.rest) nb.rest k ∧
          r = 0 ∧ t.buffer = some { nb with pos := nb.pos + (k + 1) } ∧ t.work_q = q ∧
          t.bytesRead = toInt32 (s.bytesRead + toInt32 ((buf.rest.length + k + 1 : Nat) : Int))) ∨
       (∃ nb q, s.work_q = nb :: q ∧ r = 1 ∧ t.buffer = some nb ∧ t.work_q = q ∧
          t.bytesRead = s.bytesRead)) := by
  cases hb : s.buffer with
  | none =>
    unfold readField at h
    simp [hb] at h
  | some buf =>
    refine ⟨buf, rfl, ?_⟩
    by_cases h1 : ∃ k, DelimAt s.fDelim s.rDelim s.qDelim false buf.rest k
    · obtain ⟨k, hk⟩ := exists_first_of_exists h1
      rw [readField_of_first pos hb hk] at h
      simp only [Option.some.injEq, Prod.mk.injEq] at h
      obtain ⟨rfl, rfl⟩ := h
      exact Or.inl ⟨k, hk, rfl, rfl, rfl, rfl⟩
    · have h1n : ∀ k, ¬ DelimAt s.fDelim s.rDelim s.qDelim false buf.rest k :=
        fun k hk => h1 ⟨k, hk⟩
      have hpos : pos < s.record.nCol := by
        by_contra hge
        rw [readField_unset pos hb h1n hge] at h
        cases h
      cases hw : s.work_q with
      | nil =>
        unfold readField at h
        rw [hb] at h
        simp only [scanField_of_none h1n 0, fieldMemoryAt_of_lt hpos, copyFirst_eq, getBuffer,
          holdBuffer, hw] at h
        cases h
      | cons nb q =>
        by_cases h2 : ∃ k, DelimAt s.fDelim s.rDelim s.qDelim
            (quoteFlag s.qDelim false buf.rest) nb.rest k
        · obtain ⟨k, hk⟩ := exists_first_of_exists h2
          rw [readField_slow_found pos hb hw h1n hk hpos] at h
          simp only [Option.some.injEq, Prod.mk.injEq] at h
          obtain ⟨rfl, rfl⟩ := h
          exact Or.inr (Or.inl ⟨nb, q, k, rfl, hk, rfl, rfl, rfl, rfl⟩)
        · have h2n : ∀ k, ¬ DelimAt s.fDelim s.rDelim s.qDelim
              (quoteFlag s.qDelim false buf.rest) nb.rest k := fun k hk => h2 ⟨k, hk⟩
          rw [readField_slow_fail pos hb hw h1n h2n hpos] at h
          simp only [Option.some.injEq, Prod.mk.injEq] at h
          obtain ⟨rfl, rfl⟩ := h
          exact Or.inr (Or.inr ⟨nb, q, rfl, rfl, rfl, rfl, rfl⟩)

/-- A `readField` call adds to `bytesRead` the number of pending bytes it
consumes, at least one, when it returns 0, and nothing when it returns 1. -/
theorem readField_consumed {pos : Nat} {s t : DikeAsyncReader} {r : Int}
    (h : readField pos s = some (r, t)) :
    (r = 0 → ∃ d : Nat, 1 ≤ d ∧ (pending t).length + d = (pending s).length ∧
      t.bytesRead = toInt32 (s.bytesRead + (d : Int))) ∧
    (r ≠ 0 → t.bytesRead = s.bytesRead) := by
  obtain ⟨buf, hb, hc⟩ := readField_cases h
  rcases hc with ⟨k, hk, hr, hbt, hwt, hbr⟩ | ⟨nb, q, k, hw, hk, hr, hbt, hwt, hbr⟩ |
    ⟨nb, q, hw, hr, hbt, hwt, hbr⟩
  · refine ⟨fun _ => ⟨k + 1, by omega, ?_, ?_⟩, fun hne => absurd hr hne⟩
    · rw [pending_length s buf hb, pending_length t _ hbt, hwt]
      have hlt := hk.1.1
      unfold DikeBuffer.rest at hlt ⊢
      simp only [List.length_drop, List.length_set] at hlt ⊢
      omega
    · rw [hbr]
      push_cast
      rfl
  · refine ⟨fun _ => ⟨buf.rest.length + k + 1, by omega, ?_, ?_⟩, fun hne => absurd hr hne⟩
    · rw [pending_length s buf hb, pending_length t _ hbt, hwt, hw]
      have hlt := hk.1.1
      simp only [pendingQ, List.length_append]
      unfold DikeBuffer.rest at hlt ⊢
      simp only [List.length_drop] at hlt ⊢
      omega
    · rw [hbr, toInt32_add_toInt32_right]
  · refine ⟨fun h0 => ?_, fun _ => hbr⟩
    rw [hr] at h0
    exact absurd h0 (by decide)

/-- A `seekRecord` call adds to `bytesRead` the number of pending bytes it
skips, at least one, when it returns 0, and changes nothing when it returns 1. -/
theorem seekRecord_consumed {s t : DikeAsyncReader} {r : Int}
    (h : seekRecord s = some (r, t)) :
    (r = 0 → ∃ d : Nat, 1 ≤ d ∧ (pending t).length + d = (pending s).length ∧
      t.bytesRead = toInt32 (s.bytesRead + (d : Int))) ∧
    (r ≠ 0 → t = s) := by
  unfold seekRecord at h
  cases hb : s.buffer with
  | none => simp [hb] at h
  | some buf =>
    simp only [hb] at h
    cases hscan : scanRecord s.rDelim s.qDelim buf.rest false 0 with
    | none =>
      simp only [hscan, Option.some.injEq, Prod.mk.injEq] at h
      obtain ⟨rfl, rfl⟩ := h
      exact ⟨fun h0 => absurd h0 (by decide), fun _ => rfl⟩
    | some k =>
      simp only [hscan, Option.some.injEq, Prod.mk.injEq] at h
      obtain ⟨rfl, rfl⟩ := h
      refine ⟨fun _ => ⟨k + 1, by omega, ?_, ?_⟩, fun hne => absurd rfl hne⟩
      · have hlt : k < buf.rest.length := by
          rw [scanRecord_eq] at hscan
          rcases scanField_cases s.rDelim s.rDelim s.qDelim buf.rest false 0 with
            ⟨m, hm, hs⟩ | ⟨_, hs⟩
          · rw [hs] at hscan
            simp only [Nat.zero_add, Option.some.injEq] at hscan
            rw [← hscan]
            exact hm.1.1
          · rw [hs] at hscan
            cases hscan
        rw [pending_length s buf hb, pending_length _ _ rfl]
        unfold DikeBuffer.rest at hlt ⊢
        simp only [List.length_drop] at hlt ⊢
        omega
      · simp only
        push_cast
        rfl

/-- The field loop adds to `bytesRead` the number of pending bytes it consumes,
at least one per field, when it returns 0; when it returns 1 it has added the
bytes of the fields read before the failing one. -/
theorem readRecordLoop_consumed (n : Nat) :
    ∀ (i : Nat) (s t : DikeAsyncReader) (r : Int), IsInt32 s.bytesRead →
      readRecordLoop n i s = some (r, t) →
      ∃ d : Nat, t.bytesRead = toInt32 (s.bytesRead + (d : Int)) ∧
        (r = 0 → n ≤ d ∧ (pending t).length + d = (pending s).length) := by
  induction n with
  | zero =>
    intro i s t r hi h
    simp only [readRecordLoop, Option.some.injEq, Prod.mk.injEq] at h
    obtain ⟨rfl, rfl⟩ := h
    refine ⟨0, ?_, fun _ => ⟨le_refl 0, rfl⟩⟩
    rw [Int.Nat.cast_ofNat_Int, Int.add_zero, toInt32_of_isInt32 hi]
  | succ n ih =>
    intro i s t r hi h
    rw [readRecordLoop_succ] at h
    cases hrf : readField i (resetField i s) with
    | none =>
      unfold resetField at hrf
      rw [hrf] at h
      cases h
    | some x =>
      obtain ⟨r1, s1⟩ := x
      obtain ⟨hc0, hc1⟩ := readField_consumed hrf
      unfold resetField at hrf
      rw [hrf] at h
      by_cases hr1 : r1 = 0
      · subst hr1
        simp only [ne_eq, not_true_eq_false, if_false] at h
        obtain ⟨d1, hd1, hp1, hb1⟩ := hc0 rfl
        obtain ⟨d2, hb2, hp2⟩ := ih _ _ _ _ (by rw [hb1]; exact isInt32_toInt32 _) h
        refine ⟨d1 + d2, ?_, fun h0 => ?_⟩
        · rw [hb2, hb1, toInt32_add_toInt32]
          simp only [resetField]
          push_cast
          rw [Int.add_assoc]
        · obtain ⟨hn, hp⟩ := hp2 h0
          have e : pending (resetField i s) = pending s := rfl
          rw [e] at hp1
          exact ⟨by omega, by omega⟩
      · simp only [ne_eq, hr1, not_false_eq_true, if_true, Option.some.injEq,
          Prod.mk.injEq] at h
        obtain ⟨rfl, rfl⟩ := h
        refine ⟨0, ?_, fun h0 => absurd h0 (by decide)⟩
        rw [hc1 hr1, Int.Nat.cast_ofNat_Int, Int.add_zero, toInt32_of_isInt32 hi]
        rfl

/-! ## bytesRead and the stream position -/

theorem readRecord_consumed {s t : DikeAsyncReader} {r : Int} (hi : IsInt32 s.bytesRead)
    (h : readRecord s = some (r, t)) :
    ∃ d : Nat, t.bytesRead = toInt32 (s.bytesRead + (d : Int)) ∧
      (r = 0 → s.record.nCol ≤ d ∧ (pending t).length + d = (pending s).length) := by
  by_cases heof : isEOF s = true
  · unfold readRecord at h
    simp only [heof, if_true, Option.some.injEq, Prod.mk.injEq] at h
    obtain ⟨rfl, rfl⟩ := h
    refine ⟨0, ?_, fun h0 => absurd h0 (by decide)⟩
    rw [Int.Nat.cast_ofNat_Int, Int.add_zero, toInt32_of_isInt32 hi]
  · have heof2 : isEOF s = false := by simpa using heof
    rw [readRecord_enter s heof2] at h
    obtain ⟨_, _, h3, _, h5, _, _, _, _, h10, _, _, _⟩ := releaseLoop_frame s.tmp_q s
    have hbr : (enterRecord s).bytesRead = s.bytesRead := h5
    have hp : pending (enterRecord s) = pending s := by
      have e1 : (enterRecord s).buffer = s.buffer := h3
      have e2 : (enterRecord s).work_q = s.work_q := h10
      unfold pending
      rw [e1, e2]
    obtain ⟨d, hd, hz⟩ := readRecordLoop_consumed _ _ _ _ _ (by rw [hbr]; exact hi) h
    rw [hbr] at hd
    rw [hp] at hz
    exact ⟨d, hd, hz⟩

theorem readField_placed {pos : Nat} {s t : DikeAsyncReader} {r : Int}
    (hw : WellPlaced s) (h : readField pos s = some (r, t)) : WellPlaced t := by
  obtain ⟨buf, hb, hc⟩ := readField_cases h
  rcases hc with ⟨k, hk, _, hbt, hwt, _⟩ | ⟨nb, q, k, hq, hk, _, hbt, hwt, _⟩ |
    ⟨nb, q, hq, _, hbt, hwt, _⟩
  · refine ⟨fun b hb1 => hw.1 b (by rw [← hwt]; exact hb1), ?_⟩
    intro b hb1
    rw [hbt] at hb1
    simp only [Option.some.injEq] at hb1
    rw [← hb1]
    have hlt := hk.1.1
    unfold DikeBuffer.rest at hlt
    simp only [List.length_drop] at hlt
    simp only [List.length_set]
    omega
  · refine ⟨fun b hb1 => hw.1 b (by rw [hq]; rw [hwt] at hb1; exact List.mem_cons_of_mem _ hb1),
      ?_⟩
    intro b hb1
    rw [hbt] at hb1
    simp only [Option.some.injEq] at hb1
    rw [← hb1]
    have hlt := hk.1.1
    unfold DikeBuffer.rest at hlt
    simp only [List.length_drop] at hlt
    simp only
    omega
  · refine ⟨fun b hb1 => hw.1 b (by rw [hq]; rw [hwt] at hb1; exact List.mem_cons_of_mem _ hb1),
      ?_⟩
    intro b hb1
    rw [hbt] at hb1
    simp only [Option.some.injEq] at hb1
    rw [← hb1, hw.1 nb (by rw [hq]; exact List.mem_cons_self _ _)]
    exact Nat.zero_le _

theorem readRecordLoop_placed (n : Nat) :
    ∀ (i : Nat) (s t : DikeAsyncReader) (r : Int), WellPlaced s →
      readRecordLoop n i s = some (r, t) → WellPlaced t := by
  induction n with
  | zero =>
    intro i s t r hw h
    simp only [readRecordLoop, Option.some.injEq, Prod.mk.injEq] at h
    rw [← h.2]
    exact hw
  | succ n ih =>
    intro i s t r hw h
    rw [readRecordLoop_succ] at h
    cases hrf : readField i (resetField i s) with
    | none =>
      unfold resetField at hrf
      rw [hrf] at h
      cases h
    | some x =>
      obtain ⟨r1, s1⟩ := x
      have hw1 : WellPlaced s1 := readField_placed (s := resetField i s) hw hrf
      unfold resetField at hrf
      rw [hrf] at h
      by_cases hr1 : r1 = 0
      · subst hr1
        simp only [ne_eq, not_true_eq_false, if_false] at h
        exact ih _ _ _ _ hw1 h
      · simp only [ne_eq, hr1, not_false_eq_true, if_true, Option.some.injEq,
          Prod.mk.injEq] at h
        rw [← h.2]
        exact hw1

theorem readRecord_placed {s t : DikeAsyncReader} {r : Int} (hw : WellPlaced s)
    (h : readRecord s = some (r, t)) : WellPlaced t := by
  by_cases heof : isEOF s = true
  · unfold readRecord at h
    simp only [heof, if_true, Option.some.injEq, Prod.mk.injEq] at h
    rw [← h.2]
    exact hw
  · have heof2 : isEOF s = false := by simpa using heof
    rw [readRecord_enter s heof2] at h
    obtain ⟨_, _, h3, _, _, _, _, _, _, h10, _, _, _⟩ := releaseLoop_frame s.tmp_q s
    have e1 : (enterRecord s).buffer = s.buffer := h3
    have e2 : (enterRecord s).work_q = s.work_q := h10
    have hw0 : WellPlaced (enterRecord s) := by
      unfold WellPlaced
      rw [e1, e2]
      exact hw
    exact readRecordLoop_placed _ _ _ _ _ hw0 h

theorem seekRecord_placed {s t : DikeAsyncReader} {r : Int} (hw : WellPlaced s)
    (h : seekRecord s = some (r, t)) : WellPlaced t := by
  unfold seekRecord at h
  cases hb : s.buffer with
  | none => simp [hb] at h
  | some buf =>
    simp only [hb] at h
    cases hscan : scanRecord s.rDelim s.qDelim buf.rest false 0 with
    | none =>
      simp only [hscan, Option.some.injEq, Prod.mk.injEq] at h
      rw [← h.2]
      exact hw
    | some k =>
      simp only [hscan, Option.some.injEq, Prod.mk.injEq] at h
      obtain ⟨_, rfl⟩ := h
      have hlt : k < buf.rest.length := by
        rw [scanRecord_eq] at hscan
        rcases scanField_cases s.rDelim s.rDelim s.qDelim buf.rest false 0 with
          ⟨m, hm, hs⟩ | ⟨_, hs⟩
        · rw [hs] at hscan
          simp only [Nat.zero_add, Option.some.injEq] at hscan
          rw [← hscan]
          exact hm.1.1
        · rw [hs] at hscan
          cases hscan
      refine ⟨hw.1, ?_⟩
      intro b hb1
      simp only [Option.some.injEq] at hb1
      rw [← hb1]
      unfold DikeBuffer.rest at hlt
      simp only [List.length_drop] at hlt
      simp only
      omega

theorem pendingQ_length_of_placed (q : List DikeBuffer) (h : ∀ b ∈ q, b.pos = 0) :
    (pendingQ q).length = sizeQ q := by
  induction q with
  | nil => rfl
  | cons b q ih =>
    simp only [pendingQ, sizeQ, List.length_append]
    rw [ih (fun c hc => h c (List.mem_cons_of_mem _ hc))]
    unfold DikeBuffer.rest
    rw [h b (List.mem_cons_self _ _)]
    simp

/-- In a well-placed state the pending bytes and the cursor's offset make up
the bytes of the current and the ready buffers. -/
theorem pending_size (s : DikeAsyncReader) (hw : WellPlaced s) :
    (pending s).length + cursorOffset s = sizeQ (s.buffer.toList ++ s.work_q) := by
  unfold pending cursorOffset
  cases hb : s.buffer with
  | none =>
    simp only [Option.toList_none, List.nil_append, Nat.add_zero]
    exact pendingQ_length_of_placed _ hw.1
  | some b =>
    have h1 := hw.2 b hb
    have e : (some b).toList ++ s.work_q = b :: s.work_q := rfl
    rw [e]
    simp only [pendingQ, sizeQ, List.length_append]
    rw [pendingQ_length_of_placed _ hw.1]
    unfold DikeBuffer.rest
    simp only [List.length_drop]
    omega

/-! ### Properties kept by the tokenizer's calls -/

theorem readRecordLoop_keeps (P : DikeAsyncReader → Prop)
    (hreset : ∀ i s, P s → P (resetField i s))
    (hfield : ∀ pos s r t, P s → readField pos s = some (r, t) → P t) (n : Nat) :
    ∀ (i : Nat) (s t : DikeAsyncReader) (r : Int), P s →
      readRecordLoop n i s = some (r, t) → P t := by
  induction n with
  | zero =>
    intro i s t r hp h
    simp only [readRecordLoop, Option.some.injEq, Prod.mk.injEq] at h
    rw [← h.2]
    exact hp
  | succ n ih =>
    intro i s t r hp h
    rw [readRecordLoop_succ] at h
    cases hrf : readField i (resetField i s) with
    | none =>
      unfold resetField at hrf
      rw [hrf] at h
      cases h
    | some x =>
      obtain ⟨r1, s1⟩ := x
      have hp1 : P s1 := hfield _ _ _ _ (hreset i s hp) hrf
      unfold resetField at hrf
      rw [hrf] at h
      by_cases hr1 : r1 = 0
      · subst hr1
        simp only [ne_eq, not_true_eq_false, if_false] at h
        exact ih _ _ _ _ hp1 h
      · simp only [ne_eq, hr1, not_false_eq_true, if_true, Option.some.injEq,
          Prod.mk.injEq] at h
        rw [← h.2]
        exact hp1

theorem readRecord_keeps (P : DikeAsyncReader → Prop)
    (hreset : ∀ i s, P s → P (resetField i s))
    (henter : ∀ s, P s → P (enterRecord s))
    (hfield : ∀ pos s r t, P s → readField pos s = some (r, t) → P t)
    {s t : DikeAsyncReader} {r : Int} (hp : P s) (h : readRecord s = some (r, t)) : P t := by
  by_cases heof : isEOF s = true
  · unfold readRecord at h
    simp only [heof, if_true, Option.some.injEq, Prod.mk.injEq] at h
    rw [← h.2]
    exact hp
  · have heof2 : isEOF s = false := by simpa using heof
    rw [readRecord_enter s heof2] at h
    exact readRecordLoop_keeps P hreset hfield _ _ _ _ _ (henter s hp) h

theorem enterRecord_ready (s : DikeAsyncReader) :
    (enterRecord s).buffer = s.buffer ∧ (enterRecord s).work_q = s.work_q := by
  obtain ⟨_, _, h3, _, _, _, _, _, _, h10, _, _, _⟩ := releaseLoop_frame s.tmp_q s
  exact ⟨h3, h10⟩

/-- A `readField` call does not add bytes to the current and ready buffers. -/
theorem readField_size {pos : Nat} {s t : DikeAsyncReader} {r : Int}
    (h : readField pos s = some (r, t)) :
    sizeQ (t.buffer.toList ++ t.work_q) ≤ sizeQ (s.buffer.toList ++ s.work_q) := by
  obtain ⟨buf, hb, hc⟩ := readField_cases h
  rcases hc with ⟨k, _, _, hbt, hwt, _⟩ | ⟨nb, q, k, hq, _, _, hbt, hwt, _⟩ |
    ⟨nb, q, hq, _, hbt, hwt, _⟩
  · rw [hbt, hwt, hb]
    simp [sizeQ]
  · rw [hbt, hwt, hb, hq]
    simp [sizeQ]
  · rw [hbt, hwt, hb, hq]
    simp [sizeQ]

theorem seekRecord_size {s t : DikeAsyncReader} {r : Int} (h : seekRecord s = some (r, t)) :
    sizeQ (t.buffer.toList ++ t.work_q) = sizeQ (s.buffer.toList ++ s.work_q) := by
  unfold seekRecord at h
  cases hb : s.buffer with
  | none => simp [hb] at h
  | some buf =>
    simp only [hb] at h
    cases hscan : scanRecord s.rDelim s.qDelim buf.rest false 0 with
    | none =>
      simp only [hscan, Option.some.injEq, Prod.mk.injEq] at h
      rw [← h.2, hb]
    | some k =>
      simp only [hscan, Option.some.injEq, Prod.mk.injEq] at h
      rw [← h.2]
      simp [sizeQ]

theorem sizeQ_append (a b : List DikeBuffer) : sizeQ (a ++ b) = sizeQ a + sizeQ b := by
  induction a with
  | nil => simp [sizeQ]
  | cons x a ih =>
    rw [List.cons_append]
    simp only [sizeQ, ih]
    omega

/-- The invariant of a history of successful calls. -/
theorem tracked_inv {s : DikeAsyncReader} {n : Nat} (h : Tracked s n) :
    (pending s).length ≤ n ∧
    s.bytesRead = toInt32 ((n : Int) - ((pending s).length : Int)) ∧
    WellPlaced s ∧ sizeQ (s.buffer.toList ++ s.work_q) ≤ n := by
  have step : ∀ (s t : DikeAsyncReader) (n d : Nat),
      (pending s).length ≤ n → s.bytesRead = toInt32 ((n : Int) - ((pending s).length : Int)) →
      (pending t).length + d = (pending s).length →
      t.bytesRead = toInt32 (s.bytesRead + (d : Int)) →
      (pending t).length ≤ n ∧
        t.bytesRead = toInt32 ((n : Int) - ((pending t).length : Int)) := by
    intro s t n d h1 h2 h3 h4
    refine ⟨by omega, ?_⟩
    rw [h4, h2, toInt32_add_toInt32]
    congr 1
    omega
  induction h with
  | init blockSize record =>
    refine ⟨Nat.le_refl 0, (by decide : (0 : Int) = toInt32 (((0 : Nat) : Int) - ((0 : Nat) : Int))),
      ⟨?_, ?_⟩, Nat.le_refl 0⟩
    · intro b hb
      exact absurd hb (List.not_mem_nil b)
    · intro b hb
      cases hb
  | @take s t n _ ht ih =>
    have e : t.buffer = s.buffer ∧ t.work_q = s.work_q ∧ t.bytesRead = s.bytesRead := by
      unfold workerTake at ht
      split at ht
      · cases ht
      · split at ht
        · cases ht
        · split at ht
          · simp only [Option.some.injEq] at ht
            rw [← ht]
            exact ⟨rfl, rfl, rfl⟩
          · cases ht
    obtain ⟨e1, e2, e3⟩ := e
    unfold pending WellPlaced at ih ⊢
    rw [e1, e2, e3]
    exact ih
  | @publish s t n chunk _ hp ih =>
    obtain ⟨i1, i2, i3, i4⟩ := ih
    cases hfill : s.filling with
    | none =>
      unfold workerPublish at hp
      rw [hfill] at hp
      cases hp
    | some b =>
      have hw := workerPublish_work_q hfill hp
      have e : t.buffer = s.buffer ∧ t.bytesRead = s.bytesRead := by
        unfold workerPublish at hp
        rw [hfill] at hp
        simp only [Option.some.injEq] at hp
        rw [← hp]
        exact ⟨rfl, rfl⟩
      have hpend : pending t = pending s ++ chunk := by
        unfold pending
        rw [e.1, hw, ← List.append_assoc, pendingQ_append, pendingQ_append]
        simp [pendingQ, DikeBuffer.rest, DikeBuffer.refill]
      refine ⟨?_, ?_, ⟨?_, ?_⟩, ?_⟩
      · rw [hpend, List.length_append]
        omega
      · rw [e.2, i2, hpend, List.length_append]
        congr 1
        push_cast
        omega
      · intro c hc
        rw [hw] at hc
        rcases List.mem_append.1 hc with h1 | h1
        · exact i3.1 c h1
        · rw [List.mem_singleton] at h1
          rw [h1]
          rfl
      · intro c hc
        rw [e.1] at hc
        exact i3.2 c hc
      · rw [e.1, hw, ← List.append_assoc, sizeQ_append]
        simp only [sizeQ, DikeBuffer.refill]
        omega
  | @ctorGet s t n _ hc ih =>
    obtain ⟨i1, i2, i3, i4⟩ := ih
    unfold ctorGetBuffer at hc
    split at hc
    · rename_i b s1 hnone hg
      simp only [Option.some.injEq] at hc
      have hq := getBuffer_work_q hg
      have e : s1.bytesRead = s.bytesRead := by
        unfold getBuffer at hg
        rw [hq] at hg
        simp only [Option.some.injEq, Prod.mk.injEq] at hg
        rw [← hg.2]
      have hpend : pending t = pending s := by
        unfold pending
        rw [← hc, hnone, hq]
        rfl
      have hsize : sizeQ (t.buffer.toList ++ t.work_q) = sizeQ (s.buffer.toList ++ s.work_q) := by
        rw [← hc, hnone, hq]
        rfl
      refine ⟨by rw [hpend]; exact i1, ?_, ⟨?_, ?_⟩, by rw [hsize]; exact i4⟩
      · rw [hpend, ← i2, ← hc]
        exact e
      · intro c hc1
        rw [← hc] at hc1
        exact i3.1 c (by rw [hq]; exact List.mem_cons_of_mem _ hc1)
      · intro c hc1
        rw [← hc] at hc1
        simp only [Option.some.injEq] at hc1
        rw [← hc1, i3.1 b (by rw [hq]; exact List.mem_cons_self _ _)]
        exact Nat.zero_le _
    · cases hc
  | delims f r q _ ih => exact ih
  | @seek s t n _ hs ih =>
    obtain ⟨i1, i2, i3, i4⟩ := ih
    obtain ⟨d, _, hd2, hd3⟩ := (seekRecord_consumed hs).1 rfl
    obtain ⟨j1, j2⟩ := step s t n d i1 i2 hd2 hd3
    exact ⟨j1, j2, seekRecord_placed i3 hs, by rw [seekRecord_size hs]; exact i4⟩
  | @field s t n pos _ hf ih =>
    obtain ⟨i1, i2, i3, i4⟩ := ih
    obtain ⟨d, _, hd2, hd3⟩ := (readField_consumed hf).1 rfl
    obtain ⟨j1, j2⟩ := step s t n d i1 i2 hd2 hd3
    exact ⟨j1, j2, readField_placed i3 hf, Nat.le_trans (readField_size hf) i4⟩
  | @record s t n _ hr ih =>
    obtain ⟨i1, i2, i3, i4⟩ := ih
    obtain ⟨d, hd1, hd2⟩ := readRecord_consumed (by rw [i2]; exact isInt32_toInt32 _) hr
    obtain ⟨j1, j2⟩ := step s t n d i1 i2 (hd2 rfl).2 hd1
    refine ⟨j1, j2, readRecord_placed i3 hr, ?_⟩
    exact readRecord_keeps (fun x => sizeQ (x.buffer.toList ++ x.work_q) ≤ n)
      (fun _ _ hx => hx)
      (fun x hx => by
        have e := enterRecord_ready x
        simp only [e.1, e.2]
        exact hx)
      (fun _ _ _ _ hx hxf => Nat.le_trans (readField_size hxf) hx) i4 hr

theorem noColumns_tracked : Tracked noColumns 4 := by
  have h0 := Tracked.init 0 (DikeRecord.new 0 (fun _ => 0))
  have h1 : Tracked
      { construct 0 (DikeRecord.new 0 (fun _ => 0)) with
        free_q := [{ id := 1, data := [], pos := 0 }, { id := 2, data := [], pos := 0 },
          { id := 3, data := [], pos := 0 }]
        filling := some { id := 0, data := [], pos := 0 } } 0 := Tracked.take h0 rfl
  have h2 : Tracked
      { construct 0 (DikeRecord.new 0 (fun _ => 0)) with
        free_q := [{ id := 1, data := [], pos := 0 }, { id := 2, data := [], pos := 0 },
          { id := 3, data := [], pos := 0 }]
        work_q := [{ id := 0, data := [49, 44, 50, 10], pos := 0 }] } (0 + 4) :=
    Tracked.publish [49, 44, 50, 10] h1 rfl
  exact Tracked.ctorGet h2 rfl

theorem started_tracked : Tracked started 6 := by
  have h0 := Tracked.init 0 (DikeRecord.new 3 (fun _ => 0))
  have h1 : Tracked takenOne 0 := Tracked.take h0 rfl
  have h2 : Tracked
      { construct 0 (DikeRecord.new 3 (fun _ => 0)) with
        free_q := [{ id := 1, data := [], pos := 0 }, { id := 2, data := [], pos := 0 },
          { id := 3, data := [], pos := 0 }]
        work_q := [{ id := 0, data := bytes "1,2,3\n", pos := 0 }] } (0 + 6) :=
    Tracked.publish (bytes "1,2,3\n") h1 rfl
  exact Tracked.ctorGet h2 rfl

/-- C17 as stated fails. With a record of no column, `readRecord` after
construction returns 0 and leaves `bytesRead` as it was, so a successful call
need not increase it; and at `bytesRead = 2^31 - 1` a successful `readField`
that consumes `7\n` leaves `bytesRead` at `-2^31 + 1`, since the counter is
an `int`. -/
theorem bytesRead_tracks_counterexample :
    (Tracked noColumns 4 ∧ noColumns.record.nCol = 0 ∧ noColumns.bytesRead = 0 ∧
      (readRecord noColumns).map Prod.fst = some 0 ∧
      (readRecord noColumns).map (fun p => p.2.bytesRead) = some 0) ∧
    (nearLimit.bytesRead = 2147483647 ∧ (readField 0 nearLimit).map Prod.fst = some 0 ∧
      (readField 0 nearLimit).map (fun p => p.2.bytesRead) = some (-2147483647)) :=
  ⟨⟨noColumns_tracked, rfl, rfl, by decide, by decide⟩, rfl, by decide, by decide⟩

/-- C17 (amended). `bytesRead` tracks the stream position in `int` arithmetic:
after every history of successful `seekRecord`, `readField` and `readRecord`
calls from construction on, the sizes of all buffers already left behind plus
the cursor's offset in the current buffer plus the bytes not yet consumed make
up the bytes the Byte Source delivered, and `bytesRead` is the sizes of the
buffers left behind plus the cursor's offset, reduced to an `int`, hence equal
to it while it is below 2^31. Every call of `seekRecord`, `readField` and
`readRecord` that returns adds a number `d ≥ 0` of bytes to `bytesRead` in
`int` arithmetic (so it does not decrease `bytesRead` when the sum fits an
`int`); `d ≥ 1` for a successful `seekRecord` or `readField`, and `d` is at
least the number of columns for a successful `readRecord`. -/
theorem bytesRead_tracks (s : DikeAsyncReader) (n : Nat) (h : Tracked s n) :
    leftBehind n s + cursorOffset s + (pending s).length = n ∧
    s.bytesRead = toInt32 ((leftBehind n s + cursorOffset s : Nat) : Int) ∧
    (leftBehind n s + cursorOffset s < 2147483648 →
      s.bytesRead = ((leftBehind n s + cursorOffset s : Nat) : Int)) ∧
    (∀ r t, seekRecord s = some (r, t) →
      ∃ d : Nat, t.bytesRead = toInt32 (s.bytesRead + (d : Int)) ∧ (r = 0 → 1 ≤ d) ∧
        (IsInt32 (s.bytesRead + (d : Int)) → t.bytesRead = s.bytesRead + (d : Int))) ∧
    (∀ pos r t, readField pos s = some (r, t) →
      ∃ d : Nat, t.bytesRead = toInt32 (s.bytesRead + (d : Int)) ∧ (r = 0 → 1 ≤ d) ∧
        (IsInt32 (s.bytesRead + (d : Int)) → t.bytesRead = s.bytesRead + (d : Int))) ∧
    (∀ r t, readRecord s = some (r, t) →
      ∃ d : Nat, t.bytesRead = toInt32 (s.bytesRead + (d : Int)) ∧
        (r = 0 → s.record.nCol ≤ d) ∧
        (IsInt32 (s.bytesRead + (d : Int)) → t.bytesRead = s.bytesRead + (d : Int))) := by
  obtain ⟨i1, i2, i3, i4⟩ := tracked_inv h
  have hsize := pending_size s i3
  have hi : IsInt32 s.bytesRead := by
    rw [i2]
    exact isInt32_toInt32 _
  have h0 : toInt32 (s.bytesRead + ((0 : Nat) : Int)) = s.bytesRead := by
    rw [Int.Nat.cast_ofNat_Int, Int.add_zero, toInt32_of_isInt32 hi]
  have hpos : ((leftBehind n s + cursorOffset s : Nat) : Int)
      = (n : Int) - ((pending s).length : Int) := by
    unfold leftBehind
    omega
  have exact_of : ∀ (t : DikeAsyncReader) (d : Nat),
      t.bytesRead = toInt32 (s.bytesRead + (d : Int)) →
      IsInt32 (s.bytesRead + (d : Int)) → t.bytesRead = s.bytesRead + (d : Int) :=
    fun t d e hr => e.trans (toInt32_of_isInt32 hr)
  refine ⟨?_, ?_, ?_, ?_, ?_, ?_⟩
  · unfold leftBehind
    omega
  · rw [hpos]
    exact i2
  · intro hlt
    rw [i2, ← hpos]
    apply toInt32_of_isInt32
    unfold IsInt32
    omega
  · intro r t hs
    by_cases hr : r = 0
    · subst hr
      obtain ⟨d, hd1, _, hd3⟩ := (seekRecord_consumed hs).1 rfl
      exact ⟨d, hd3, fun _ => hd1, exact_of t d hd3⟩
    · have e := (seekRecord_consumed hs).2 hr
      rw [e]
      exact ⟨0, h0.symm, fun h1 => absurd h1 hr, exact_of s 0 h0.symm⟩
  · intro pos r t hf
    by_cases hr : r = 0
    · subst hr
      obtain ⟨d, hd1, _, hd3⟩ := (readField_consumed hf).1 rfl
      exact ⟨d, hd3, fun _ => hd1, exact_of t d hd3⟩
    · have e : t.bytesRead = toInt32 (s.bytesRead + ((0 : Nat) : Int)) := by
        rw [h0]
        exact (readField_consumed hf).2 hr
      exact ⟨0, e, fun h1 => absurd h1 hr, exact_of t 0 e⟩
  · intro r t hrr
    obtain ⟨d, hd1, hd2⟩ := readRecord_consumed hi hrr
    exact ⟨d, hd1, fun h1 => (hd2 h1).1, exact_of t d hd1⟩

/-- Witness for C17 (amended): after construction on a source whose first
read returned `1,2,3\n` and one `readField` call, which consumes `1,`, no
buffer is left behind, the cursor's offset is 2 and `bytesRead` is 2. -/
theorem bytesRead_tracks_witness :
    ∃ t, readField 0 started = some (0, t) ∧ Tracked t 6 ∧
      leftBehind 6 t = 0 ∧ cursorOffset t = 2 ∧ (pending t).length = 4 ∧ t.bytesRead = 2 := by
  have hf := @readField_of_first started { id := 0, data := bytes "1,2,3\n", pos := 0 } 1 0 rfl
    (by decide)
  have ht := Tracked.field 0 started_tracked hf
  have h := bytesRead_tracks _ 6 ht
  refine ⟨_, hf, ht, rfl, rfl, rfl, ?_⟩
  exact h.2.2.1 (by decide)

/-! ## The block-size limit and short reads -/

theorem current_congr (c : Hand) {s t : DikeAsyncReader}
    (h : t.buffer.map DikeBuffer.id = s.buffer.map DikeBuffer.id) :
    (c.current t).map DikeBuffer.id = (c.current s).map DikeBuffer.id := by
  cases c with
  | idle =>
    simp only [Hand.current]
    cases hs : s.buffer with
    | none =>
      rw [hs] at h
      cases ht : t.buffer with
      | none => rfl
      | some b =>
        rw [ht] at h
        cases h
    | some a =>
      rw [hs] at h
      cases ht : t.buffer with
      | none =>
        rw [ht] at h
        cases h
      | some b =>
        rw [ht] at h
        simp only [Option.map_some', Option.some.injEq] at h
        simp [h]
  | held => rfl
  | got b => rfl
  | popped b =>
    simp only [Hand.current]
    cases hs : s.buffer with
    | none =>
      rw [hs] at h
      cases ht : t.buffer with
      | none => rfl
      | some b =>
        rw [ht] at h
        cases h
    | some a =>
      rw [hs] at h
      cases ht : t.buffer with
      | none =>
        rw [ht] at h
        cases h
      | some b =>
        rw [ht] at h
        simp only [Option.map_some', Option.some.injEq] at h
        simp [h]

theorem placeIds_count (a : Nat) (s : DikeAsyncReader) (c : Hand) :
    (placeIds s c).count a =
      ((c.current s).map DikeBuffer.id).count a + (s.tmp_q.map DikeBuffer.id).count a +
      (s.work_q.map DikeBuffer.id).count a + (s.free_q.map DikeBuffer.id).count a +
      (s.filling.toList.map DikeBuffer.id).count a + (c.carried.map DikeBuffer.id).count a := by
  simp only [placeIds, List.map_append, List.count_append]

/-- Every statement keeps the pool: the same buffer identities, each as often,
over the six places. -/
theorem micro_placeIds {x y : DikeAsyncReader × Hand} (h : Micro x y) :
    (placeIds y.1 y.2).Perm (placeIds x.1 x.2) := by
  rw [List.perm_iff_count]
  intro a
  rw [placeIds_count, placeIds_count]
  cases h with
  | @take s t c ht =>
    unfold workerTake at ht
    split at ht
    · simp at ht
    · split at ht
      · simp at ht
      · split at ht
        · rename_i b q hfill hfree
          simp only [Option.some.injEq] at ht
          subst ht
          cases c <;>
          simp only [Hand.current, Hand.carried, hfill, hfree, Option.toList_none,
            Option.toList_some, List.map_cons, List.map_nil, List.count_cons, List.count_nil] <;>
          omega
        · simp at ht
  | @publish s t c chunk _ hp =>
    unfold workerPublish at hp
    split at hp
    · simp at hp
    · rename_i b hfill
      simp only [Option.some.injEq] at hp
      subst hp
      cases c <;>
      simp only [Hand.current, Hand.carried, hfill, DikeBuffer.refill, Option.toList_none,
        Option.toList_some, List.map_append, List.map_cons, List.map_nil, List.count_append,
        List.count_cons, List.count_nil] <;>
      omega
  | @hold s buf hb =>
    simp only [Hand.current, Hand.carried, holdBuffer, hb, Option.toList_some, List.map_append,
      List.map_cons, List.map_nil, List.count_append, List.count_cons, List.count_nil]
    omega
  | @get s t b hg =>
    unfold getBuffer at hg
    cases hw : s.work_q with
    | nil => simp [hw] at hg
    | cons b1 q =>
      simp only [hw, Option.some.injEq, Prod.mk.injEq] at hg
      obtain ⟨rfl, rfl⟩ := hg
      simp only [Hand.current, Hand.carried, List.map_cons, List.map_nil, List.count_cons,
        List.count_nil]
      omega
  | @ctorGet s t b hb hg =>
    unfold getBuffer at hg
    cases hw : s.work_q with
    | nil => simp [hw] at hg
    | cons b1 q =>
      simp only [hw, Option.some.injEq, Prod.mk.injEq] at hg
      obtain ⟨rfl, rfl⟩ := hg
      simp only [Hand.current, Hand.carried, hb, Option.toList_none, List.map_cons,
        List.map_nil, List.count_cons, List.count_nil]
      omega
  | @assign s b =>
    simp only [Hand.current, Hand.carried, Option.toList_some, List.map_cons, List.map_nil,
      List.count_cons, List.count_nil]
    omega
  | @pop s b q hq =>
    simp only [Hand.current, Hand.carried, hq, List.map_cons, List.map_nil, List.count_cons,
      List.count_nil]
    omega
  | @push s b =>
    simp only [Hand.current, Hand.carried, pushBuffer, List.map_append, List.map_cons,
      List.map_nil, List.count_append, List.count_cons, List.count_nil]
    omega
  | @other s t c hs =>
    obtain ⟨h1, h2, h3, h4, h5⟩ := hs
    rw [current_congr c h5, h1, h2, h3, h4]

/-- In every state reached statement by statement each pool buffer is in
exactly one of the six places. -/
theorem microReachable_perm {x : DikeAsyncReader × Hand} (h : MicroReachable x) :
    (placeIds x.1 x.2).Perm [0, 1, 2, 3] := by
  induction h with
  | init blockSize record => exact List.Perm.refl _
  | step _ hstep ih => exact (micro_placeIds hstep).trans ih

/-- While the consumer stands between `holdBuffer(buffer)` and the assignment
of the next buffer, the member `buffer` points to a held buffer or, in the
constructor, to none. -/
theorem microReachable_stale {x : DikeAsyncReader × Hand} (h : MicroReachable x) :
    (x.2 = Hand.held →
      ∃ buf, x.1.buffer = some buf ∧ buf.id ∈ x.1.tmp_q.map DikeBuffer.id) ∧
    (∀ b, x.2 = Hand.got b →
      x.1.buffer = none ∨
        ∃ buf, x.1.buffer = some buf ∧ buf.id ∈ x.1.tmp_q.map DikeBuffer.id) := by
  induction h with
  | init blockSize record =>
    exact ⟨fun h => (by cases h), fun b h => (by cases h)⟩
  | step _ hstep ih =>
    cases hstep with
    | @take s t c ht =>
      have e : t.buffer = s.buffer ∧ t.tmp_q = s.tmp_q := by
        unfold workerTake at ht
        split at ht
        · simp at ht
        · split at ht
          · simp at ht
          · split at ht
            · simp only [Option.some.injEq] at ht
              subst ht
              exact ⟨rfl, rfl⟩
            · simp at ht
      simp only [e.1, e.2]
      exact ih
    | @publish s t c chunk _ hp =>
      have e : t.buffer = s.buffer ∧ t.tmp_q = s.tmp_q := by
        unfold workerPublish at hp
        split at hp
        · simp at hp
        · simp only [Option.some.injEq] at hp
          subst hp
          exact ⟨rfl, rfl⟩
      simp only [e.1, e.2]
      exact ih
    | @hold s buf hb =>
      refine ⟨fun _ => ⟨buf, hb, ?_⟩, fun b h => (by cases h)⟩
      simp [holdBuffer]
    | @get s t b hg =>
      have e : t.buffer = s.buffer ∧ t.tmp_q = s.tmp_q := by
        unfold getBuffer at hg
        cases hw : s.work_q with
        | nil => simp [hw] at hg
        | cons b1 q =>
          simp only [hw, Option.some.injEq, Prod.mk.injEq] at hg
          obtain ⟨_, rfl⟩ := hg
          exact ⟨rfl, rfl⟩
      refine ⟨fun h => (by cases h), fun _ _ => Or.inr ?_⟩
      simp only [e.1, e.2]
      exact ih.1 rfl
    | @ctorGet s t b hb hg =>
      have e : t.buffer = s.buffer := by
        unfold getBuffer at hg
        cases hw : s.work_q with
        | nil => simp [hw] at hg
        | cons b1 q =>
          simp only [hw, Option.some.injEq, Prod.mk.injEq] at hg
          obtain ⟨_, rfl⟩ := hg
          rfl
      refine ⟨fun h => (by cases h), fun _ _ => Or.inl ?_⟩
      simp only [e]
      exact hb
    | @assign s b => exact ⟨fun h => (by cases h), fun b h => (by cases h)⟩
    | @pop s b q hq => exact ⟨fun h => (by cases h), fun b h => (by cases h)⟩
    | @push s b => exact ⟨fun h => (by cases h), fun b h => (by cases h)⟩
    | @other s t c hs =>
      obtain ⟨_, _, h3, _, h5⟩ := hs
      have key : ∀ buf, s.buffer = some buf → buf.id ∈ s.tmp_q.map DikeBuffer.id →
          ∃ buf1, t.buffer = some buf1 ∧ buf1.id ∈ t.tmp_q.map DikeBuffer.id := by
        intro buf hb hm
        rw [hb] at h5
        cases ht : t.buffer with
        | none =>
          rw [ht] at h5
          cases h5
        | some b1 =>
          rw [ht] at h5
          simp only [Option.map_some', Option.some.injEq] at h5
          exact ⟨b1, rfl, by rw [h5, h3]; exact hm⟩
      refine ⟨fun hc => ?_, fun b hc => ?_⟩
      · obtain ⟨buf, hb, hm⟩ := ih.1 hc
        exact key buf hb hm
      · rcases ih.2 b hc with hn | ⟨buf, hb, hm⟩
        · left
          rw [hn] at h5
          cases ht : t.buffer with
          | none => rfl
          | some b1 =>
            rw [ht] at h5
            cases h5
        · exact Or.inr (key buf hb hm)

/-! ### The calls of the tokenizer as runs of statements -/

theorem microRun_trans {x y z : DikeAsyncReader × Hand} (h1 : MicroRun x y)
    (h2 : MicroRun y z) : MicroRun x z := by
  induction h2 with
  | refl => exact h1
  | tail _ hstep ih => exact MicroRun.tail ih hstep

theorem microRun_single {x y : DikeAsyncReader × Hand} (h : Micro x y) : MicroRun x y :=
  MicroRun.tail (MicroRun.refl x) h

theorem microReachable_of_run {x y : DikeAsyncReader × Hand} (hx : MicroReachable x)
    (h : MicroRun x y) : MicroReachable y := by
  induction h with
  | refl => exact hx
  | tail _ hstep ih => exact MicroReachable.step ih hstep

/-- A `readField` call is a run of statements: on the fast path no buffer
moves; on the slow path `holdBuffer(buffer)`, `getBuffer` and the assignment of
its result to `buffer` run in this order. -/
theorem readField_run {pos : Nat} {s t : DikeAsyncReader} {r : Int}
    (h : readField pos s = some (r, t)) : MicroRun (s, Hand.idle) (t, Hand.idle) := by
  obtain ⟨buf, hb, hs⟩ := readField_shape h
  obtain ⟨_, _, _, _, hfree, _, _, _, _, hfill, _, _⟩ := readField_frame h
  rcases hs with ⟨b1, hb1, hid, htmp, hwork, _⟩ | ⟨nb, q, b1, hw, hb1, hid, htmp, hwork, _⟩
  · apply microRun_single
    refine Micro.other ⟨hfree, hwork, htmp, hfill, ?_⟩
    rw [hb1, hb]
    simp [hid]
  · have h1 : Micro (s, Hand.idle) (holdBuffer buf s, Hand.held) := Micro.hold hb
    have hg : getBuffer (holdBuffer buf s) =
        some (nb, { holdBuffer buf s with work_q := q }) := by
      unfold getBuffer
      have e : (holdBuffer buf s).work_q = nb :: q := hw
      rw [e]
    have h2 : Micro (holdBuffer buf s, Hand.held)
        ({ holdBuffer buf s with work_q := q }, Hand.got nb) := Micro.get hg
    have h3 : Micro ({ holdBuffer buf s with work_q := q }, Hand.got nb)
        ({ ({ holdBuffer buf s with work_q := q } : DikeAsyncReader) with buffer := some nb },
          Hand.idle) := Micro.assign
    have h4 : Micro
        ({ ({ holdBuffer buf s with work_q := q } : DikeAsyncReader) with buffer := some nb },
          Hand.idle) (t, Hand.idle) := by
      refine Micro.other ⟨hfree, hwork, htmp, hfill, ?_⟩
      rw [hb1]
      simp [hid]
    exact MicroRun.tail (MicroRun.tail (MicroRun.tail (microRun_single h1) h2) h3) h4

/-- The loop of `releaseBuffers` is a run of pops of the held queue, each
followed by its `pushBuffer`. -/
theorem releaseLoop_run (q : List DikeBuffer) :
    ∀ (s : DikeAsyncReader), s.tmp_q = q →
      MicroRun (s, Hand.idle) (releaseLoop q s, Hand.idle) := by
  induction q with
  | nil =>
    intro s hq
    apply microRun_single
    exact Micro.other ⟨rfl, rfl, hq.symm, rfl, rfl⟩
  | cons b q ih =>
    intro s hq
    have h1 : Micro (s, Hand.idle) ({ s with tmp_q := q }, Hand.popped b) := Micro.pop hq
    have h2 : Micro ({ s with tmp_q := q }, Hand.popped b)
        (pushBuffer b { s with tmp_q := q }, Hand.idle) := Micro.push
    exact microRun_trans (MicroRun.tail (microRun_single h1) h2)
      (ih (pushBuffer b { s with tmp_q := q }) rfl)

theorem readRecordLoop_run (n : Nat) :
    ∀ (i : Nat) (s t : DikeAsyncReader) (r : Int), readRecordLoop n i s = some (r, t) →
      MicroRun (s, Hand.idle) (t, Hand.idle) := by
  induction n with
  | zero =>
    intro i s t r h
    simp only [readRecordLoop, Option.some.injEq, Prod.mk.injEq] at h
    rw [← h.2]
    exact MicroRun.refl _
  | succ n ih =>
    intro i s t r h
    rw [readRecordLoop_succ] at h
    cases hrf : readField i (resetField i s) with
    | none =>
      unfold resetField at hrf
      rw [hrf] at h
      cases h
    | some x =>
      obtain ⟨r1, s1⟩ := x
      have h0 : MicroRun (s, Hand.idle) (resetField i s, Hand.idle) :=
        microRun_single (Micro.other ⟨rfl, rfl, rfl, rfl, rfl⟩)
      have h1 := microRun_trans h0 (readField_run hrf)
      unfold resetField at hrf
      rw [hrf] at h
      by_cases hr1 : r1 = 0
      · subst hr1
        simp only [ne_eq, not_true_eq_false, if_false] at h
        exact microRun_trans h1 (ih _ _ _ _ h)
      · simp only [ne_eq, hr1, not_false_eq_true, if_true, Option.some.injEq,
          Prod.mk.injEq] at h
        rw [← h.2]
        exact h1

/-- A `readRecord` call is a run of statements: the pops and pushes of
`releaseBuffers`, then the field calls. -/
theorem readRecord_run {s t : DikeAsyncReader} {r : Int}
    (h : readRecord s = some (r, t)) : MicroRun (s, Hand.idle) (t, Hand.idle) := by
  by_cases heof : isEOF s = true
  · unfold readRecord at h
    simp only [heof, if_true, Option.some.injEq, Prod.mk.injEq] at h
    rw [← h.2]
    exact MicroRun.refl _
  · have heof2 : isEOF s = false := by simpa using heof
    rw [readRecord_enter s heof2] at h
    have h1 : MicroRun (s, Hand.idle) (releaseBuffers s, Hand.idle) := releaseLoop_run _ s rfl
    have h2 : MicroRun (releaseBuffers s, Hand.idle) (enterRecord s, Hand.idle) :=
      microRun_single (Micro.other ⟨rfl, rfl, rfl, rfl, rfl⟩)
    exact microRun_trans (microRun_trans h1 h2) (readRecordLoop_run _ _ _ _ _ h)

/-- Every step of the reader between whole calls is a run of statements. -/
theorem step_run {s t : DikeAsyncReader} (h : Step s t) :
    MicroRun (s, Hand.idle) (t, Hand.idle) := by
  cases h with
  | take h => exact microRun_single (Micro.take h)
  | publish chunk hc h => exact microRun_single (Micro.publish chunk hc h)
  | ctorGet h =>
    unfold ctorGetBuffer at h
    split at h
    · rename_i b s1 hnone hg
      simp only [Option.some.injEq] at h
      rw [← h]
      exact MicroRun.tail (microRun_single (Micro.ctorGet hnone hg)) Micro.assign
    · cases h
  | delims f r q => exact microRun_single (Micro.other ⟨rfl, rfl, rfl, rfl, rfl⟩)
  | seek h =>
    apply microRun_single
    unfold seekRecord at h
    cases hb : s.buffer with
    | none => simp [hb] at h
    | some buf =>
      simp only [hb] at h
      cases hscan : scanRecord s.rDelim s.qDelim buf.rest false 0 with
      | none =>
        simp only [hscan, Option.some.injEq, Prod.mk.injEq] at h
        rw [← h.2]
        exact Micro.other ⟨rfl, rfl, rfl, rfl, rfl⟩
      | some k =>
        simp only [hscan, Option.some.injEq, Prod.mk.injEq] at h
        rw [← h.2]
        exact Micro.other ⟨rfl, rfl, rfl, rfl, by simp [hb]⟩
  | field pos h => exact readField_run h
  | record h => exact readRecord_run h

/-- The states reached by whole calls are reached statement by statement, with
the consumer between two calls. -/
theorem reachable_micro {s : DikeAsyncReader} (h : Reachable s) :
    MicroReachable (s, Hand.idle) := by
  induction h with
  | init blockSize record => exact MicroReachable.init blockSize record
  | step _ hstep ih => exact microReachable_of_run ih (step_run hstep)

/-! ### The pool invariant -/

theorem noDelimiter_reachable : Reachable noDelimiter := by
  have h0 := Reachable.init 0 (DikeRecord.new 1 (fun _ => 0))
  have h1 : Step (construct 0 (DikeRecord.new 1 (fun _ => 0)))
      { construct 0 (DikeRecord.new 1 (fun _ => 0)) with
        free_q := [{ id := 1, data := [], pos := 0 }, { id := 2, data := [], pos := 0 },
          { id := 3, data := [], pos := 0 }]
        filling := some { id := 0, data := [], pos := 0 } } := Step.take rfl
  have h2 : Step
      { construct 0 (DikeRecord.new 1 (fun _ => 0)) with
        free_q := [{ id := 1, data := [], pos := 0 }, { id := 2, data := [], pos := 0 },
          { id := 3, data := [], pos := 0 }]
        filling := some { id := 0, data := [], pos := 0 } }
      { construct 0 (DikeRecord.new 1 (fun _ => 0)) with
        free_q := [{ id := 1, data := [], pos := 0 }, { id := 2, data := [], pos := 0 },
          { id := 3, data := [], pos := 0 }]
        work_q := [{ id := 0, data := [97, 98], pos := 0 }] } :=
    Step.publish [97, 98] (by decide) rfl
  have h3 : Step
      { construct 0 (DikeRecord.new 1 (fun _ => 0)) with
        free_q := [{ id := 1, data := [], pos := 0 }, { id := 2, data := [], pos := 0 },
          { id := 3, data := [], pos := 0 }]
        work_q := [{ id := 0, data := [97, 98], pos := 0 }] }
      noDelimiter := Step.ctorGet rfl
  exact Reachable.step (Reachable.step (Reachable.step h0 h1) h2) h3

theorem waiting_reachable : MicroReachable (waiting, Hand.held) :=
  MicroReachable.step (reachable_micro noDelimiter_reachable) (Micro.hold rfl)

theorem fetched_reachable :
    MicroReachable (fetched, Hand.got { id := 0, data := [97, 98], pos := 0 }) := by
  have h0 := MicroReachable.init 0 (DikeRecord.new 1 (fun _ => 0))
  have h1 : Micro (construct 0 (DikeRecord.new 1 (fun _ => 0)), Hand.idle)
      ({ construct 0 (DikeRecord.new 1 (fun _ => 0)) with
        free_q := [{ id := 1, data := [], pos := 0 }, { id := 2, data := [], pos := 0 },
          { id := 3, data := [], pos := 0 }]
        filling := some { id := 0, data := [], pos := 0 } }, Hand.idle) := Micro.take rfl
  have h2 : Micro
      ({ construct 0 (DikeRecord.new 1 (fun _ => 0)) with
        free_q := [{ id := 1, data := [], pos := 0 }, { id := 2, data := [], pos := 0 },
          { id := 3, data := [], pos := 0 }]
        filling := some { id := 0, data := [], pos := 0 } }, Hand.idle)
      ({ construct 0 (DikeRecord.new 1 (fun _ => 0)) with
        free_q := [{ id := 1, data := [], pos := 0 }, { id := 2, data := [], pos := 0 },
          { id := 3, data := [], pos := 0 }]
        work_q := [{ id := 0, data := [97, 98], pos := 0 }] }, Hand.idle) :=
    Micro.publish [97, 98] (by decide) rfl
  have h3 : Micro
      ({ construct 0 (DikeRecord.new 1 (fun _ => 0)) with
        free_q := [{ id := 1, data := [], pos := 0 }, { id := 2, data := [], pos := 0 },
          { id := 3, data := [], pos := 0 }]
        work_q := [{ id := 0, data := [97, 98], pos := 0 }] }, Hand.idle)
      (fetched, Hand.got { id := 0, data := [97, 98], pos := 0 }) := Micro.ctorGet rfl rfl
  exact MicroReachable.step (MicroReachable.step (MicroReachable.step h0 h1) h2) h3

/-- C12 as stated fails, in three ways. After construction and the first half
of a Worker iteration, the free queue, the ready queue, the held queue and the
current buffer hold three buffers together, not `QUEUE_SIZE`: the fourth is the
one the Worker is filling. Inside `readField(0)` on a current buffer `ab`
without delimiter, after `holdBuffer(buffer)` and while `getBuffer` waits for a
ready buffer, the four places hold five entries: pool buffer 0 is both the
current buffer and in the held queue. And in the constructor, after `getBuffer`
popped the first ready buffer and before it is assigned to `buffer`, the four
places hold three buffers: the fourth is in the consumer's local variable. -/
theorem pool_invariant_counterexample :
    (Reachable takenOne ∧ MicroReachable (takenOne, Hand.idle) ∧ poolCount takenOne = 3 ∧
      QUEUE_SIZE = 4 ∧ takenOne.filling = some { id := 0, data := [], pos := 0 }) ∧
    (Reachable noDelimiter ∧ readField 0 noDelimiter = none ∧
      MicroReachable (waiting, Hand.held) ∧ poolCount waiting = 5 ∧
      waiting.filling = none ∧ ¬ (poolIds waiting).Nodup ∧
      waiting.buffer = some { id := 0, data := [97, 98], pos := 0 } ∧
      waiting.tmp_q = [{ id := 0, data := [97, 98], pos := 0 }]) ∧
    (MicroReachable (fetched, Hand.got { id := 0, data := [97, 98], pos := 0 }) ∧
      poolCount fetched = 3 ∧ fetched.filling = none) :=
  ⟨⟨takenOne_reachable, reachable_micro takenOne_reachable, rfl, rfl, rfl⟩,
    ⟨noDelimiter_reachable, rfl, waiting_reachable, rfl, rfl, by decide, rfl, rfl⟩,
    fetched_reachable, rfl, rfl⟩

/-- C12 (amended). Pool invariant: in every state reached from construction,
statement by statement, by Worker steps (take a free buffer, publish it as
ready) and the consumer operations as the reader runs them (`getBuffer`,
`holdBuffer`, the pops and `pushBuffer` calls of `releaseBuffers`, and with
them `readField` and `readRecord`), every pool buffer is in exactly one of six
places: the free queue, the ready queue, the held queue, the current buffer,
the Worker's local variable (between its take and its publish) and the
consumer's local variable (between the pop in `getBuffer` and the assignment to
`buffer`, and between the pop in `releaseBuffers` and `pushBuffer`); the member
`buffer` is not counted between `holdBuffer(buffer)` and that assignment, when
it points to a buffer already in the held queue. So the six counts add up to
`QUEUE_SIZE`. Between two statements that move a buffer (`idle`) the free
queue, the ready queue, the held queue and the current buffer hold
`QUEUE_SIZE` buffers minus the one the Worker may be filling, none twice: with
the Worker filling none, exactly `QUEUE_SIZE`. After `holdBuffer(buffer)` and
until `getBuffer` returns, these four places hold one entry more, the current
buffer being held too. Every whole call of the tokenizer is such a run of
statements. -/
theorem pool_invariant (s : DikeAsyncReader) (c : Hand) (h : MicroReachable (s, c)) :
    (placeIds s c).Perm (List.range QUEUE_SIZE) ∧ (placeIds s c).Nodup ∧
    (c.current s).length + s.tmp_q.length + s.work_q.length + s.free_q.length +
      s.filling.toList.length + c.carried.length = QUEUE_SIZE ∧
    (c = Hand.idle →
      poolCount s + s.filling.toList.length = QUEUE_SIZE ∧ (poolIds s).Nodup ∧
      (s.filling = none → poolCount s = QUEUE_SIZE)) ∧
    (c = Hand.held →
      (∃ buf, s.buffer = some buf ∧ buf.id ∈ s.tmp_q.map DikeBuffer.id) ∧
      poolCount s + s.filling.toList.length = QUEUE_SIZE + 1) ∧
    (∀ b, c = Hand.got b →
      (s.buffer = none ∨ ∃ buf, s.buffer = some buf ∧ buf.id ∈ s.tmp_q.map DikeBuffer.id) ∧
      poolCount s + s.filling.toList.length + 1 = QUEUE_SIZE + s.buffer.toList.length) ∧
    (∀ b, c = Hand.popped b →
      poolCount s + s.filling.toList.length + 1 = QUEUE_SIZE) ∧
    (c = Hand.idle → MicroReachable (releaseBuffers s, Hand.idle)) ∧
    (c = Hand.idle → ∀ t, Step s t → MicroReachable (t, Hand.idle)) := by
  have hperm : (placeIds s c).Perm [0, 1, 2, 3] := microReachable_perm h
  have hstale := microReachable_stale h
  have hlen : (c.current s).length + s.tmp_q.length + s.work_q.length + s.free_q.length +
      s.filling.toList.length + c.carried.length = QUEUE_SIZE := by
    have e := hperm.length_eq
    simp only [placeIds, List.length_map, List.length_append] at e
    exact e
  have hnodup : (placeIds s c).Nodup := hperm.nodup_iff.2 (by decide)
  refine ⟨hperm, hnodup, hlen, ?_, ?_, ?_, ?_, ?_, ?_⟩
  · intro hc
    subst hc
    have e : placeIds s Hand.idle = poolIds s := by
      simp [placeIds, poolIds, Hand.current, Hand.carried]
    simp only [Hand.current, Hand.carried, List.length_nil] at hlen
    refine ⟨by unfold poolCount; omega, by rw [← e]; exact hnodup, ?_⟩
    intro hn
    rw [hn] at hlen
    simp only [Option.toList_none, List.length_nil] at hlen
    unfold poolCount
    omega
  · intro hc
    subst hc
    obtain ⟨buf, hb, hm⟩ := hstale.1 rfl
    refine ⟨⟨buf, hb, hm⟩, ?_⟩
    simp only [Hand.current, Hand.carried, List.length_nil] at hlen
    unfold poolCount
    rw [hb]
    simp only [Option.toList_some, List.length_singleton]
    omega
  · intro b hc
    subst hc
    refine ⟨hstale.2 b rfl, ?_⟩
    simp only [Hand.current, Hand.carried, List.length_nil, List.length_singleton] at hlen
    unfold poolCount
    omega
  · intro b hc
    subst hc
    simp only [Hand.current, Hand.carried, List.length_singleton] at hlen
    unfold poolCount
    omega
  · intro hc
    subst hc
    exact microReachable_of_run h (releaseLoop_run _ s rfl)
  · intro hc t ht
    subst hc
    exact microReachable_of_run h (step_run ht)

/-- Witness for C12 (amended): inside `readField(0)` on the current buffer
`ab`, after `holdBuffer(buffer)`: pool buffer 0 is current and held, the four
places hold five entries and the six places, the stale current buffer not
counted, hold the four pool buffers. -/
theorem pool_invariant_witness :
    MicroReachable (waiting, Hand.held) ∧
    (placeIds waiting Hand.held).Perm (List.range QUEUE_SIZE) ∧
    (∃ buf, waiting.buffer = some buf ∧ buf.id ∈ waiting.tmp_q.map DikeBuffer.id) ∧
    poolCount waiting + waiting.filling.toList.length = QUEUE_SIZE + 1 := by
  have h := pool_invariant waiting Hand.held waiting_reachable
  exact ⟨waiting_reachable, h.1, (h.2.2.2.2.1 rfl).1, (h.2.2.2.2.1 rfl).2⟩

end Dike
